import Mathlib

/-!
Verification of the bytedocs-go static-analysis core (package `parser` and
`pkg/core`) against its natural-language specification.

The Go sources are shallowly embedded: Go strings become `List Char`,
`interface{}` values produced by the schema builder become `Option JValue`
(`none` is Go's nil interface), Go maps built by the analyzer become
association lists with replace-or-append update (the analyzer only ever
reads them back by key, so insertion order is irrelevant to observable
behaviour), and the handful of recursions that walk through the mutable
analysis context (which Go bounds only dynamically) take an explicit fuel
argument, with `none` denoting fuel exhaustion.  Every definition mirrors
one function of the source tree; external stdlib behaviour the source
relies on (`strconv`, `reflect.StructTag.Get`, `net/http` status tables,
`encoding/json` unmarshalling) is modelled alongside, restricted to the
fragments the analyzer exercises.
-/

set_option maxRecDepth 4000

namespace ByteDocs

/-- Go strings, embedded as lists of characters so that all operations
reduce definitionally. -/
abbrev Str := List Char

/-- Conversion from Lean string literals to the embedded string type. -/
def S (s : String) : Str := s.data

/-- JSON-representable values: the subset of Go `interface0` values the
schema builder constructs (strings, int64, float64, bool, slices, and
string-keyed maps).  Go's nil interface is represented as `none` at
`Option JValue`, never as a `JValue`. -/
inductive JValue where
  | str (s : Str)
  | int (n : Int)
  | num (q : Rat)
  | bool (b : Bool)
  | arr (xs : List JValue)
  | obj (entries : List (Str × JValue))

/-- A Go `interface\x7b\x7d` value: `none` is the nil interface. -/
abbrev GoVal := Option JValue

/-- Association-list lookup by key (Go map read `m[k]`). -/
def alookup {α : Type} (m : List (Str × α)) (k : Str) : Option α :=
  match m with
  | [] => none
  | (k', v) :: rest => if k' = k then some v else alookup rest k

/-- Association-list update (Go map write `m[k] = v`): replaces the first
binding of `k`, else appends. -/
def aupsert {α : Type} (m : List (Str × α)) (k : Str) (v : α) : List (Str × α) :=
  match m with
  | [] => [(k, v)]
  | (k', v') :: rest => if k' = k then (k, v) :: rest else (k', v') :: aupsert rest k v

/-- The keys of an association list. -/
def akeys {α : Type} (m : List (Str × α)) : List Str := m.map Prod.fst

/-- Does the string `pat` occur at the start of `s`?  (Go
`strings.HasPrefix`.) -/
def strStarts (s pat : Str) : Bool :=
  match pat, s with
  | [], _ => true
  | _ :: _, [] => false
  | p :: ps, c :: cs => p = c && strStarts cs ps

/-- Substring containment (Go `strings.Contains`). -/
def strContains (s pat : Str) : Bool :=
  match s with
  | [] => strStarts [] pat
  | _ :: rest => strStarts s pat || strContains rest pat

/-- Fuel-indexed worker for `replaceAll`; one fuel unit is spent per
examined character, so `s.length` fuel always suffices. -/
def replaceAllF (fuel : Nat) (s pat repl : Str) : Str :=
  match fuel with
  | 0 => s
  | fuel + 1 =>
    match pat with
    | [] => s
    | p :: ps =>
      match s with
      | [] => []
      | c :: rest =>
        if strStarts (c :: rest) (p :: ps) then
          repl ++ replaceAllF fuel ((c :: rest).drop (p :: ps).length) (p :: ps) repl
        else c :: replaceAllF fuel rest (p :: ps) repl

/-- Go `strings.ReplaceAll`: leftmost, non-overlapping.  The analyzer only
uses nonempty patterns; an empty pattern leaves the string unchanged. -/
def replaceAll (s pat repl : Str) : Str := replaceAllF s.length s pat repl

/-- Go `strings.ToLower`, restricted to ASCII case mapping (the analyzer
only folds ASCII identifiers and tag names). -/
def strToLower (s : Str) : Str := s.map Char.toLower

/-- Model of Go `strings.EqualFold`, restricted to ASCII simple folding. -/
def strEqualFold (a b : Str) : Bool := strToLower a = strToLower b

/-- Go `strings.TrimSpace`, for the ASCII space classes the analyzer can
meet inside struct tags. -/
def isSpaceChar (c : Char) : Bool := c = ' ' || c = '\t' || c = '\n' || c = '\r'

/-- Drop leading space characters. -/
def dropLeadingSpace (s : Str) : Str :=
  match s with
  | [] => []
  | c :: rest => if isSpaceChar c then dropLeadingSpace rest else s

/-- Go `strings.TrimSpace`. -/
def trimSpace (s : Str) : Str :=
  (dropLeadingSpace ((dropLeadingSpace s).reverse)).reverse

/-- Go `strings.Trim(s, cutset)` for a single-character cutset. -/
def trimChar (s : Str) (c : Char) : Str :=
  ((s.dropWhile (· = c)).reverse.dropWhile (· = c)).reverse

/-- Go `strings.Split` on a single-character separator. -/
def splitOnChar (sep : Char) (s : Str) : List Str :=
  match s with
  | [] => [[]]
  | c :: rest =>
    match splitOnChar sep rest with
    | [] => [[]]
    | seg :: segs => if c = sep then [] :: seg :: segs else (c :: seg) :: segs

/-- Go `strings.Join` on a single-character separator. -/
def joinWithChar (sep : Char) (parts : List Str) : Str :=
  match parts with
  | [] => []
  | [p] => p
  | p :: rest => p ++ sep :: joinWithChar sep rest

/-- Decimal digit test. -/
def isDigitChar (c : Char) : Bool := '0' ≤ c && c ≤ '9'

/-- Parse an unsigned decimal numeral. -/
def parseDigits (s : Str) : Option Nat :=
  match s with
  | [] => none
  | _ =>
    if s.all isDigitChar then
      some (s.foldl (fun acc c => acc * 10 + (c.toNat - '0'.toNat)) 0)
    else none

/-- Model of Go `strconv.ParseInt(s, 10, 64)` (also `strconv.Atoi` on a
64-bit platform): optional sign, decimal digits, 64-bit range check. -/
def goParseInt (s : Str) : Option Int :=
  match s with
  | '+' :: rest => (parseDigits rest).bind fun n =>
      if (n : Int) ≤ (2:Int)^63 - 1 then some (n : Int) else none
  | '-' :: rest => (parseDigits rest).bind fun n =>
      if (n : Int) ≤ (2:Int)^63 then some (-(n : Int)) else none
  | _ => (parseDigits s).bind fun n =>
      if (n : Int) ≤ (2:Int)^63 - 1 then some (n : Int) else none

/-- Render a non-negative integer in decimal. -/
def natToStr (n : Nat) : Str := (Nat.toDigits 10 n)

/-- Model of Go `strconv.Itoa`. -/
def intToStr (n : Int) : Str :=
  if n < 0 then '-' :: natToStr n.natAbs else natToStr n.natAbs

/-- Split a decimal fraction part into its rational value contribution. -/
def fracValue (s : Str) : Rat :=
  s.foldr (fun c acc => ((c.toNat - '0'.toNat : Nat) + acc) / 10) 0

/-- Model of Go `strconv.ParseFloat(s, 64)` restricted to plain decimal
forms `ddd`, `ddd.ddd`, `.ddd`, `ddd.` with an optional exponent; exotic
inputs (hex floats, inf, nan) are treated as parse errors.  The value is
kept exact as a rational. -/
def goParseFloat (s : Str) : Option Rat :=
  let core := fun (t : Str) =>
    let intPart := t.takeWhile isDigitChar
    let rest := t.drop intPart.length
    match rest with
    | [] => (parseDigits intPart).map (fun n => (n : Rat))
    | '.' :: frac =>
      if frac.all isDigitChar && (intPart ≠ [] || frac ≠ []) then
        some ((intPart.foldl (fun acc c => acc * 10 + (c.toNat - '0'.toNat)) 0 : Nat) + fracValue frac)
      else none
    | _ => none
  let withExp := fun (t : Str) =>
    let mant := t.takeWhile (fun c => c ≠ 'e' && c ≠ 'E')
    let rest := t.drop mant.length
    match rest with
    | [] => core mant
    | _ :: exp =>
      let signedExp : Option (Bool × Str) :=
        match exp with
        | '+' :: d => some (false, d)
        | '-' :: d => some (true, d)
        | d => some (false, d)
      signedExp.bind fun (neg, d) =>
        (parseDigits d).bind fun e =>
          (core mant).map fun m => if neg then m / (10:Rat)^e else m * (10:Rat)^e
  match s with
  | '+' :: rest => withExp rest
  | '-' :: rest => (withExp rest).map Neg.neg
  | _ => withExp s

/-- Model of Go `strconv.ParseBool`. -/
def goParseBool (s : Str) : Option Bool :=
  if s = S "1" || s = S "t" || s = S "T" || s = S "true" || s = S "TRUE" || s = S "True" then some true
  else if s = S "0" || s = S "f" || s = S "F" || s = S "false" || s = S "FALSE" || s = S "False" then some false
  else none

/-- One step of escape decoding inside a double-quoted Go literal. -/
def unquoteEscape (c : Char) : Option Char :=
  if c = 'n' then some '\n'
  else if c = 't' then some '\t'
  else if c = 'r' then some '\r'
  else if c = '\\' then some '\\'
  else if c = '"' then some '"'
  else if c = '\x27' then some '\x27'
  else if c = '/' then some '/'
  else none

/-- Decode the body of a double-quoted literal. -/
def unquoteBody (s : Str) : Option Str :=
  match s with
  | [] => some []
  | '\\' :: e :: rest => (unquoteEscape e).bind fun c => (unquoteBody rest).map (c :: ·)
  | '\\' :: [] => none
  | '"' :: _ => none
  | c :: rest => (unquoteBody rest).map (c :: ·)

/-- Model of Go `strconv.Unquote`: double-quoted strings with the common
escapes, backquoted raw strings, and single-quoted character literals;
anything else (including exotic escapes) is a parse error. -/
def goUnquote (s : Str) : Option Str :=
  match s with
  | '"' :: rest =>
    match rest.reverse with
    | '"' :: _ => unquoteBody (rest.take (rest.length - 1))
    | _ => none
  | '\x60' :: rest =>
    match rest.reverse with
    | '\x60' :: _ =>
      let body := rest.take (rest.length - 1)
      if body.contains '\x60' then none else some body
    | _ => none
  | '\x27' :: rest =>
    match rest with
    | [_] => none
    | c :: '\x27' :: [] => if c = '\\' || c = '\x27' then none else some [c]
    | '\\' :: e :: '\x27' :: [] => (unquoteEscape e).map ([·])
    | _ => none
  | _ => none

/-- Kinds of `go/token` basic literals. -/
inductive LitKind where
  | int | float | char | strLit | imag
  deriving DecidableEq

/-- Unary operators: the analyzer only distinguishes `&` (token.AND). -/
inductive UnaryOp where
  | addrOf | otherOp
  deriving DecidableEq

mutual
/-- The `go/ast` expression forms the parser package inspects.  `funcType`
stands in for every expression kind (func types, channel types, parens,
binary expressions, ...) that all of the analyzer's type switches send to
their default branch. -/
inductive Expr where
  | ident (name : Str)
  | basicLit (kind : LitKind) (value : Str)
  | selector (x : Expr) (sel : Str)
  | star (x : Expr)
  | unary (op : UnaryOp) (x : Expr)
  | call (fn : Expr) (args : List Expr)
  | composite (typ : Option Expr) (elts : List Expr)
  | keyValue (key value : Expr)
  | arrayType (elt : Expr)
  | mapType (key value : Expr)
  | structType (fields : List GoField)
  | interfaceType
  | funcType

/-- One `ast.Field` of a struct type: declared names (empty for an
embedded field), the field's type, the raw struct tag literal (with its
surrounding backquotes, as in `ast.BasicLit.Value`), and the trailing
(`Comment`) and leading (`Doc`) comment lines. -/
inductive GoField where
  | mk (names : List Str) (typ : Expr) (tag : Option Str)
       (commentLines : List Str) (docLines : List Str)
end

/-- The declared names of a field. -/
def GoField.names : GoField → List Str
  | .mk ns _ _ _ _ => ns

/-- The type expression of a field. -/
def GoField.typ : GoField → Expr
  | .mk _ t _ _ _ => t

/-- The raw tag literal of a field, if any. -/
def GoField.tag : GoField → Option Str
  | .mk _ _ tg _ _ => tg

/-- The trailing comment lines of a field. -/
def GoField.commentLines : GoField → List Str
  | .mk _ _ _ cs _ => cs

/-- The leading doc-comment lines of a field. -/
def GoField.docLines : GoField → List Str
  | .mk _ _ _ _ ds => ds

/-- `exprToString` of `handler_analyzer`: renders the type expressions the
analyzer compares by name; all other forms render as the empty string. -/
def exprToString (e : Expr) : Str :=
  match e with
  | .ident name => name
  | .star x => '*' :: exprToString x
  | .selector x sel => exprToString x ++ '.' :: sel
  | .arrayType elt => '[' :: ']' :: exprToString elt
  | .mapType k v => S "map[" ++ exprToString k ++ ']' :: exprToString v
  | _ => []

/-- Scan a double-quoted tag value up to its closing quote, honouring
backslash escapes; returns the body (escapes intact) and the remainder. -/
def scanQuotedTagValue : Str → Option (Str × Str)
  | [] => none
  | '"' :: r => some ([], r)
  | '\\' :: c :: r => (scanQuotedTagValue r).map fun (v, r') => ('\\' :: c :: v, r')
  | '\\' :: [] => none
  | c :: r => (scanQuotedTagValue r).map fun (v, r') => (c :: v, r')

/-- Worker for the scanning loop of `reflect.StructTag.Get`: one fuel unit
per processed key/value pair. -/
def structTagLookup (fuel : Nat) (tag : Str) (key : Str) : Str :=
  match fuel with
  | 0 => []
  | fuel + 1 =>
    let tag := tag.dropWhile (· = ' ')
    match tag with
    | [] => []
    | _ =>
      let name := tag.takeWhile (fun c => c > ' ' && c ≠ ':' && c ≠ '"' && c ≠ '\x7f')
      let rest := tag.drop name.length
      match name, rest with
      | [], _ => []
      | _, ':' :: '"' :: valRest =>
        match scanQuotedTagValue valRest with
        | none => []
        | some (qbody, remainder) =>
          if name = key then
            match unquoteBody qbody with
            | some v => v
            | none => []
          else structTagLookup fuel remainder key
      | _, _ => []

/-- Model of `reflect.StructTag.Get` as used by `getStructTag`: scans
space-separated `key:"value"` pairs and unquotes the matching value;
malformed tags yield the empty string. -/
def structTagGet (tagLiteral : Str) (key : Str) : Str :=
  let unquoted :=
    match goUnquote tagLiteral with
    | some v => v
    | none => trimChar tagLiteral '\x60'
  match unquoted with
  | [] => []
  | _ => structTagLookup (unquoted.length + 1) unquoted key

/-- `getStructTag` of `handler_analyzer`: reads one key of a field's
struct tag; a missing tag yields the empty string. -/
def getStructTag (field : GoField) (key : Str) : Str :=
  match field.tag with
  | none => []
  | some value => structTagGet value key

/-- `lowerFirst` of `handler_analyzer`: lowercases the first rune. -/
def lowerFirst (value : Str) : Str :=
  match value with
  | [] => []
  | c :: rest => c.toLower :: rest

/-- `resolveJSONFieldName` of `handler_analyzer`: returns the serialized
name and whether the field is skipped (`json:"-"`). -/
def resolveJSONFieldName (fieldName : Str) (tag : Str) : Str × Bool :=
  if tag = S "-" then ([], true)
  else
    let viaTag :=
      match tag with
      | [] => none
      | _ =>
        match splitOnChar ',' tag with
        | [] => none
        | p :: _ => if p ≠ [] then some p else none
    match viaTag with
    | some p => (p, false)
    | none => if fieldName = [] then ([], true) else (lowerFirst fieldName, false)

/-- `isFieldRequired` of `handler_analyzer`. -/
def isFieldRequired (jsonTag bindingTag validateTag : Str) : Bool :=
  if strContains jsonTag (S "omitempty") then false
  else if strContains bindingTag (S "omitempty") then false
  else if strContains bindingTag (S "required") then true
  else if strContains validateTag (S "required") then true
  else false

/-- `fieldComment` of `handler_analyzer`: trailing comment lines win over
doc lines; each line loses its `//` marker and surrounding space and the
lines are joined with single spaces. -/
def fieldComment (field : GoField) : Str :=
  let clean := fun (lines : List Str) =>
    joinWithChar ' ' (lines.map (fun line =>
      trimSpace (if strStarts line (S "//") then line.drop 2 else line)))
  match field.commentLines with
  | _ :: _ => clean field.commentLines
  | [] =>
    match field.docLines with
    | _ :: _ => clean field.docLines
    | [] => []

/-- Look up a key of a JSON-object value (Go `schemaMap[key]` after a
successful map assertion); non-objects have no keys. -/
def jlookup (v : JValue) (k : Str) : Option JValue :=
  match v with
  | .obj m => alookup m k
  | _ => none

/-- A one-entry schema map `\x7b"type": t\x7d`. -/
def typeSchema (t : String) : JValue := .obj [(S "type", .str (S t))]

/-- `primitiveSchemaForIdent` of `handler_analyzer`: fixed schema/example
pairs for Go's built-in type names. -/
def primitiveSchemaForIdent (name : Str) : GoVal × GoVal :=
  let lower := strToLower name
  if lower = S "string" || lower = S "rune" then
    (some (typeSchema "string"), some (.str (S "string")))
  else if lower = S "bool" then
    (some (typeSchema "boolean"), some (.bool true))
  else if lower = S "int" || lower = S "int8" || lower = S "int16" || lower = S "int32" ||
      lower = S "int64" || lower = S "uint" || lower = S "uint8" || lower = S "uint16" ||
      lower = S "uint32" || lower = S "uint64" || lower = S "uintptr" then
    let schema :=
      if lower = S "int32" || lower = S "uint32" then
        .obj [(S "type", .str (S "integer")), (S "format", .str (S "int32"))]
      else if lower = S "int64" || lower = S "uint64" then
        .obj [(S "type", .str (S "integer")), (S "format", .str (S "int64"))]
      else typeSchema "integer"
    (some schema, some (.int 0))
  else if lower = S "float32" then
    (some (.obj [(S "type", .str (S "number")), (S "format", .str (S "float"))]), some (.num 0))
  else if lower = S "float64" then
    (some (.obj [(S "type", .str (S "number")), (S "format", .str (S "double"))]), some (.num 0))
  else if lower = S "byte" then
    (some (.obj [(S "type", .str (S "integer")), (S "format", .str (S "int32"))]), some (.int 0))
  else if lower = S "interface\x7b\x7d" then
    (some (typeSchema "object"), some (.obj []))
  else (none, none)

/-- `schemaForSelector` of `handler_analyzer`: fixed schemas for a handful
of well-known external types. -/
def schemaForSelector (fullName : Str) : GoVal × GoVal :=
  if fullName = S "time.Time" then
    (some (.obj [(S "type", .str (S "string")), (S "format", .str (S "date-time"))]),
     some (.str (S "2024-01-01T00:00:00Z")))
  else if fullName = S "uuid.UUID" || fullName = S "guuid.UUID" ||
      fullName = S "github.com/google/uuid.UUID" then
    (some (.obj [(S "type", .str (S "string")), (S "format", .str (S "uuid"))]),
     some (.str (S "123e4567-e89b-12d3-a456-426614174000")))
  else (none, none)

/-- `httpStatusNameMap` of `handler_analyzer`: `net/http` status-constant
names and their numeric codes. -/
def httpStatusNameMap : List (Str × Nat) :=
  [(S "StatusContinue", 100), (S "StatusSwitchingProtocols", 101),
   (S "StatusProcessing", 102), (S "StatusEarlyHints", 103),
   (S "StatusOK", 200), (S "StatusCreated", 201), (S "StatusAccepted", 202),
   (S "StatusNonAuthoritativeInfo", 203), (S "StatusNoContent", 204),
   (S "StatusResetContent", 205), (S "StatusPartialContent", 206),
   (S "StatusMultiStatus", 207), (S "StatusAlreadyReported", 208),
   (S "StatusIMUsed", 226), (S "StatusMultipleChoices", 300),
   (S "StatusMovedPermanently", 301), (S "StatusFound", 302),
   (S "StatusSeeOther", 303), (S "StatusNotModified", 304),
   (S "StatusUseProxy", 305), (S "StatusTemporaryRedirect", 307),
   (S "StatusPermanentRedirect", 308), (S "StatusBadRequest", 400),
   (S "StatusUnauthorized", 401), (S "StatusPaymentRequired", 402),
   (S "StatusForbidden", 403), (S "StatusNotFound", 404),
   (S "StatusMethodNotAllowed", 405), (S "StatusNotAcceptable", 406),
   (S "StatusProxyAuthRequired", 407), (S "StatusRequestTimeout", 408),
   (S "StatusConflict", 409), (S "StatusGone", 410),
   (S "StatusLengthRequired", 411), (S "StatusPreconditionFailed", 412),
   (S "StatusRequestEntityTooLarge", 413), (S "StatusRequestURITooLong", 414),
   (S "StatusUnsupportedMediaType", 415),
   (S "StatusRequestedRangeNotSatisfiable", 416),
   (S "StatusExpectationFailed", 417), (S "StatusTeapot", 418),
   (S "StatusMisdirectedRequest", 421), (S "StatusUnprocessableEntity", 422),
   (S "StatusLocked", 423), (S "StatusFailedDependency", 424),
   (S "StatusTooEarly", 425), (S "StatusUpgradeRequired", 426),
   (S "StatusPreconditionRequired", 428), (S "StatusTooManyRequests", 429),
   (S "StatusRequestHeaderFieldsTooLarge", 431),
   (S "StatusUnavailableForLegalReasons", 451),
   (S "StatusInternalServerError", 500), (S "StatusNotImplemented", 501),
   (S "StatusBadGateway", 502), (S "StatusServiceUnavailable", 503),
   (S "StatusGatewayTimeout", 504), (S "StatusHTTPVersionNotSupported", 505),
   (S "StatusVariantAlsoNegotiates", 506), (S "StatusInsufficientStorage", 507),
   (S "StatusLoopDetected", 508), (S "StatusNotExtended", 510),
   (S "StatusNetworkAuthenticationRequired", 511)]

/-- Model of `net/http.StatusText`: the canonical reason phrase of a
status code, or the empty string. -/
def httpStatusText (code : Int) : Str :=
  let table : List (Int × String) :=
    [(100, "Continue"), (101, "Switching Protocols"), (102, "Processing"),
     (103, "Early Hints"), (200, "OK"), (201, "Created"), (202, "Accepted"),
     (203, "Non-Authoritative Information"), (204, "No Content"),
     (205, "Reset Content"), (206, "Partial Content"), (207, "Multi-Status"),
     (208, "Already Reported"), (226, "IM Used"), (300, "Multiple Choices"),
     (301, "Moved Permanently"), (302, "Found"), (303, "See Other"),
     (304, "Not Modified"), (305, "Use Proxy"), (307, "Temporary Redirect"),
     (308, "Permanent Redirect"), (400, "Bad Request"), (401, "Unauthorized"),
     (402, "Payment Required"), (403, "Forbidden"), (404, "Not Found"),
     (405, "Method Not Allowed"), (406, "Not Acceptable"),
     (407, "Proxy Authentication Required"), (408, "Request Timeout"),
     (409, "Conflict"), (410, "Gone"), (411, "Length Required"),
     (412, "Precondition Failed"), (413, "Request Entity Too Large"),
     (414, "Request URI Too Long"), (415, "Unsupported Media Type"),
     (416, "Requested Range Not Satisfiable"), (417, "Expectation Failed"),
     (418, "I\x27m a teapot"), (421, "Misdirected Request"),
     (422, "Unprocessable Entity"), (423, "Locked"), (424, "Failed Dependency"),
     (425, "Too Early"), (426, "Upgrade Required"),
     (428, "Precondition Required"), (429, "Too Many Requests"),
     (431, "Request Header Fields Too Large"),
     (451, "Unavailable For Legal Reasons"), (500, "Internal Server Error"),
     (501, "Not Implemented"), (502, "Bad Gateway"),
     (503, "Service Unavailable"), (504, "Gateway Timeout"),
     (505, "HTTP Version Not Supported"), (506, "Variant Also Negotiates"),
     (507, "Insufficient Storage"), (508, "Loop Detected"),
     (510, "Not Extended"), (511, "Network Authentication Required")]
  match table.find? (fun p => p.1 = code) with
  | some p => S p.2
  | none => []

/-- `statusTextFromCode` of `handler_analyzer`: parse the code and look up
its reason phrase; unparsable codes yield the empty string. -/
def statusTextFromCode (code : Str) : Str :=
  match goParseInt code with
  | some num => httpStatusText num
  | none => []

/-- Skip JSON insignificant whitespace. -/
def jsonSkipWs (s : Str) : Str :=
  s.dropWhile (fun c => c = ' ' || c = '\t' || c = '\n' || c = '\r')

/-- Characters that may form a JSON numeric token. -/
def isJsonNumChar (c : Char) : Bool :=
  isDigitChar c || c = '-' || c = '+' || c = '.' || c = 'e' || c = 'E'

mutual
/-- Model of `encoding/json.Unmarshal` into `interface\x7b\x7d`, one value
at a time: objects become string-keyed maps, arrays slices, numbers
float64 (here exact rationals), strings strings.  JSON `null` (whose Go
image is a nil interface) is treated as an unmarshal error, a documented
simplification: the analyzer never feeds `null` through this path. -/
def jsonParseValue (fuel : Nat) (s : Str) : Option (JValue × Str) :=
  match fuel with
  | 0 => none
  | fuel + 1 =>
    match jsonSkipWs s with
    | '\x7b' :: rest =>
      match jsonSkipWs rest with
      | '\x7d' :: rem => some (.obj [], rem)
      | _ => (jsonParseObjEntries fuel rest []).map fun (es, rem) => (.obj es, rem)
    | '[' :: rest =>
      match jsonSkipWs rest with
      | ']' :: rem => some (.arr [], rem)
      | _ => (jsonParseArrayItems fuel rest []).map fun (xs, rem) => (.arr xs, rem)
    | '"' :: rest =>
      (scanQuotedTagValue rest).bind fun (body, rem) =>
        (unquoteBody body).map fun v => (.str v, rem)
    | 't' :: 'r' :: 'u' :: 'e' :: rem => some (.bool true, rem)
    | 'f' :: 'a' :: 'l' :: 's' :: 'e' :: rem => some (.bool false, rem)
    | t =>
      let tok := t.takeWhile isJsonNumChar
      match tok with
      | [] => none
      | _ => (goParseFloat tok).map fun q => (.num q, t.drop tok.length)

/-- Parse the comma-separated items of a JSON array, then `]`. -/
def jsonParseArrayItems (fuel : Nat) (s : Str) (acc : List JValue) :
    Option (List JValue × Str) :=
  match fuel with
  | 0 => none
  | fuel + 1 =>
    (jsonParseValue fuel s).bind fun (v, rem) =>
      match jsonSkipWs rem with
      | ',' :: rest => jsonParseArrayItems fuel rest (acc ++ [v])
      | ']' :: rest => some (acc ++ [v], rest)
      | _ => none

/-- Parse the comma-separated `"key": value` entries of a JSON object,
then `\x7d`. -/
def jsonParseObjEntries (fuel : Nat) (s : Str) (acc : List (Str × JValue)) :
    Option (List (Str × JValue) × Str) :=
  match fuel with
  | 0 => none
  | fuel + 1 =>
    match jsonSkipWs s with
    | '"' :: rest =>
      (scanQuotedTagValue rest).bind fun (body, rem) =>
        (unquoteBody body).bind fun key =>
          match jsonSkipWs rem with
          | ':' :: rest' =>
            (jsonParseValue fuel rest').bind fun (v, rem') =>
              match jsonSkipWs rem' with
              | ',' :: rest'' => jsonParseObjEntries fuel rest'' (aupsert acc key v)
              | '\x7d' :: rest'' => some (aupsert acc key v, rest'')
              | _ => none
          | _ => none
    | _ => none
end

/-- Model of `encoding/json.Unmarshal` on a whole input. -/
def jsonUnmarshal (s : Str) : Option JValue :=
  match jsonParseValue (s.length + 1) s with
  | some (v, rem) => if jsonSkipWs rem = [] then some v else none
  | none => none

/-- `convertExampleValue` of `handler_analyzer`: an explicit tag example
is parsed as JSON when it looks like an object/array literal, otherwise
coerced to the schema's primitive kind, otherwise kept as the raw
string. -/
def convertExampleValue (raw : Str) (schema : GoVal) (fallback : GoVal) : GoVal :=
  let trimmed := trimSpace raw
  if trimmed = [] then fallback
  else
    let fromJson :=
      if strStarts trimmed (S "\x7b") || strStarts trimmed (S "[") then
        jsonUnmarshal trimmed
      else none
    match fromJson with
    | some val => some val
    | none =>
      let coerced : GoVal :=
        match schema with
        | some sm =>
          match jlookup sm (S "type") with
          | some (.str kind) =>
            if kind = S "integer" then (goParseInt trimmed).map .int
            else if kind = S "number" then (goParseFloat trimmed).map .num
            else if kind = S "boolean" then (goParseBool trimmed).map .bool
            else none
          | _ => none
        | none => none
      match coerced with
      | some v => some v
      | none => some (.str raw)

mutual
/-- `defaultExampleFromSchema` of `handler_analyzer`: synthesize an
example value from a schema's shape alone.  The outer `Option` is fuel
exhaustion; the inner `GoVal` is the function's (possibly nil) result.  A
nil recursive result for an object property, which Go stores as a nil map
entry, is modelled by omitting the entry — indistinguishable by lookup. -/
def defaultExampleFromSchema (fuel : Nat) (schema : GoVal) : Option GoVal :=
  match fuel with
  | 0 => none
  | fuel + 1 =>
    match schema with
    | some sm =>
      match sm with
      | .obj _ =>
        match jlookup sm (S "type") with
        | some (.str kind) =>
          if kind = S "string" then
            match jlookup sm (S "format") with
            | some (.str fmt) =>
              if fmt = S "date-time" then some (some (.str (S "2024-01-01T00:00:00Z")))
              else if fmt = S "uuid" then
                some (some (.str (S "123e4567-e89b-12d3-a456-426614174000")))
              else some (some (.str (S "string")))
            | _ => some (some (.str (S "string")))
          else if kind = S "integer" then some (some (.int 0))
          else if kind = S "number" then some (some (.num 0))
          else if kind = S "boolean" then some (some (.bool false))
          else if kind = S "array" then
            match jlookup sm (S "items") with
            | some (.obj items) =>
              (defaultExampleFromSchema fuel (some (.obj items))).map fun itemExample =>
                match itemExample with
                | some it => some (.arr [it])
                | none => some (.arr [])
            | _ => some (some (.arr []))
          else if kind = S "object" then
            match jlookup sm (S "properties") with
            | some (.obj props) =>
              (defaultExampleProps fuel props).map fun es => some (.obj es)
            | _ => some (some (.obj []))
          else some none
        | _ => some none
      | _ => some none
    | none => some none

/-- The per-property loop of `defaultExampleFromSchema`'s object case. -/
def defaultExampleProps (fuel : Nat) (props : List (Str × JValue)) :
    Option (List (Str × JValue)) :=
  match fuel with
  | 0 => none
  | fuel + 1 =>
    match props with
    | [] => some []
    | (key, val) :: rest =>
      match val with
      | .obj _ =>
        (defaultExampleFromSchema fuel (some val)).bind fun ex =>
          (defaultExampleProps fuel rest).map fun es =>
            match ex with
            | some v => (key, v) :: es
            | none => es
      | _ => (defaultExampleProps fuel rest).map fun es => es
end

mutual
/-- `normalizeExampleWithSchema` of `handler_analyzer`: re-key object
examples to the schema's property names (case-insensitively) and recurse
through arrays; everything else passes through unchanged. -/
def normalizeExampleWithSchema (fuel : Nat) (schema exampleVal : GoVal) : Option GoVal :=
  match fuel with
  | 0 => none
  | fuel + 1 =>
    match schema, exampleVal with
    | some sm, some ex =>
      match sm with
      | .obj _ =>
        match jlookup sm (S "type") with
        | some (.str kind) =>
          if kind = S "array" then
            let itemsSchema := jlookup sm (S "items")
            match ex with
            | .arr items =>
              (normalizeArrayItems fuel itemsSchema items).map fun xs => some (.arr xs)
            | _ => some (some ex)
          else if kind = S "object" then
            match ex with
            | .obj exMap =>
              match jlookup sm (S "properties") with
              | some (.obj (p :: ps)) =>
                (normalizeProps fuel (p :: ps) exMap [] []).map fun (normalized, used) =>
                  some (.obj (exMap.foldl (fun acc (e : Str × JValue) =>
                    if used.contains e.1 then acc else aupsert acc e.1 e.2) normalized))
              | _ => some (some ex)
            | _ => some (some ex)
          else some (some ex)
        | _ => some (some ex)
      | _ => some (some ex)
    | _, _ => some exampleVal

/-- The per-item loop of `normalizeExampleWithSchema`'s array case. -/
def normalizeArrayItems (fuel : Nat) (itemsSchema : GoVal) (items : List JValue) :
    Option (List JValue) :=
  match fuel with
  | 0 => none
  | fuel + 1 =>
    match items with
    | [] => some []
    | item :: rest =>
      (normalizeExampleWithSchema fuel itemsSchema (some item)).bind fun v =>
        (normalizeArrayItems fuel itemsSchema rest).map fun xs =>
          match v with
          | some v' => v' :: xs
          | none => xs

/-- The per-property loop of `normalizeExampleWithSchema`'s object case:
an exact key match wins, else the first case-insensitive match; matched
entries are re-keyed to the property name, and the used example keys are
collected. -/
def normalizeProps (fuel : Nat) (props : List (Str × JValue))
    (exMap : List (Str × JValue)) (normalized : List (Str × JValue))
    (used : List Str) : Option (List (Str × JValue) × List Str) :=
  match fuel with
  | 0 => none
  | fuel + 1 =>
    match props with
    | [] => some (normalized, used)
    | (propName, propSchema) :: rest =>
      let hit : Option (Str × JValue) :=
        match alookup exMap propName with
        | some v => some (propName, v)
        | none => exMap.find? (fun e => strEqualFold e.1 propName)
      match hit with
      | some (usedKey, value) =>
        (normalizeExampleWithSchema fuel (some propSchema) (some value)).bind fun nv =>
          let normalized' :=
            match nv with
            | some v => aupsert normalized propName v
            | none => normalized
          normalizeProps fuel rest exMap normalized' (used ++ [usedKey])
      | none => normalizeProps fuel rest exMap normalized used
end

/-- `literalKeyToString` of `handler_analyzer`: stringify a composite
literal key. -/
def literalKeyToString (e : Expr) : Str :=
  match e with
  | .basicLit .strLit v =>
    match goUnquote v with
    | some s => s
    | none => trimChar v '"'
  | .ident name => name
  | _ => []

/-- One entry of the `functions` table: receiver type name (empty for
free functions) and declared result-type expressions. -/
structure FuncSignature where
  receiver : Str
  results : List Expr

/-- `analysisContext` of `handler_analyzer`: struct declarations and
function signatures of the package, plus the per-handler variable type
and originating-value scopes. -/
structure AnalysisContext where
  structs : List (Str × List GoField)
  functions : List (Str × List FuncSignature)
  vars : List (Str × Expr)
  vals : List (Str × Option Expr)

/-- `lookupFunctionResult` of `handler_analyzer`: resolve a call's result
types by `receiver.name`, then with the receiver's `*` stripped, then by
bare name. -/
def lookupFunctionResult (ctx : AnalysisContext) (receiver name : Str) : List Expr :=
  let tryKey := fun (k : Str) =>
    match alookup ctx.functions k with
    | some (sig :: _) => some sig.results
    | _ => none
  let bare :=
    match tryKey name with
    | some r => r
    | none => []
  if receiver ≠ [] then
    match tryKey (receiver ++ '.' :: name) with
    | some r => r
    | none =>
      let trimmed := if strStarts receiver (S "*") then receiver.drop 1 else receiver
      match tryKey (trimmed ++ '.' :: name) with
      | some r => r
      | none => bare
  else bare

mutual
/-- `inferTypeFromExpr` of `handler_analyzer`: best-effort static type of
an initializer expression.  The outer `Option` is fuel exhaustion (the Go
original recurses through the mutable context); the inner `Option Expr`
is Go's possibly-nil result. -/
def inferTypeFromExpr (fuel : Nat) (ctx : AnalysisContext) (e : Expr) :
    Option (Option Expr) :=
  match fuel with
  | 0 => none
  | fuel + 1 =>
    match e with
    | .composite typ _ => some typ
    | .call fn args =>
      match fn with
      | .ident name =>
        if name = S "new" then
          match args with
          | [a] => some (some (.star a))
          | _ =>
            match lookupFunctionResult ctx [] name with
            | r :: _ => some (some r)
            | [] => some none
        else
          match lookupFunctionResult ctx [] name with
          | r :: _ => some (some r)
          | [] => some none
      | .selector sx sel =>
        let full := exprToString fn
        if full = S "json.Marshal" || full = S "json.MarshalIndent" then
          some (some (.arrayType (.ident (S "byte"))))
        else
          (resolveTypeFromArg fuel ctx sx).bind fun receiverType =>
            let receiverName :=
              match receiverType with
              | some t => exprToString t
              | none => []
            match lookupFunctionResult ctx receiverName sel with
            | r :: _ => some (some r)
            | [] => some none
      | _ => some none
    | .unary .addrOf x =>
      match x with
      | .composite typ _ => some typ
      | .ident n =>
        match alookup ctx.vars n with
        | some typ => some (some typ)
        | none => some none
      | _ => some none
    | .unary .otherOp _ => some none
    | .ident _ | .selector _ _ | .arrayType _ | .mapType _ _ | .structType _ | .star _ =>
      some (some e)
    | .basicLit _ _ => some (some e)
    | _ => some none

/-- `resolveTypeFromArg` of `handler_analyzer`: the static type of a call
argument, falling back to the expression itself. -/
def resolveTypeFromArg (fuel : Nat) (ctx : AnalysisContext) (e : Expr) :
    Option (Option Expr) :=
  match fuel with
  | 0 => none
  | fuel + 1 =>
    match e with
    | .unary .addrOf x =>
      match x with
      | .ident n =>
        match alookup ctx.vars n with
        | some typ => some (some typ)
        | none => some (some e)
      | .composite typ _ => some typ
      | _ => some (some e)
    | .ident n =>
      match alookup ctx.vars n with
      | some typ => some (some typ)
      | none => some (some e)
    | .call _ _ => inferTypeFromExpr fuel ctx e
    | .composite typ _ => some typ
    | .selector _ _ => some (some e)
    | _ => some (some e)
end

/-- `extractStatusCode` of `handler_analyzer`: integer literal, known
status-constant selector, or a scope variable; anything else yields the
empty string. -/
def extractStatusCode (fuel : Nat) (ctx : AnalysisContext) (e : Expr) : Option Str :=
  match fuel with
  | 0 => none
  | fuel + 1 =>
    match e with
    | .basicLit .int v =>
      let value := replaceAll v (S "_") []
      match goParseInt value with
      | some num => some (intToStr num)
      | none => some []
    | .selector _ sel =>
      match alookup httpStatusNameMap sel with
      | some code => some (intToStr (code : Int))
      | none => some []
    | .ident n =>
      match alookup ctx.vars n with
      | some typ => extractStatusCode fuel ctx typ
      | none => some []
    | _ => some []

/-- `resolveContentType` of `handler_analyzer`: a string literal, a scope
variable's value or type, a call's first argument, a pointer target, or a
selector's printed name. -/
def resolveContentType (fuel : Nat) (ctx : AnalysisContext) (e : Expr) : Option Str :=
  match fuel with
  | 0 => none
  | fuel + 1 =>
    match e with
    | .basicLit .strLit v =>
      match goUnquote v with
      | some value => some value
      | none => some (trimChar v '"')
    | .ident n =>
      match alookup ctx.vals n with
      | some (some valExpr) =>
        (resolveContentType fuel ctx valExpr).bind fun r =>
          if r ≠ [] then some r
          else
            match alookup ctx.vars n with
            | some typExpr =>
              (resolveContentType fuel ctx typExpr).map fun r' =>
                if r' ≠ [] then r' else []
            | none => some []
      | _ =>
        match alookup ctx.vars n with
        | some typExpr =>
          (resolveContentType fuel ctx typExpr).map fun r' =>
            if r' ≠ [] then r' else []
        | none => some []
    | .call _ args =>
      match args with
      | a :: _ => resolveContentType fuel ctx a
      | [] => some []
    | .star x => resolveContentType fuel ctx x
    | .selector _ _ => some (exprToString e)
    | _ => some []

/-- `resolveResponsePayloadExpr` of `handler_analyzer`: strip address-of,
descend through `json.Marshal` wrappers and resolved calls, and follow a
variable's originating value or declared type. -/
def resolveResponsePayloadExpr (fuel : Nat) (ctx : AnalysisContext) (e : Expr) :
    Option Expr :=
  match fuel with
  | 0 => none
  | fuel + 1 =>
    match e with
    | .unary .addrOf x => resolveResponsePayloadExpr fuel ctx x
    | .composite _ _ => some e
    | .ident n =>
      let viaVars : Option Expr :=
        match alookup ctx.vars n with
        | some typ => some typ
        | none => some e
      match alookup ctx.vals n with
      | some (some origin) =>
        match origin with
        | .call (.selector sx sel) (a :: _) =>
          let full := exprToString (.selector sx sel)
          if full = S "json.Marshal" || full = S "json.MarshalIndent" then
            resolveResponsePayloadExpr fuel ctx a
          else viaVars
        | .composite _ _ => some origin
        | _ => viaVars
      | _ => viaVars
    | .call fn args =>
      match fn with
      | .selector sx sel =>
        let viaReceiver : Option Expr :=
          (resolveTypeFromArg fuel ctx sx).bind fun receiverType =>
            let receiverName :=
              match receiverType with
              | some t => exprToString t
              | none => []
            match lookupFunctionResult ctx receiverName sel with
            | r :: _ => some r
            | [] => some e
        let full := exprToString fn
        if full = S "json.Marshal" || full = S "json.MarshalIndent" then
          match args with
          | a :: _ => resolveResponsePayloadExpr fuel ctx a
          | [] => viaReceiver
        else viaReceiver
      | .ident n =>
        let viaLookup : Option Expr :=
          match lookupFunctionResult ctx [] n with
          | r :: _ => some r
          | [] => some e
        if n = S "new" then
          match args with
          | [a] => some (.star a)
          | _ => viaLookup
        else viaLookup
      | _ => some e
    | _ => some e

/-- Extract a `[]string`-typed value (Go's type assertion on the stored
`required` list): succeeds only when every element is a string. -/
def asStringList : List JValue → Option (List Str)
  | [] => some []
  | .str s :: rest => (asStringList rest).map (s :: ·)
  | _ => none

/-- Overlay `entries` onto the association list `base` (Go's
`for k, v := range m2 \x7b m1[k] = v \x7d`). -/
def overlayEntries (base entries : List (Str × JValue)) : List (Str × JValue) :=
  entries.foldl (fun acc kv => aupsert acc kv.1 kv.2) base

mutual
/-- `buildSchemaFromExpr` of `handler_analyzer`: the recursive schema
builder.  Result: `none` on fuel exhaustion, else the Go pair
`(schema, example)`, each side possibly the nil interface.  The Go
original marks a struct name in the `visited` set before recursing and
unmarks it on return; the persistent list `visited` models exactly that
stack discipline. -/
def buildSchemaFromExpr (fuel : Nat) (ctx : AnalysisContext) (visited : List Str)
    (e : Expr) : Option (GoVal × GoVal) :=
  match fuel with
  | 0 => none
  | fuel + 1 =>
    match e with
    | .composite typ elts => buildSchemaFromCompositeLiteral fuel ctx visited typ elts
    | .star x => buildSchemaFromExpr fuel ctx visited x
    | .basicLit kind v =>
      match kind with
      | .strLit =>
        let value :=
          match goUnquote v with
          | some s => s
          | none => trimChar v '"'
        some (some (typeSchema "string"), some (.str value))
      | .int =>
        let parsed := replaceAll v (S "_") []
        match goParseInt parsed with
        | some num => some (some (typeSchema "integer"), some (.int num))
        | none => some (some (typeSchema "string"), some (.str v))
      | .float =>
        let parsed := replaceAll v (S "_") []
        match goParseFloat parsed with
        | some q => some (some (typeSchema "number"), some (.num q))
        | none => some (some (typeSchema "string"), some (.str v))
      | .char =>
        let value :=
          match goUnquote v with
          | some s => s
          | none => v
        some (some (typeSchema "string"), some (.str value))
      | .imag => some (some (typeSchema "string"), some (.str v))
    | .ident name =>
      let viaStructs : Option (GoVal × GoVal) :=
        match alookup ctx.structs name with
        | some structFields =>
          if visited.contains name then
            some (some (typeSchema "object"), some (.obj []))
          else
            (buildStructSchema fuel ctx (name :: visited) structFields).map
              fun (s, ex) => (some s, some ex)
        | none => some (some (typeSchema "string"), some (.str []))
      let viaPrimitive : Option (GoVal × GoVal) :=
        match primitiveSchemaForIdent name with
        | (some s, ex) => some (some s, ex)
        | _ => viaStructs
      let viaVars : Option (GoVal × GoVal) :=
        match alookup ctx.vars name with
        | some typ => buildSchemaFromExpr fuel ctx visited typ
        | none => viaPrimitive
      match alookup ctx.vals name with
      | some (some valExpr) =>
        (buildSchemaFromExpr fuel ctx visited valExpr).bind fun (schema, ex) =>
          match schema with
          | some s => some (some s, ex)
          | none => viaVars
      | _ => viaVars
    | .arrayType elt =>
      (buildSchemaFromExpr fuel ctx visited elt).bind fun (itemSchema, itemExample) =>
        match itemSchema with
        | none => some (none, none)
        | some is =>
          let schema := JValue.obj [(S "type", .str (S "array")), (S "items", is)]
          let ex :=
            match itemExample with
            | some ie => JValue.arr [ie]
            | none => JValue.arr []
          some (some schema, some ex)
    | .mapType _ v =>
      (buildSchemaFromExpr fuel ctx visited v).bind fun (valueSchema, valueExample) =>
        let schema :=
          match valueSchema with
          | some vs => JValue.obj [(S "type", .str (S "object")), (S "additionalProperties", vs)]
          | none => typeSchema "object"
        let ex :=
          match valueExample with
          | some ve => JValue.obj [(S "key", ve)]
          | none => JValue.obj []
        some (some schema, some ex)
    | .interfaceType => some (some (typeSchema "object"), some (.obj []))
    | .structType fields =>
      (buildStructSchema fuel ctx visited fields).map fun (s, ex) => (some s, some ex)
    | .selector _ _ =>
      let fullName := exprToString e
      match schemaForSelector fullName with
      | (some s, ex) => some (some s, ex)
      | _ =>
        if fullName = S "gin.H" then some (some (typeSchema "object"), some (.obj []))
        else some (some (typeSchema "string"), some (.str []))
    | .call fn args =>
      match fn with
      | .selector sx sel =>
        let viaReceiver : Option (GoVal × GoVal) :=
          (resolveTypeFromArg fuel ctx sx).bind fun receiverType =>
            let receiverName :=
              match receiverType with
              | some t => exprToString t
              | none => []
            match lookupFunctionResult ctx receiverName sel with
            | r :: _ => buildSchemaFromExpr fuel ctx visited r
            | [] => some (some (typeSchema "object"), some (.obj []))
        let full := exprToString fn
        if full = S "json.Marshal" || full = S "json.MarshalIndent" then
          match args with
          | a :: _ => buildSchemaFromExpr fuel ctx visited a
          | [] => viaReceiver
        else viaReceiver
      | .ident n =>
        let viaLookup : Option (GoVal × GoVal) :=
          match lookupFunctionResult ctx [] n with
          | r :: _ => buildSchemaFromExpr fuel ctx visited r
          | [] => some (some (typeSchema "object"), some (.obj []))
        if n = S "new" then
          match args with
          | [a] => buildSchemaFromExpr fuel ctx visited (.star a)
          | _ => viaLookup
        else viaLookup
      | _ => some (some (typeSchema "object"), some (.obj []))
    | _ => some (none, none)

/-- `buildSchemaFromCompositeLiteral` of `handler_analyzer`. -/
def buildSchemaFromCompositeLiteral (fuel : Nat) (ctx : AnalysisContext)
    (visited : List Str) (typ : Option Expr) (elts : List Expr) :
    Option (GoVal × GoVal) :=
  match fuel with
  | 0 => none
  | fuel + 1 =>
    match typ with
    | none => buildMapLiteralSchema fuel ctx visited elts
    | some t =>
      match t with
      | .structType fields =>
        (buildStructSchema fuel ctx visited fields).map fun (s, ex) => (some s, some ex)
      | .ident name =>
        match alookup ctx.structs name with
        | some structFields =>
          (buildStructSchema fuel ctx visited structFields).bind fun (schema, ex) =>
            (buildStructLiteralExample fuel ctx visited elts structFields).map fun litEx =>
              match litEx with
              | some (entry :: entries) =>
                let exMap :=
                  match ex with
                  | .obj m => JValue.obj (overlayEntries m (entry :: entries))
                  | _ => ex
                (some schema, some exMap)
              | _ => (some schema, some ex)
        | none => buildSchemaFromExpr fuel ctx visited t
      | .mapType _ _ => buildMapLiteralSchema fuel ctx visited elts
      | .arrayType elt =>
        (buildSchemaFromExpr fuel ctx visited elt).bind fun (itemSchema, _) =>
          -- Go stores `items: nil` when the element schema is nil; the key
          -- is omitted here, which no map read can distinguish.
          let schema :=
            match itemSchema with
            | some is => JValue.obj [(S "type", .str (S "array")), (S "items", is)]
            | none => JValue.obj [(S "type", .str (S "array"))]
          (buildArrayLiteralExamples fuel ctx visited elts itemSchema []).bind
            fun examples =>
              match examples with
              | _ :: _ => some (some schema, some (.arr examples))
              | [] =>
                (defaultExampleFromSchema fuel itemSchema).map fun d =>
                  match d with
                  | some v => (some schema, some (.arr [v]))
                  | none => (some schema, some (.arr []))
      | .selector _ _ =>
        let typeName := exprToString t
        if typeName = S "gin.H" then buildMapLiteralSchema fuel ctx visited elts
        else buildSchemaFromExpr fuel ctx visited t
      | _ => buildSchemaFromExpr fuel ctx visited t

/-- The element loop of the array-literal case of
`buildSchemaFromCompositeLiteral`. -/
def buildArrayLiteralExamples (fuel : Nat) (ctx : AnalysisContext)
    (visited : List Str) (elts : List Expr) (itemSchema : GoVal)
    (acc : List JValue) : Option (List JValue) :=
  match fuel with
  | 0 => none
  | fuel + 1 =>
    match elts with
    | [] => some acc
    | elt :: rest =>
      (buildSchemaFromExpr fuel ctx visited elt).bind fun (_, ex) =>
        let withDefault : Option GoVal :=
          match ex with
          | some _ => some ex
          | none => defaultExampleFromSchema fuel itemSchema
        withDefault.bind fun ex' =>
          let acc' :=
            match ex' with
            | some v => acc ++ [v]
            | none => acc
          buildArrayLiteralExamples fuel ctx visited rest itemSchema acc'

/-- `buildMapLiteralSchema` of `handler_analyzer`. -/
def buildMapLiteralSchema (fuel : Nat) (ctx : AnalysisContext) (visited : List Str)
    (elts : List Expr) : Option (GoVal × GoVal) :=
  match fuel with
  | 0 => none
  | fuel + 1 =>
    (buildMapLiteralItems fuel ctx visited elts [] []).map fun (props, ex) =>
      let schema :=
        match props with
        | _ :: _ => JValue.obj [(S "type", .str (S "object")), (S "properties", .obj props)]
        | [] => JValue.obj [(S "type", .str (S "object")),
                            (S "additionalProperties", typeSchema "string")]
      (some schema, some (.obj ex))

/-- The element loop of `buildMapLiteralSchema`. -/
def buildMapLiteralItems (fuel : Nat) (ctx : AnalysisContext) (visited : List Str)
    (elts : List Expr) (props ex : List (Str × JValue)) :
    Option (List (Str × JValue) × List (Str × JValue)) :=
  match fuel with
  | 0 => none
  | fuel + 1 =>
    match elts with
    | [] => some (props, ex)
    | elt :: rest =>
      match elt with
      | .keyValue k v =>
        let key := literalKeyToString k
        if key = [] then buildMapLiteralItems fuel ctx visited rest props ex
        else
          (buildSchemaFromExpr fuel ctx visited v).bind fun (vs, vex) =>
            let props' :=
              match vs with
              | some s => aupsert props key s
              | none => props
            let withDefault : Option GoVal :=
              match vex with
              | some _ => some vex
              | none => defaultExampleFromSchema fuel vs
            withDefault.bind fun vex' =>
              let ex' :=
                match vex' with
                | some v' => aupsert ex key v'
                | none => ex
              buildMapLiteralItems fuel ctx visited rest props' ex'
      | _ => buildMapLiteralItems fuel ctx visited rest props ex

/-- `buildStructSchema` of `handler_analyzer`: schema and example maps of
a struct type (`structType.Fields == nil` and an empty field list agree
on the empty result). -/
def buildStructSchema (fuel : Nat) (ctx : AnalysisContext) (visited : List Str)
    (fields : List GoField) : Option (JValue × JValue) :=
  match fuel with
  | 0 => none
  | fuel + 1 =>
    (buildStructFields fuel ctx visited fields [] [] []).map fun (props, ex, req) =>
      let schema :=
        match req with
        | _ :: _ => JValue.obj [(S "type", .str (S "object")), (S "properties", .obj props),
                                (S "required", .arr (req.map .str))]
        | [] => JValue.obj [(S "type", .str (S "object")), (S "properties", .obj props)]
      (schema, .obj ex)

/-- The field loop of `buildStructSchema`: embedded (nameless) fields are
flattened into the parent's properties/required/example. -/
def buildStructFields (fuel : Nat) (ctx : AnalysisContext) (visited : List Str)
    (fields : List GoField) (props ex : List (Str × JValue)) (req : List Str) :
    Option (List (Str × JValue) × List (Str × JValue) × List Str) :=
  match fuel with
  | 0 => none
  | fuel + 1 =>
    match fields with
    | [] => some (props, ex, req)
    | field :: rest =>
      match field.names with
      | [] =>
        (buildSchemaFromExpr fuel ctx visited field.typ).bind fun (schema, nestedEx) =>
          let propsReq :=
            match schema with
            | some sm =>
              let props' :=
                match jlookup sm (S "properties") with
                | some (.obj nested) => overlayEntries props nested
                | _ => props
              let req' :=
                match jlookup sm (S "required") with
                | some (.arr xs) =>
                  match asStringList xs with
                  | some ss => req ++ ss
                  | none => req
                | _ => req
              (props', req')
            | none => (props, req)
          let ex' :=
            match nestedEx with
            | some (.obj nested) => overlayEntries ex nested
            | _ => ex
          buildStructFields fuel ctx visited rest propsReq.1 ex' propsReq.2
      | names =>
        (buildStructNames fuel ctx visited names field props ex req).bind
          fun (props', ex', req') =>
            buildStructFields fuel ctx visited rest props' ex' req'

/-- The name loop of `buildStructSchema`: one property per declared,
non-skipped field name whose type yields a schema. -/
def buildStructNames (fuel : Nat) (ctx : AnalysisContext) (visited : List Str)
    (names : List Str) (field : GoField) (props ex : List (Str × JValue))
    (req : List Str) : Option (List (Str × JValue) × List (Str × JValue) × List Str) :=
  match fuel with
  | 0 => none
  | fuel + 1 =>
    match names with
    | [] => some (props, ex, req)
    | name :: restNames =>
      if name = [] then buildStructNames fuel ctx visited restNames field props ex req
      else
        let jsonTag := getStructTag field (S "json")
        match resolveJSONFieldName name jsonTag with
        | (_, true) => buildStructNames fuel ctx visited restNames field props ex req
        | (jsonName, false) =>
          let bindingTag := getStructTag field (S "binding")
          let validateTag := getStructTag field (S "validate")
          let required := isFieldRequired jsonTag bindingTag validateTag
          (buildSchemaFromExpr fuel ctx visited field.typ).bind fun (schema, fieldEx) =>
            match schema with
            | none => buildStructNames fuel ctx visited restNames field props ex req
            | some sm =>
              let description := fieldComment field
              let sm :=
                match sm, description with
                | .obj m, _ :: _ => JValue.obj (aupsert m (S "description") (.str description))
                | _, _ => sm
              let tagExample := getStructTag field (S "example")
              let fieldEx :=
                match tagExample with
                | _ :: _ => convertExampleValue tagExample (some sm) fieldEx
                | [] => fieldEx
              let withDefault : Option GoVal :=
                match fieldEx with
                | some _ => some fieldEx
                | none => defaultExampleFromSchema fuel (some sm)
              withDefault.bind fun fieldEx' =>
                let props' := aupsert props jsonName sm
                let req' := if required then req ++ [jsonName] else req
                let ex' :=
                  match fieldEx' with
                  | some fe => aupsert ex jsonName fe
                  | none => ex
                buildStructNames fuel ctx visited restNames field props' ex' req'

/-- `buildStructLiteralExample` of `handler_analyzer`: example overrides
from the explicit field values of a struct literal; `none` is Go's nil
map. -/
def buildStructLiteralExample (fuel : Nat) (ctx : AnalysisContext)
    (visited : List Str) (elts : List Expr) (fields : List GoField) :
    Option (Option (List (Str × JValue))) :=
  match fuel with
  | 0 => none
  | fuel + 1 =>
    let fieldLookup := fields.foldl (fun acc f =>
      f.names.foldl (fun acc2 n => if n = [] then acc2 else aupsert acc2 n f) acc) []
    match fieldLookup with
    | [] => some none
    | _ =>
      (buildStructLiteralItems fuel ctx visited elts fieldLookup []).map fun entries =>
        match entries with
        | [] => none
        | _ => some entries

/-- The element loop of `buildStructLiteralExample`. -/
def buildStructLiteralItems (fuel : Nat) (ctx : AnalysisContext)
    (visited : List Str) (elts : List Expr) (fieldLookup : List (Str × GoField))
    (acc : List (Str × JValue)) : Option (List (Str × JValue)) :=
  match fuel with
  | 0 => none
  | fuel + 1 =>
    match elts with
    | [] => some acc
    | elt :: rest =>
      match elt with
      | .keyValue (.ident fieldName) v =>
        if fieldName = [] then buildStructLiteralItems fuel ctx visited rest fieldLookup acc
        else
          match alookup fieldLookup fieldName with
          | none => buildStructLiteralItems fuel ctx visited rest fieldLookup acc
          | some field =>
            match resolveJSONFieldName fieldName (getStructTag field (S "json")) with
            | (_, true) => buildStructLiteralItems fuel ctx visited rest fieldLookup acc
            | (jsonName, false) =>
              if jsonName = [] then
                buildStructLiteralItems fuel ctx visited rest fieldLookup acc
              else
                (buildSchemaFromExpr fuel ctx visited v).bind fun (_, fieldEx) =>
                  let withDefault : Option GoVal :=
                    match fieldEx with
                    | some _ => some fieldEx
                    | none =>
                      (buildSchemaFromExpr fuel ctx visited field.typ).bind
                        fun (vs, _) => defaultExampleFromSchema fuel vs
                  withDefault.bind fun fe =>
                    let acc' :=
                      match fe with
                      | some v' => aupsert acc jsonName v'
                      | none => acc
                    buildStructLiteralItems fuel ctx visited rest fieldLookup acc'
      | _ => buildStructLiteralItems fuel ctx visited rest fieldLookup acc
end

/-- `bindingMethods` of `handler_analyzer`: call names that bind a request
payload, with their fixed content type or `"auto"`. -/
def bindingMethods : List (Str × Str) :=
  [(S "Bind", S "auto"), (S "MustBind", S "auto"), (S "ShouldBind", S "auto"),
   (S "BindJSON", S "application/json"), (S "MustBindWith", S "auto"),
   (S "ShouldBindJSON", S "application/json"),
   (S "BindXML", S "application/xml"), (S "ShouldBindXML", S "application/xml"),
   (S "BindYAML", S "application/x-yaml"), (S "ShouldBindYAML", S "application/x-yaml"),
   (S "BindProto", S "application/protobuf"), (S "BindProtobuf", S "application/protobuf"),
   (S "ShouldBindProto", S "application/protobuf"),
   (S "ShouldBindProtoBuf", S "application/protobuf"),
   (S "BindProtoBuf", S "application/protobuf"),
   (S "BindBodyWith", S "auto"), (S "ShouldBindBodyWith", S "auto")]

/-- `isBindingCall` of `handler_analyzer`: a method call whose selector
name is in the binding table. -/
def isBindingCall (fn : Expr) : Bool :=
  match fn with
  | .selector _ sel => (alookup bindingMethods sel).isSome
  | _ => false

/-- `core.RequestBody`. -/
structure RequestBody where
  contentType : Str
  schema : GoVal
  exampleVal : GoVal
  required : Bool

/-- `core.Response`. -/
structure Response where
  description : Str
  exampleVal : GoVal
  schema : GoVal
  contentType : Str

/-- `responseCallInfo` of `handler_analyzer`: recognize a response call
and return (content type, status expression, payload expression); the
inner `none` means "not a response call". -/
def responseCallInfo (fuel : Nat) (ctx : AnalysisContext) (fn : Expr)
    (args : List Expr) : Option (Option (Str × Expr × Expr)) :=
  match fn with
  | .selector _ method =>
    let twoArg : String → Option (Option (Str × Expr × Expr)) := fun ct =>
      match args with
      | a0 :: a1 :: _ => some (some (S ct, a0, a1))
      | _ => some none
    if method = S "JSON" || method = S "IndentedJSON" || method = S "PureJSON" ||
        method = S "SecureJSON" then twoArg "application/json"
    else if method = S "AbortWithStatusJSON" then twoArg "application/json"
    else if method = S "Data" then
      match args with
      | a0 :: a1 :: a2 :: _ =>
        (resolveContentType fuel ctx a1).map fun ct =>
          let ct := if ct = [] then S "application/octet-stream" else ct
          some (ct, a0, a2)
      | _ => some none
    else if method = S "String" then twoArg "text/plain"
    else if method = S "XML" || method = S "IndentedXML" then twoArg "application/xml"
    else if method = S "YAML" then twoArg "application/x-yaml"
    else if method = S "ProtoBuf" then twoArg "application/x-protobuf"
    else if method = S "JSONP" then twoArg "application/javascript"
    else some none
  | _ => some none

/-- `buildRequestBodyFromExpr` of `handler_analyzer`: a fresh visited set
per request body; nil schema means no body. -/
def buildRequestBodyFromExpr (fuel : Nat) (ctx : AnalysisContext) (e : Expr) :
    Option (Option RequestBody) :=
  (buildSchemaFromExpr fuel ctx [] e).map fun (schema, ex) =>
    match schema with
    | none => none
    | some s =>
      some { contentType := [], schema := some s, exampleVal := ex, required := true }

/-- `resolveRequestBody` of `handler_analyzer`: resolve the bound
argument's type, build its body, and fill in the content type from the
binding table (or the structured-object default). -/
def resolveRequestBody (fuel : Nat) (ctx : AnalysisContext) (callFn arg : Expr) :
    Option (Option RequestBody) :=
  (resolveTypeFromArg fuel ctx arg).bind fun typeExpr =>
    match typeExpr with
    | none => some none
    | some te =>
      (buildRequestBodyFromExpr fuel ctx te).map fun body =>
        match body with
        | none => none
        | some b =>
          let ct :=
            if b.contentType = [] then
              match callFn with
              | .selector _ sel =>
                match alookup bindingMethods sel with
                | some mime => if mime ≠ S "auto" then mime else []
                | none => []
              | _ => []
            else b.contentType
          let ct := if ct = [] then S "application/json" else ct
          some { b with contentType := ct, required := true }

/-- One `ast.ValueSpec` of a declaration statement. -/
structure ValueSpecD where
  names : List Str
  typ : Option Expr
  values : List Expr

/-- The name loop of `registerDeclarationTypes`. -/
def registerValueSpecNames (fuel : Nat) (ctx : AnalysisContext) (names : List Str)
    (idx : Nat) (typ : Option Expr) (values : List Expr) : Option AnalysisContext :=
  match names with
  | [] => some ctx
  | name :: rest =>
    let step : Option AnalysisContext :=
      if name = S "_" then some ctx
      else if (alookup ctx.vars name).isSome then some ctx
      else
        match typ with
        | some t =>
          let valueExpr : Option Expr :=
            match values with
            | [] => none
            | _ =>
              let targetIdx := if values.length = 1 then 0 else idx
              values.get? targetIdx
          some { ctx with vars := aupsert ctx.vars name t,
                          vals := aupsert ctx.vals name valueExpr }
        | none =>
          match values with
          | [] => some ctx
          | _ =>
            let targetIdx := if values.length = 1 then 0 else idx
            match values.get? targetIdx with
            | none => some ctx
            | some valueExpr =>
              (inferTypeFromExpr fuel ctx valueExpr).map fun inferred =>
                match inferred with
                | some inf => { ctx with vars := aupsert ctx.vars name inf,
                                         vals := aupsert ctx.vals name (some valueExpr) }
                | none => ctx
    step.bind fun ctx' => registerValueSpecNames fuel ctx' rest (idx + 1) typ values

/-- `registerDeclarationTypes` of `handler_analyzer` (for `var`/`const`
declaration statements). -/
def registerDeclarationTypes (fuel : Nat) (ctx : AnalysisContext)
    (specs : List ValueSpecD) : Option AnalysisContext :=
  match specs with
  | [] => some ctx
  | spec :: rest =>
    (registerValueSpecNames fuel ctx spec.names 0 spec.typ spec.values).bind fun ctx' =>
      registerDeclarationTypes fuel ctx' rest

/-- The left-hand-side loop of `registerAssignmentTypes`. -/
def registerAssignLhs (fuel : Nat) (ctx : AnalysisContext) (lhs : List Expr)
    (idx : Nat) (rhs : List Expr) : Option AnalysisContext :=
  match lhs with
  | [] => some ctx
  | l :: rest =>
    let step : Option AnalysisContext :=
      match l with
      | .ident name =>
        if name = S "_" then some ctx
        else if (alookup ctx.vars name).isSome then some ctx
        else
          match rhs.get? idx with
          | none => some ctx
          | some r =>
            (inferTypeFromExpr fuel ctx r).map fun inferred =>
              match inferred with
              | some inf => { ctx with vars := aupsert ctx.vars name inf,
                                       vals := aupsert ctx.vals name (some r) }
              | none => ctx
      | _ => some ctx
    step.bind fun ctx' => registerAssignLhs fuel ctx' rest (idx + 1) rhs

/-- `registerAssignmentTypes` of `handler_analyzer` (only `:=`
definitions register). -/
def registerAssignmentTypes (fuel : Nat) (ctx : AnalysisContext) (define : Bool)
    (lhs rhs : List Expr) : Option AnalysisContext :=
  if define then registerAssignLhs fuel ctx lhs 0 rhs else some ctx

/-- `registerRangeTypes` of `handler_analyzer`: bind the range value
variable to the element (array) or value (map) type. -/
def registerRangeTypes (fuel : Nat) (ctx : AnalysisContext) (define : Bool)
    (value : Option Expr) (x : Expr) : Option AnalysisContext :=
  if !define then some ctx
  else
    (inferTypeFromExpr fuel ctx x).map fun collectionType =>
      match collectionType with
      | none => ctx
      | some col =>
        match value with
        | some (.ident vname) =>
          if vname = S "_" then ctx
          else if (alookup ctx.vars vname).isSome then ctx
          else
            match col with
            | .arrayType elt => { ctx with vars := aupsert ctx.vars vname elt,
                                           vals := aupsert ctx.vals vname none }
            | .mapType _ v => { ctx with vars := aupsert ctx.vars vname v,
                                         vals := aupsert ctx.vals vname none }
            | _ => ctx
        | _ => ctx

/-- `handlerAnalysis` of `handler_analyzer`. -/
structure HandlerAnalysis where
  requestBody : Option RequestBody
  responses : List (Str × Response)

/-- One node of the pre-order traversal `ast.Inspect` performs over a
handler body: the four node kinds `analyzeHandlerDetails` acts on, in the
order the walk reaches them (a statement node precedes the call
expressions nested in it). -/
inductive ANode where
  | declNode (specs : List ValueSpecD)
  | assignNode (define : Bool) (lhs rhs : List Expr)
  | rangeNode (define : Bool) (value : Option Expr) (x : Expr)
  | callNode (fn : Expr) (args : List Expr)

/-- The `*ast.CallExpr` branch of `analyzeHandlerDetails`: request-body
binding detection (only while no body is recorded), then response
detection. -/
def analyzeCallNode (fuel : Nat) (ctx : AnalysisContext)
    (analysis : HandlerAnalysis) (fn : Expr) (args : List Expr) :
    Option HandlerAnalysis :=
  let bindingStep : Option HandlerAnalysis :=
    if analysis.requestBody.isNone && isBindingCall fn then
      match args with
      | a :: _ =>
        (resolveRequestBody fuel ctx fn a).map fun r =>
          match r with
          | some rb => { analysis with requestBody := some rb }
          | none => analysis
      | [] => some analysis
    else some analysis
  bindingStep.bind fun a1 =>
    (responseCallInfo fuel ctx fn args).bind fun info =>
      match info with
      | none => some a1
      | some (contentType, statusExpr, dataExpr) =>
        (extractStatusCode fuel ctx statusExpr).bind fun sc =>
          let statusCode := if sc = [] then S "200" else sc
          (resolveResponsePayloadExpr fuel ctx dataExpr).bind fun payload =>
            (buildSchemaFromExpr fuel ctx [] payload).bind fun (schema, ex) =>
              (normalizeExampleWithSchema fuel schema ex).bind fun ex1 =>
                let withDefault : Option GoVal :=
                  match ex1 with
                  | some _ => some ex1
                  | none => defaultExampleFromSchema fuel schema
                withDefault.map fun ex2 =>
                  let ct := if contentType = [] then S "application/json" else contentType
                  let desc0 := statusTextFromCode statusCode
                  let desc := if desc0 = [] then S "Response" else desc0
                  let resp : Response :=
                    { description := desc, exampleVal := ex2, schema := schema,
                      contentType := ct }
                  { a1 with responses := aupsert a1.responses statusCode resp }

/-- Process one traversal node: scope registration for declaration,
define-assignment and range nodes; binding/response detection for call
nodes. -/
def analyzeNode (fuel : Nat) (st : AnalysisContext × HandlerAnalysis)
    (node : ANode) : Option (AnalysisContext × HandlerAnalysis) :=
  match node with
  | .declNode specs =>
    (registerDeclarationTypes fuel st.1 specs).map fun ctx' => (ctx', st.2)
  | .assignNode define lhs rhs =>
    (registerAssignmentTypes fuel st.1 define lhs rhs).map fun ctx' => (ctx', st.2)
  | .rangeNode define value x =>
    (registerRangeTypes fuel st.1 define value x).map fun ctx' => (ctx', st.2)
  | .callNode fn args =>
    (analyzeCallNode fuel st.1 st.2 fn args).map fun a' => (st.1, a')

/-- The traversal fold of `analyzeHandlerDetails` over the node list. -/
def analyzeNodes (fuel : Nat) (nodes : List ANode)
    (st : AnalysisContext × HandlerAnalysis) :
    Option (AnalysisContext × HandlerAnalysis) :=
  match nodes with
  | [] => some st
  | node :: rest => (analyzeNode fuel st node).bind (analyzeNodes fuel rest)

/-- `analyzeHandlerDetails` of `handler_analyzer`: infer the request body
and responses of one handler from its body's traversal nodes (a handler
without a body has the empty node list). -/
def analyzeHandlerDetails (fuel : Nat) (structs : List (Str × List GoField))
    (functions : List (Str × List FuncSignature)) (body : List ANode) :
    Option HandlerAnalysis :=
  (analyzeNodes fuel body
    ({ structs := structs, functions := functions, vars := [], vals := [] },
     { requestBody := none, responses := [] })).map (·.2)

mutual
/-- Scanner for the replacement
`muxParamRegex.ReplaceAllString(result, "\x7b$1\x7d")` of
`core.convertPathToOpenAPI`, where `muxParamRegex` is
`\x5c\x7b([^\x7b\x7d:]+):[^\x7b\x7d]+\x5c\x7d`: outside any candidate
match, characters pass through and `\x7b` opens a candidate. -/
def muxScanOutside (s : Str) : Str :=
  match s with
  | [] => []
  | c :: rest => if c = '\x7b' then muxScanName rest [] else c :: muxScanOutside rest

/-- Inside `\x7b`, collecting the name part `[^\x7b\x7d:]+` (greedy, so it
ends exactly at the first `:`, `\x7b` or `\x7d`). -/
def muxScanName (s : Str) (acc : Str) : Str :=
  match s with
  | [] => '\x7b' :: acc
  | c :: rest =>
    if c = ':' then
      match acc with
      | [] => '\x7b' :: ':' :: muxScanOutside rest
      | _ => muxScanPattern rest acc []
    else if c = '\x7b' then '\x7b' :: acc ++ muxScanName rest []
    else if c = '\x7d' then '\x7b' :: acc ++ '\x7d' :: muxScanOutside rest
    else muxScanName rest (acc ++ [c])

/-- After the `:`, collecting the pattern part `[^\x7b\x7d]+`; a closing
`\x7d` after at least one pattern character completes a match, which is
replaced by `\x7b` name `\x7d`. -/
def muxScanPattern (s : Str) (name acc : Str) : Str :=
  match s with
  | [] => '\x7b' :: name ++ ':' :: acc
  | c :: rest =>
    if c = '\x7d' then
      match acc with
      | [] => '\x7b' :: name ++ ':' :: '\x7d' :: muxScanOutside rest
      | _ => '\x7b' :: name ++ '\x7d' :: muxScanOutside rest
    else if c = '\x7b' then '\x7b' :: name ++ ':' :: acc ++ muxScanName rest []
    else muxScanPattern rest name (acc ++ [c])
end

/-- The per-segment rewrite of `core.convertPathToOpenAPI`: a segment
starting with `:` becomes `\x7bname\x7d`. -/
def colonSegment (part : Str) : Str :=
  if strStarts part (S ":") then '\x7b' :: (part.drop 1) ++ ['\x7d'] else part

/-- The post-join stages of `core.convertPathToOpenAPI`: `<`/`>`
replacement, the mux-regex pattern strip, the `\x7b\x7d/` cleanup, and
the leading-`\x7b\x7d` trim. -/
def pathAfterJoin (result : Str) : Str :=
  let result := replaceAll result (S "<") (S "\x7b")
  let result := replaceAll result (S ">") (S "\x7d")
  let result := muxScanOutside result
  let result := replaceAll result (S "\x7b\x7d/") (S "/")
  if strStarts result (S "\x7b\x7d") then result.drop 2 else result

/-- `core.convertPathToOpenAPI`: normalize framework path placeholders
(`:name`, `<name>`, `\x7bname:pattern\x7d`) to OpenAPI `\x7bname\x7d`
form, with a leading slash. -/
def convertPathToOpenAPI (path : Str) : Str :=
  let path := if strStarts path (S "/") then path else '/' :: path
  let parts := splitOnChar '/' path
  let parts := parts.map colonSegment
  pathAfterJoin (joinWithChar '/' parts)

/-- The mutable state guarded by `analysisMutex`: the directory cache
(`analysisCache`, whose entry value is nil after a failed analysis) and,
for specification purposes, a counter of `analyzeDirectory` executions.
`β` abstracts `*packageAnalysis`. -/
structure CacheState (β : Type) where
  cache : List (Str × Option β)
  runs : Nat

/-- `analyzeDirectory` of `handler_analyzer`, with the external
`parser.ParseDir` abstracted as `parseDir` and the pure
struct/function/handler collection as `collect`: a parse failure yields
no analysis at all (never a partial one). -/
def analyzeDirectory {α β : Type} (parseDir : Str → Option α) (collect : α → β)
    (dir : Str) : Option β :=
  (parseDir dir).map collect

/-- `loadPackageAnalysis` of `handler_analyzer`, sequential view: under
the write lock the two cache probes collapse into one; a failed analysis
is cached as a nil entry. -/
def loadPackageAnalysis {β : Type} (analyzeDir : Str → Option β) (dir : Str)
    (st : CacheState β) : Option β × CacheState β :=
  match alookup st.cache dir with
  | some cached => (cached, st)
  | none =>
    match analyzeDir dir with
    | none => (none, { cache := aupsert st.cache dir none, runs := st.runs + 1 })
    | some pa => (some pa, { cache := aupsert st.cache dir (some pa), runs := st.runs + 1 })

/-- Program counter of one caller running `loadPackageAnalysis`
concurrently: the read-locked probe, the write-locked re-check, the
analyze/store sequence, and the unlock-and-return exits. -/
inductive TPC where
  | start | reading | runlockHit | runlockMiss | wlockWait
  | recheck | analyze | store | unlockW | unlockRet | done
  deriving DecidableEq

/-- Does a thread at this pc hold the read lock? -/
def holdsRead (pc : TPC) : Prop :=
  pc = .reading ∨ pc = .runlockHit ∨ pc = .runlockMiss

/-- Does a thread at this pc hold the write lock? -/
def holdsWrite (pc : TPC) : Prop :=
  pc = .recheck ∨ pc = .analyze ∨ pc = .store ∨ pc = .unlockW ∨ pc = .unlockRet

instance (pc : TPC) : Decidable (holdsRead pc) := by
  unfold holdsRead; infer_instance

instance (pc : TPC) : Decidable (holdsWrite pc) := by
  unfold holdsWrite; infer_instance

/-- One caller's state: program counter, the cache value it has observed
or produced (`local`), and its return value once done.  Values of type
`Option Nat` stand for `*packageAnalysis` pointers (nil included). -/
structure ThreadState where
  pc : TPC
  localVal : Option (Option Nat)
  ret : Option (Option Nat)

/-- The two callers racing on one cold directory plus the shared state. -/
structure MachineState where
  t1 : ThreadState
  t2 : ThreadState
  cache : Option (Option Nat)
  runs : Nat

/-- Advance one caller by one step of the double-checked locking protocol
of `loadPackageAnalysis`, given the other caller's pc (for the lock
guards) and the fixed analysis outcome `v`.  A blocked or finished caller
leaves the state unchanged. -/
def stepThread (v : Option Nat) (otherPc : TPC) (self : ThreadState)
    (cache : Option (Option Nat)) (runs : Nat) :
    ThreadState × Option (Option Nat) × Nat :=
  match self.pc with
  | .start =>
    if holdsWrite otherPc then (self, cache, runs)
    else ({ self with pc := .reading }, cache, runs)
  | .reading =>
    match cache with
    | some cv => ({ self with pc := .runlockHit, localVal := some cv }, cache, runs)
    | none => ({ self with pc := .runlockMiss }, cache, runs)
  | .runlockHit => ({ self with pc := .done, ret := self.localVal }, cache, runs)
  | .runlockMiss => ({ self with pc := .wlockWait }, cache, runs)
  | .wlockWait =>
    if holdsRead otherPc ∨ holdsWrite otherPc then (self, cache, runs)
    else ({ self with pc := .recheck }, cache, runs)
  | .recheck =>
    match cache with
    | some cv => ({ self with pc := .unlockRet, localVal := some cv }, cache, runs)
    | none => ({ self with pc := .analyze }, cache, runs)
  | .analyze => ({ self with pc := .store, localVal := some v }, cache, runs + 1)
  | .store =>
    match self.localVal with
    | some x => ({ self with pc := .unlockW }, some x, runs)
    | none => ({ self with pc := .unlockW }, cache, runs)
  | .unlockW => ({ self with pc := .done, ret := self.localVal }, cache, runs)
  | .unlockRet => ({ self with pc := .done, ret := self.localVal }, cache, runs)
  | .done => (self, cache, runs)

/-- One machine step: the scheduler picks caller 1 (`true`) or 2. -/
def step (v : Option Nat) (s : MachineState) (choice : Bool) : MachineState :=
  if choice then
    let (t1', cache', runs') := stepThread v s.t2.pc s.t1 s.cache s.runs
    { s with t1 := t1', cache := cache', runs := runs' }
  else
    let (t2', cache', runs') := stepThread v s.t1.pc s.t2 s.cache s.runs
    { s with t2 := t2', cache := cache', runs := runs' }

/-- Run the two callers under an arbitrary finite schedule. -/
def runSched (v : Option Nat) (sched : List Bool) (s : MachineState) : MachineState :=
  match sched with
  | [] => s
  | c :: rest => runSched v rest (step v s c)

/-- Both callers at the entry of `loadPackageAnalysis`, cold cache. -/
def initMachine : MachineState :=
  { t1 := { pc := .start, localVal := none, ret := none }
    t2 := { pc := .start, localVal := none, ret := none }
    cache := none, runs := 0 }

/-! ## Theorems -/

/-- The spec's wording of the required rule (for comparison with
`isFieldRequired`): no omit-if-empty marker anywhere in the tag metadata,
and an explicit required marker in the binding or validate vocabulary. -/
def specFieldRequired (jsonTag bindingTag validateTag : Str) : Bool :=
  (!(strContains jsonTag (S "omitempty") || strContains bindingTag (S "omitempty") ||
     strContains validateTag (S "omitempty"))) &&
  (strContains bindingTag (S "required") || strContains validateTag (S "required"))

/-- C4, counterexample: a field tagged `validate:"omitempty,required"`
carries an omit-if-empty marker, so the claim says it is never required;
`isFieldRequired` marks it required (the omit-if-empty check covers only
the json and binding vocabularies, not validate). -/
theorem c4_counterexample :
    isFieldRequired [] [] (S "omitempty,required") = true ∧
    specFieldRequired [] [] (S "omitempty,required") = false := by
  constructor <;> rfl

/-- C4, amended: a field is required iff neither its json tag nor its
binding tag contains the omit-if-empty marker and its binding or validate
tag contains the required marker (an omit-if-empty marker inside the
validate tag alone does not disable the required marker). -/
theorem c4_required_iff (jsonTag bindingTag validateTag : Str) :
    isFieldRequired jsonTag bindingTag validateTag = true ↔
    (strContains jsonTag (S "omitempty") = false ∧
     strContains bindingTag (S "omitempty") = false ∧
     (strContains bindingTag (S "required") = true ∨
      strContains validateTag (S "required") = true)) := by
  unfold isFieldRequired
  split_ifs with h1 h2 h3 h4 <;> simp_all

/-- `splitOnChar` never returns the empty list. -/
theorem splitOnChar_ne_nil (sep : Char) (s : Str) : splitOnChar sep s ≠ [] := by
  induction s with
  | nil => simp [splitOnChar]
  | cons c rest ih =>
    simp only [splitOnChar]
    cases splitOnChar sep rest with
    | nil => simp
    | cons seg segs =>
      dsimp only
      split <;> simp

/-- The worker of `replaceAll` keeps a head character that differs from
the pattern's first character. -/
theorem replaceAllF_cons_head (fuel : Nat) (t : Str) (q : Char) (qs : Str)
    (repl : Str) (c : Char) (hq : q ≠ c) :
    replaceAllF (fuel + 1) (c :: t) (q :: qs) repl =
      c :: replaceAllF fuel t (q :: qs) repl := by
  have h : strStarts (c :: t) (q :: qs) = false := by
    simp [strStarts, hq]
  simp [replaceAllF, h]

/-- `replaceAll` with a pattern that does not start with the string's
head character keeps that head. -/
theorem replaceAll_cons_head (t : Str) (q : Char) (qs : Str) (repl : Str)
    (c : Char) (hq : q ≠ c) :
    replaceAll (c :: t) (q :: qs) repl = c :: replaceAll t (q :: qs) repl := by
  simp only [replaceAll, List.length_cons]
  exact replaceAllF_cons_head t.length t q qs repl c hq

/-- The mux-regex scanner passes a non-`\x7b` head character through. -/
theorem muxScanOutside_cons (c : Char) (rest : Str) (hc : c ≠ '\x7b') :
    muxScanOutside (c :: rest) = c :: muxScanOutside rest := by
  simp [muxScanOutside, hc]

/-- The slash-prefixing step always yields a slash-headed string. -/
theorem prefixSlash_head (p : Str) :
    ∃ q, (if strStarts p (S "/") then p else '/' :: p) = '/' :: q := by
  cases hstart : strStarts p (S "/") with
  | false => exact ⟨p, by simp [hstart]⟩
  | true =>
    rcases p with _ | ⟨c, cs⟩
    · rw [show S "/" = ['/'] from rfl] at hstart
      simp [strStarts] at hstart
    · have hc : '/' = c := by
        rw [show S "/" = ['/'] from rfl] at hstart
        simp [strStarts] at hstart
        exact hstart
      exact ⟨cs, by simp [hstart, ← hc]⟩

/-- Splitting a slash-headed string on `/` yields a leading empty
segment. -/
theorem splitOnChar_slash_head (q : Str) :
    ∃ seg segs, splitOnChar '/' ('/' :: q) = [] :: seg :: segs := by
  cases h : splitOnChar '/' q with
  | nil => exact absurd h (splitOnChar_ne_nil '/' q)
  | cons seg segs => exact ⟨seg, segs, by simp [splitOnChar, h]⟩

/-- The post-join pipeline preserves a leading slash. -/
theorem pathAfterJoin_head (t : Str) : ∃ u, pathAfterJoin ('/' :: t) = '/' :: u := by
  simp only [pathAfterJoin]
  rw [show S "<" = ['<'] from rfl, show S "\x7b" = ['\x7b'] from rfl]
  rw [replaceAll_cons_head t '<' [] ['\x7b'] '/' (by decide)]
  rw [show S ">" = ['>'] from rfl, show S "\x7d" = ['\x7d'] from rfl]
  rw [replaceAll_cons_head _ '>' [] ['\x7d'] '/' (by decide)]
  rw [muxScanOutside_cons '/' _ (by decide)]
  rw [show S "\x7b\x7d/" = '\x7b' :: ['\x7d', '/'] from rfl]
  rw [replaceAll_cons_head _ '\x7b' ['\x7d', '/'] (S "/") '/' (by decide)]
  have h5 : strStarts ('/' :: replaceAll (muxScanOutside (replaceAll (replaceAll t ['<'] ['\x7b']) ['>'] ['\x7d'])) ('\x7b' :: ['\x7d', '/']) (S "/")) (S "\x7b\x7d") = false := by
    simp [strStarts, S]
  rw [h5]
  simp

/-- Every normalized path starts with `/`. -/
theorem convertPathToOpenAPI_head (p : Str) :
    ∃ t, convertPathToOpenAPI p = '/' :: t := by
  obtain ⟨q, hq⟩ := prefixSlash_head p
  obtain ⟨seg, segs, hsp⟩ := splitOnChar_slash_head q
  have hmap : (splitOnChar '/' ('/' :: q)).map colonSegment =
      [] :: colonSegment seg :: segs.map colonSegment := by
    rw [hsp]
    simp [show colonSegment [] = [] from rfl]
  have hjoin : joinWithChar '/' ([] :: colonSegment seg :: segs.map colonSegment) =
      '/' :: joinWithChar '/' (colonSegment seg :: segs.map colonSegment) := rfl
  obtain ⟨u, hu⟩ :=
    pathAfterJoin_head (joinWithChar '/' (colonSegment seg :: segs.map colonSegment))
  refine ⟨u, ?_⟩
  simp only [convertPathToOpenAPI]
  rw [hq, hmap, hjoin, hu]

/-- Updating an association list leaves the key list unchanged when the
key is present, else appends it. -/
theorem akeys_aupsert {α : Type} (m : List (Str × α)) (k : Str) (v : α) :
    akeys (aupsert m k v) = if k ∈ akeys m then akeys m else akeys m ++ [k] := by
  induction m with
  | nil => simp [aupsert, akeys]
  | cons p rest ih =>
    obtain ⟨k', v'⟩ := p
    by_cases hk : k' = k
    · subst hk
      have hup : aupsert ((k', v') :: rest) k' v = (k', v) :: rest := by simp [aupsert]
      have h1 : akeys ((k', v) :: rest) = k' :: akeys rest := rfl
      have h2 : akeys ((k', v') :: rest) = k' :: akeys rest := rfl
      rw [hup, h1, h2, if_pos (List.mem_cons_self k' _)]
    · simp only [aupsert, if_neg hk]
      rw [show akeys ((k', v') :: aupsert rest k v) = k' :: akeys (aupsert rest k v) from rfl]
      rw [ih]
      rw [show akeys ((k', v') :: rest) = k' :: akeys rest from rfl]
      by_cases hmem : k ∈ akeys rest
      · rw [if_pos hmem, if_pos (by simp [hmem])]
      · have hnotin : k ∉ k' :: akeys rest := by
          simp only [List.mem_cons, not_or]
          exact ⟨fun h => hk h.symm, hmem⟩
        rw [if_neg hmem, if_neg hnotin]
        simp

/-- Membership of keys is preserved by updates. -/
theorem mem_akeys_aupsert_iff {α : Type} (m : List (Str × α)) (k j : Str) (v : α) :
    j ∈ akeys (aupsert m k v) ↔ j ∈ akeys m ∨ j = k := by
  rw [akeys_aupsert]
  split_ifs with h
  · constructor
    · exact fun hj => Or.inl hj
    · rintro (hj | rfl)
      · exact hj
      · exact h
  · simp

/-- Updates preserve distinctness of the key list. -/
theorem nodup_akeys_aupsert {α : Type} (m : List (Str × α)) (k : Str) (v : α)
    (h : (akeys m).Nodup) : (akeys (aupsert m k v)).Nodup := by
  rw [akeys_aupsert]
  split_ifs with hmem
  · exact h
  · simp [List.nodup_append, h, hmem]

/-- Specification of the name loop of `buildStructSchema`: earlier keys
survive, distinctness survives, every non-skipped nonempty name whose
field type yields a schema lands under its resolved name, and new keys
come only from resolved names of the loop's names. -/
theorem buildStructNames_spec (ctx : AnalysisContext) (visited : List Str)
    (field : GoField) :
    ∀ fuel names props ex req props' ex' req',
      buildStructNames fuel ctx visited names field props ex req =
        some (props', ex', req') →
      ((∀ j, j ∈ akeys props → j ∈ akeys props') ∧
       ((akeys props).Nodup → (akeys props').Nodup) ∧
       (∀ name, name ∈ names → name ≠ [] → ∀ jsonName,
         resolveJSONFieldName name (getStructTag field (S "json")) = (jsonName, false) →
         jsonName ∈ akeys props' ∨
           ∃ m e', buildSchemaFromExpr m ctx visited field.typ = some (none, e')) ∧
       (∀ j, j ∈ akeys props' → j ∈ akeys props ∨
         ∃ name, name ∈ names ∧
           resolveJSONFieldName name (getStructTag field (S "json")) = (j, false))) := by
  intro fuel
  induction fuel with
  | zero =>
    intro names props ex req props' ex' req' h
    exact absurd h (by simp [buildStructNames])
  | succ fuel ih =>
    intro names props ex req props' ex' req' h
    cases names with
    | nil =>
      simp only [buildStructNames, Option.some.injEq, Prod.mk.injEq] at h
      obtain ⟨rfl, rfl, rfl⟩ := h
      refine ⟨fun j hj => hj, fun hn => hn, ?_, fun j hj => Or.inl hj⟩
      intro name hname
      exact absurd hname (List.not_mem_nil name)
    | cons name restNames =>
      simp only [buildStructNames] at h
      by_cases hempty : name = []
      · rw [if_pos hempty] at h
        obtain ⟨h1, h2, h3, h4⟩ := ih restNames props ex req props' ex' req' h
        refine ⟨h1, h2, ?_, ?_⟩
        · intro nm hnm hne jn hres
          rcases List.mem_cons.mp hnm with rfl | htail
          · exact absurd hempty hne
          · exact h3 nm htail hne jn hres
        · intro j hj
          rcases h4 j hj with hj' | ⟨nm, hnm, hres⟩
          · exact Or.inl hj'
          · exact Or.inr ⟨nm, List.mem_cons_of_mem name hnm, hres⟩
      · rw [if_neg hempty] at h
        rcases hres0 : resolveJSONFieldName name (getStructTag field (S "json")) with ⟨jn0, skip0⟩
        rw [hres0] at h
        cases skip0 with
        | true =>
          try dsimp only at h
          obtain ⟨h1, h2, h3, h4⟩ := ih restNames props ex req props' ex' req' h
          refine ⟨h1, h2, ?_, ?_⟩
          · intro nm hnm hne jn hres
            rcases List.mem_cons.mp hnm with rfl | htail
            · rw [hres0] at hres
              exact absurd (congrArg Prod.snd hres) (by simp)
            · exact h3 nm htail hne jn hres
          · intro j hj
            rcases h4 j hj with hj' | ⟨nm, hnm, hres⟩
            · exact Or.inl hj'
            · exact Or.inr ⟨nm, List.mem_cons_of_mem name hnm, hres⟩
        | false =>
          try dsimp only at h
          rcases hbuild : buildSchemaFromExpr fuel ctx visited field.typ with _ | ⟨schema, fieldEx⟩
          · rw [hbuild] at h
            rw [Option.none_bind] at h
            exact Option.noConfusion h
          · rw [hbuild] at h
            simp only [Option.some_bind] at h
            cases schema with
            | none =>
              try dsimp only at h
              obtain ⟨h1, h2, h3, h4⟩ := ih restNames props ex req props' ex' req' h
              refine ⟨h1, h2, ?_, ?_⟩
              · intro nm hnm hne jn hres
                exact Or.inr ⟨fuel, fieldEx, hbuild⟩
              · intro j hj
                rcases h4 j hj with hj' | ⟨nm, hnm, hres⟩
                · exact Or.inl hj'
                · exact Or.inr ⟨nm, List.mem_cons_of_mem name hnm, hres⟩
            | some sm =>
              try dsimp only at h
              rw [Option.bind_eq_some] at h
              obtain ⟨fe, hfe, h⟩ := h
              obtain ⟨h1, h2, h3, h4⟩ := ih restNames _ _ _ props' ex' req' h
              refine ⟨?_, ?_, ?_, ?_⟩
              · intro j hj
                exact h1 j ((mem_akeys_aupsert_iff _ _ _ _).mpr (Or.inl hj))
              · intro hn
                exact h2 (nodup_akeys_aupsert _ _ _ hn)
              · intro nm hnm hne jn hres
                rcases List.mem_cons.mp hnm with rfl | htail
                · rw [hres0] at hres
                  have hjn : jn0 = jn := congrArg Prod.fst hres
                  subst hjn
                  exact Or.inl (h1 jn0 ((mem_akeys_aupsert_iff _ _ _ _).mpr (Or.inr rfl)))
                · exact h3 nm htail hne jn hres
              · intro j hj
                rcases h4 j hj with hj' | ⟨nm, hnm, hres⟩
                · rcases (mem_akeys_aupsert_iff _ _ _ _).mp hj' with hjp | rfl
                  · exact Or.inl hjp
                  · exact Or.inr ⟨name, List.mem_cons_self name restNames, hres0⟩
                · exact Or.inr ⟨nm, List.mem_cons_of_mem name hnm, hres⟩

/-- Overlaying never loses a key. -/
theorem overlayEntries_mem (entries : List (Str × JValue)) :
    ∀ base j, j ∈ akeys base → j ∈ akeys (overlayEntries base entries) := by
  induction entries with
  | nil => exact fun base j hj => hj
  | cons kv rest ih =>
    intro base j hj
    exact ih (aupsert base kv.1 kv.2) j ((mem_akeys_aupsert_iff _ _ _ _).mpr (Or.inl hj))

/-- Overlaying preserves key distinctness. -/
theorem overlayEntries_nodup (entries : List (Str × JValue)) :
    ∀ base, (akeys base).Nodup → (akeys (overlayEntries base entries)).Nodup := by
  induction entries with
  | nil => exact fun base h => h
  | cons kv rest ih =>
    intro base h
    exact ih (aupsert base kv.1 kv.2) (nodup_akeys_aupsert _ _ _ h)

/-- Every key of an overlay comes from the base or the overlaid
entries. -/
theorem overlayEntries_origin (entries : List (Str × JValue)) :
    ∀ base j, j ∈ akeys (overlayEntries base entries) →
      j ∈ akeys base ∨ j ∈ akeys entries := by
  induction entries with
  | nil => exact fun base j hj => Or.inl hj
  | cons kv rest ih =>
    intro base j hj
    rcases ih (aupsert base kv.1 kv.2) j hj with hb | he
    · rcases (mem_akeys_aupsert_iff _ _ _ _).mp hb with hb0 | rfl
      · exact Or.inl hb0
      · exact Or.inr (List.mem_cons_self _ _)
    · exact Or.inr (List.mem_cons_of_mem _ he)

/-- Specification of the field loop of `buildStructSchema`, embedded
(nameless) fields included: keys only accumulate, key distinctness is
preserved, every named non-skipped field name whose type resolves to a
schema is keyed, and every key originates in the accumulator, in a named
field, or in the flattened properties of an embedded field's schema. -/
theorem buildStructFields_spec (ctx : AnalysisContext) (visited : List Str) :
    ∀ fuel fields props ex req props' ex' req',
      buildStructFields fuel ctx visited fields props ex req =
        some (props', ex', req') →
      ((∀ j, j ∈ akeys props → j ∈ akeys props') ∧
       ((akeys props).Nodup → (akeys props').Nodup) ∧
       (∀ f, f ∈ fields → ∀ name, name ∈ f.names → name ≠ [] → ∀ jsonName,
         resolveJSONFieldName name (getStructTag f (S "json")) = (jsonName, false) →
         jsonName ∈ akeys props' ∨
           ∃ m e', buildSchemaFromExpr m ctx visited f.typ = some (none, e')) ∧
       (∀ j, j ∈ akeys props' → j ∈ akeys props ∨
         (∃ f, f ∈ fields ∧ ∃ name, name ∈ f.names ∧
           resolveJSONFieldName name (getStructTag f (S "json")) = (j, false)) ∨
         (∃ f, f ∈ fields ∧ f.names = [] ∧ ∃ m sm e' nested,
           buildSchemaFromExpr m ctx visited f.typ = some (some sm, e') ∧
           jlookup sm (S "properties") = some (.obj nested) ∧
           j ∈ akeys nested))) := by
  intro fuel
  induction fuel with
  | zero =>
    intro fields props ex req props' ex' req' h
    exact absurd h (by simp [buildStructFields])
  | succ fuel ih =>
    intro fields props ex req props' ex' req' h
    cases fields with
    | nil =>
      simp only [buildStructFields, Option.some.injEq, Prod.mk.injEq] at h
      obtain ⟨rfl, rfl, rfl⟩ := h
      refine ⟨fun j hj => hj, fun hn => hn, ?_, fun j hj => Or.inl hj⟩
      intro f hf
      exact absurd hf (List.not_mem_nil f)
    | cons field rest =>
      simp only [buildStructFields] at h
      cases hnames : field.names with
      | nil =>
        rw [hnames] at h
        try dsimp only at h
        rw [Option.bind_eq_some] at h
        obtain ⟨⟨schema, nestedEx⟩, hbuild, h⟩ := h
        try dsimp only at h
        have hsuff : ∀ P E R,
            buildStructFields fuel ctx visited rest P E R =
              some (props', ex', req') →
            (∀ j, j ∈ akeys props → j ∈ akeys P) →
            ((akeys props).Nodup → (akeys P).Nodup) →
            (∀ j, j ∈ akeys P → j ∈ akeys props ∨
              ∃ sm nested, schema = some sm ∧
                jlookup sm (S "properties") = some (.obj nested) ∧
                j ∈ akeys nested) →
            ((∀ j, j ∈ akeys props → j ∈ akeys props') ∧
             ((akeys props).Nodup → (akeys props').Nodup) ∧
             (∀ f, f ∈ field :: rest → ∀ name, name ∈ f.names → name ≠ [] →
               ∀ jsonName,
               resolveJSONFieldName name (getStructTag f (S "json")) =
                 (jsonName, false) →
               jsonName ∈ akeys props' ∨
                 ∃ m e', buildSchemaFromExpr m ctx visited f.typ =
                   some (none, e')) ∧
             (∀ j, j ∈ akeys props' → j ∈ akeys props ∨
               (∃ f, f ∈ field :: rest ∧ ∃ name, name ∈ f.names ∧
                 resolveJSONFieldName name (getStructTag f (S "json")) =
                   (j, false)) ∨
               (∃ f, f ∈ field :: rest ∧ f.names = [] ∧ ∃ m sm e' nested,
                 buildSchemaFromExpr m ctx visited f.typ =
                   some (some sm, e') ∧
                 jlookup sm (S "properties") = some (.obj nested) ∧
                 j ∈ akeys nested))) := by
          intro P E R hrest hmono hnodup horigin
          obtain ⟨h1, h2, h3, h4⟩ := ih rest P E R props' ex' req' hrest
          refine ⟨fun j hj => h1 j (hmono j hj), fun hn => h2 (hnodup hn), ?_, ?_⟩
          · intro f hf name hname hne jsonName hres
            rcases List.mem_cons.mp hf with rfl | htail
            · rw [hnames] at hname
              exact absurd hname (List.not_mem_nil name)
            · exact h3 f htail name hname hne jsonName hres
          · intro j hj
            rcases h4 j hj with hjP | hnamed | hemb
            · rcases horigin j hjP with hj0 | ⟨sm, nested, hsm, hjl, hin⟩
              · exact Or.inl hj0
              · refine Or.inr (Or.inr ⟨field, List.mem_cons_self field rest,
                  hnames, fuel, sm, nestedEx, nested, ?_, hjl, hin⟩)
                rw [hsm] at hbuild
                exact hbuild
            · obtain ⟨f, hf, rest3⟩ := hnamed
              exact Or.inr (Or.inl ⟨f, List.mem_cons_of_mem field hf, rest3⟩)
            · obtain ⟨f, hf, rest3⟩ := hemb
              exact Or.inr (Or.inr ⟨f, List.mem_cons_of_mem field hf, rest3⟩)
        cases schema with
        | none =>
          try dsimp only at h
          exact hsuff _ _ _ h (fun j hj => hj) (fun hn => hn)
            (fun j hj => Or.inl hj)
        | some sm =>
          try dsimp only at h
          rcases hjl : jlookup sm (S "properties") with _ | v
          · rw [hjl] at h
            try dsimp only at h
            exact hsuff _ _ _ h (fun j hj => hj) (fun hn => hn)
              (fun j hj => Or.inl hj)
          · rw [hjl] at h
            cases v with
            | obj nested =>
              try dsimp only at h
              refine hsuff _ _ _ h
                (fun j hj => overlayEntries_mem nested props j hj)
                (fun hn => overlayEntries_nodup nested props hn) ?_
              intro j hj
              rcases overlayEntries_origin nested props j hj with hb | he
              · exact Or.inl hb
              · exact Or.inr ⟨sm, nested, rfl, hjl, he⟩
            | str s2 =>
              try dsimp only at h
              exact hsuff _ _ _ h (fun j hj => hj) (fun hn => hn)
                (fun j hj => Or.inl hj)
            | int n2 =>
              try dsimp only at h
              exact hsuff _ _ _ h (fun j hj => hj) (fun hn => hn)
                (fun j hj => Or.inl hj)
            | num q2 =>
              try dsimp only at h
              exact hsuff _ _ _ h (fun j hj => hj) (fun hn => hn)
                (fun j hj => Or.inl hj)
            | bool b2 =>
              try dsimp only at h
              exact hsuff _ _ _ h (fun j hj => hj) (fun hn => hn)
                (fun j hj => Or.inl hj)
            | arr xs2 =>
              try dsimp only at h
              exact hsuff _ _ _ h (fun j hj => hj) (fun hn => hn)
                (fun j hj => Or.inl hj)
      | cons n ns =>
        rw [hnames] at h
        try dsimp only at h
        rw [Option.bind_eq_some] at h
        obtain ⟨⟨p1, e1, r1⟩, hfirst, h⟩ := h
        obtain ⟨g1, g2, g3, g4⟩ := buildStructNames_spec ctx visited field fuel
          (n :: ns) props ex req p1 e1 r1 hfirst
        obtain ⟨h1, h2, h3, h4⟩ := ih rest p1 e1 r1 props' ex' req' h
        refine ⟨fun j hj => h1 j (g1 j hj), fun hn => h2 (g2 hn), ?_, ?_⟩
        · intro f hf name hname hne jsonName hres
          rcases List.mem_cons.mp hf with rfl | htail
          · rcases g3 name (hnames ▸ hname) hne jsonName hres with hmem | hnone
            · exact Or.inl (h1 jsonName hmem)
            · exact Or.inr hnone
          · exact h3 f htail name hname hne jsonName hres
        · intro j hj
          rcases h4 j hj with hj1 | hnamed | hemb
          · rcases g4 j hj1 with hj0 | ⟨name, hname, hres⟩
            · exact Or.inl hj0
            · exact Or.inr (Or.inl ⟨field, List.mem_cons_self field rest, name,
                hnames ▸ hname, hres⟩)
          · obtain ⟨f, hf, rest3⟩ := hnamed
            exact Or.inr (Or.inl ⟨f, List.mem_cons_of_mem field hf, rest3⟩)
          · obtain ⟨f, hf, rest3⟩ := hemb
            exact Or.inr (Or.inr ⟨f, List.mem_cons_of_mem field hf, rest3⟩)

/-- An analysis context with no declarations at all. -/
def emptyCtx : AnalysisContext :=
  { structs := [], functions := [], vars := [], vals := [] }

/-- A struct field of an unresolvable (function) type, named and not
skipped. -/
def callbackField : GoField := GoField.mk [S "Callback"] .funcType none [] []

/-- C3, counterexample: a named field without a skip marker whose type
the schema builder cannot resolve (a `func()` field) resolves to the
serialization name `callback` but appears nowhere in the built schema's
properties map, which the claim as stated forbids. -/
theorem c3_counterexample :
    buildStructSchema 10 emptyCtx [] [callbackField] =
      some (.obj [(S "type", .str (S "object")), (S "properties", .obj [])], .obj []) ∧
    resolveJSONFieldName (S "Callback") (getStructTag callbackField (S "json")) =
      (S "callback", false) := ⟨rfl, rfl⟩

/-- C3, amended: for every struct — embedded fields included — every
non-empty, non-skipped declared field name whose type the builder
resolves to a schema appears in the schema's properties, keyed by its
resolved serialization name; the property keys are pairwise distinct; and
every property key is the resolved name of some non-skipped named field
or comes from the flattened properties of an embedded field's schema (so
skip-marked fields contribute nothing of their own). -/
theorem c3_properties_amended (fuel : Nat) (ctx : AnalysisContext)
    (visited : List Str) (fields : List GoField) (schema exv : JValue)
    (h : buildStructSchema (fuel + 1) ctx visited fields = some (schema, exv)) :
    ∃ props, jlookup schema (S "properties") = some (.obj props) ∧
      (akeys props).Nodup ∧
      (∀ f, f ∈ fields → ∀ name, name ∈ f.names → name ≠ [] → ∀ jsonName,
        resolveJSONFieldName name (getStructTag f (S "json")) = (jsonName, false) →
        jsonName ∈ akeys props ∨
          ∃ m e', buildSchemaFromExpr m ctx visited f.typ = some (none, e')) ∧
      (∀ j, j ∈ akeys props →
        (∃ f, f ∈ fields ∧ ∃ name, name ∈ f.names ∧
          resolveJSONFieldName name (getStructTag f (S "json")) = (j, false)) ∨
        (∃ f, f ∈ fields ∧ f.names = [] ∧ ∃ m sm e' nested,
          buildSchemaFromExpr m ctx visited f.typ = some (some sm, e') ∧
          jlookup sm (S "properties") = some (.obj nested) ∧
          j ∈ akeys nested)) := by
  simp only [buildStructSchema] at h
  rw [Option.map_eq_some'] at h
  obtain ⟨⟨props0, ex0, req0⟩, hloop, heq⟩ := h
  obtain ⟨-, h2, h3, h4⟩ := buildStructFields_spec ctx visited fuel fields [] [] []
    props0 ex0 req0 hloop
  have hschema : jlookup schema (S "properties") = some (.obj props0) := by
    cases req0 with
    | nil =>
      have hs : JValue.obj [(S "type", .str (S "object")),
          (S "properties", .obj props0)] = schema := congrArg Prod.fst heq
      rw [← hs]
      rfl
    | cons r rs =>
      have hs : JValue.obj [(S "type", .str (S "object")),
          (S "properties", .obj props0),
          (S "required", .arr ((r :: rs).map .str))] = schema := congrArg Prod.fst heq
      rw [← hs]
      rfl
  refine ⟨props0, hschema, h2 (by simp [akeys]), ?_, ?_⟩
  · exact fun f hf name hname hne jn hres => h3 f hf name hname hne jn hres
  · intro j hj
    rcases h4 j hj with hj0 | hrest
    · exact absurd hj0 (by simp [akeys])
    · exact hrest

/-- A three-field struct — an embedded struct included — used to
instantiate the amended C3 claim. -/
def fixtureFields : List GoField :=
  [GoField.mk [S "ID"] (.ident (S "int")) (some (S "\x60json:\"id\"\x60")) [] [],
   GoField.mk [] (.structType [GoField.mk [S "Extra"] (.ident (S "int")) none [] []])
     none [] [],
   GoField.mk [S "Name"] (.ident (S "string")) none [] []]

/-- The schema the fixture struct builds. -/
def c3schema : JValue :=
  ((buildStructSchema 10 emptyCtx [] fixtureFields).getD (.obj [], .obj [])).1

/-- The example the fixture struct builds. -/
def c3example : JValue :=
  ((buildStructSchema 10 emptyCtx [] fixtureFields).getD (.obj [], .obj [])).2

theorem c3_properties_amended_witness :
    buildStructSchema 10 emptyCtx [] fixtureFields = some (c3schema, c3example) ∧
    (∃ props, jlookup c3schema (S "properties") = some (.obj props) ∧
      (akeys props).Nodup ∧
      (∀ f, f ∈ fixtureFields → ∀ name, name ∈ f.names → name ≠ [] → ∀ jsonName,
        resolveJSONFieldName name (getStructTag f (S "json")) = (jsonName, false) →
        jsonName ∈ akeys props ∨
          ∃ m e', buildSchemaFromExpr m emptyCtx [] f.typ = some (none, e')) ∧
      (∀ j, j ∈ akeys props →
        (∃ f, f ∈ fixtureFields ∧ ∃ name, name ∈ f.names ∧
          resolveJSONFieldName name (getStructTag f (S "json")) = (j, false)) ∨
        (∃ f, f ∈ fixtureFields ∧ f.names = [] ∧ ∃ m sm e' nested,
          buildSchemaFromExpr m emptyCtx [] f.typ = some (some sm, e') ∧
          jlookup sm (S "properties") = some (.obj nested) ∧
          j ∈ akeys nested))) :=
  ⟨rfl, c3_properties_amended 9 emptyCtx [] fixtureFields c3schema c3example rfl⟩

/-- A key is absent from an association list iff lookup fails. -/
theorem alookup_eq_none_iff {α : Type} (m : List (Str × α)) (k : Str) :
    alookup m k = none ↔ k ∉ akeys m := by
  induction m with
  | nil => simp [alookup, akeys]
  | cons p rest ih =>
    obtain ⟨k', v'⟩ := p
    by_cases hk : k' = k
    · subst hk
      rw [show alookup ((k', v') :: rest) k' = some v' from by rw [alookup, if_pos rfl]]
      rw [show akeys ((k', v') :: rest) = k' :: akeys rest from rfl]
      constructor <;> intro h
      · exact absurd h (by simp)
      · exact absurd (List.mem_cons_self k' (akeys rest)) h
    · have hne : ¬ k = k' := fun h => hk h.symm
      simp only [alookup, if_neg hk, akeys, List.map_cons, List.mem_cons]
      rw [show (rest.map Prod.fst) = akeys rest from rfl]
      simp [ih, hne]

/-- Lookup after updating the same key. -/
theorem alookup_aupsert_self {α : Type} (m : List (Str × α)) (k : Str) (v : α) :
    alookup (aupsert m k v) k = some v := by
  induction m with
  | nil => simp [aupsert, alookup]
  | cons p rest ih =>
    obtain ⟨k', v'⟩ := p
    by_cases hk : k' = k
    · simp [aupsert, hk, alookup]
    · simp [aupsert, hk, alookup, ih]

/-- Lookup of another key is unchanged by an update. -/
theorem alookup_aupsert_ne {α : Type} (m : List (Str × α)) (k j : Str) (v : α)
    (hne : j ≠ k) : alookup (aupsert m k v) j = alookup m j := by
  have hne' : ¬ k = j := fun h => hne h.symm
  induction m with
  | nil => simp [aupsert, alookup, hne']
  | cons p rest ih =>
    obtain ⟨k', v'⟩ := p
    by_cases hk : k' = k
    · subst hk
      simp [aupsert, alookup, hne']
    · simp only [aupsert, if_neg hk, alookup]
      split_ifs with hj
      · rfl
      · exact ih

/-- A successful lookup is a member. -/
theorem alookup_mem {α : Type} (m : List (Str × α)) (k : Str) (v : α)
    (h : alookup m k = some v) : (k, v) ∈ m := by
  induction m with
  | nil => simp [alookup] at h
  | cons p rest ih =>
    obtain ⟨k', v'⟩ := p
    by_cases hk : k' = k
    · subst hk
      rw [alookup, if_pos rfl] at h
      obtain rfl := Option.some.inj h
      exact List.mem_cons_self _ _
    · rw [alookup, if_neg hk] at h
      exact List.mem_cons_of_mem _ (ih h)

/-- With distinct keys, every member is found by lookup. -/
theorem mem_alookup {α : Type} (m : List (Str × α)) (k : Str) (v : α)
    (hmem : (k, v) ∈ m) (hnd : (akeys m).Nodup) : alookup m k = some v := by
  induction m with
  | nil => exact absurd hmem (List.not_mem_nil _)
  | cons p rest ih =>
    obtain ⟨k', v'⟩ := p
    have hnd' : (akeys rest).Nodup := (List.nodup_cons.mp hnd).2
    rcases List.mem_cons.mp hmem with heq | htail
    · obtain ⟨rfl, rfl⟩ := Prod.mk.injEq .. ▸ heq
      simp [alookup]
    · have hk : k' ≠ k := by
        rintro rfl
        exact (List.nodup_cons.mp hnd).1 (List.mem_map.mpr ⟨(k', v), htail, rfl⟩)
      rw [alookup, if_neg hk]
      exact ih htail hnd'

/-- Case folding is reflexive. -/
theorem strEqualFold_refl (k : Str) : strEqualFold k k = true := by
  simp [strEqualFold]

/-- Membership gives a key in the key list. -/
theorem mem_akeys_of_mem {α : Type} {m : List (Str × α)} {k : Str} {v : α}
    (h : (k, v) ∈ m) : k ∈ akeys m :=
  List.mem_map.mpr ⟨(k, v), h, rfl⟩

/-- Example normalization of a non-nil example never produces the nil
interface (matching the Go original, whose every return path hands back a
non-nil value when given one). -/
theorem normalizeExampleWithSchema_some (fuel : Nat) (schema : GoVal) (e : JValue)
    (r : GoVal) (h : normalizeExampleWithSchema fuel schema (some e) = some r) :
    ∃ v, r = some v := by
  cases fuel with
  | zero => exact absurd h (by simp [normalizeExampleWithSchema])
  | succ fuel =>
    simp only [normalizeExampleWithSchema] at h
    repeat' split at h
    all_goals
      first
        | exact ⟨e, (Option.some.inj h).symm⟩
        | (rw [Option.map_eq_some'] at h
           obtain ⟨a, -, ha⟩ := h
           exact ⟨_, ha.symm⟩)
        | exact ⟨_, (Option.some.inj h).symm⟩

/-- Specification of the property loop of `normalizeExampleWithSchema`'s
object case: used keys originate in case-insensitive hits, produced keys
come from the schema's properties, properties with no (even
case-insensitive) match get no entry, keys outside the properties are
untouched, and an exact-miss/fold-hit property is re-keyed to its exact
name with the recursively normalized value. -/
theorem normalizeProps_spec :
    ∀ fuel props exMap normalized used out_n out_u,
      normalizeProps fuel props exMap normalized used = some (out_n, out_u) →
      ((∀ k, k ∈ out_u → k ∈ used ∨ ∃ p, p ∈ akeys props ∧ strEqualFold k p = true) ∧
       (∀ j, j ∈ akeys out_n → j ∈ akeys normalized ∨ j ∈ akeys props) ∧
       (∀ p, p ∈ akeys props → p ∉ akeys normalized →
         (∀ kv, kv ∈ exMap → strEqualFold (Prod.fst kv) p = false) →
         p ∉ akeys out_n) ∧
       (∀ j, j ∉ akeys props → alookup out_n j = alookup normalized j) ∧
       (∀ p ps, (p, ps) ∈ props → (akeys props).Nodup →
         alookup exMap p = none →
         ∀ k v, exMap.find? (fun kv => strEqualFold (Prod.fst kv) p) = some (k, v) →
         ∃ m nv, normalizeExampleWithSchema m (some ps) (some v) = some (some nv) ∧
           alookup out_n p = some nv)) := by
  intro fuel
  induction fuel with
  | zero =>
    intro props exMap normalized used out_n out_u h
    exact absurd h (by simp [normalizeProps])
  | succ fuel ih =>
    intro props exMap normalized used out_n out_u h
    cases props with
    | nil =>
      simp only [normalizeProps, Option.some.injEq, Prod.mk.injEq] at h
      obtain ⟨rfl, rfl⟩ := h
      refine ⟨fun k hk => Or.inl hk, fun j hj => Or.inl hj, ?_, fun j _ => rfl, ?_⟩
      · intro p hp
        exact absurd hp (by simp [akeys])
      · intro p ps hmem
        exact absurd hmem (List.not_mem_nil _)
    | cons pp rest =>
      obtain ⟨p0, ps0⟩ := pp
      simp only [normalizeProps] at h
      have hkeys : akeys ((p0, ps0) :: rest) = p0 :: akeys rest := rfl
      rcases hexact : alookup exMap p0 with _ | v0
      · rw [hexact] at h
        try dsimp only at h
        rcases hfind : exMap.find? (fun kv => strEqualFold (Prod.fst kv) p0) with _ | ⟨k0, v0⟩
        · rw [hfind] at h
          try dsimp only at h
          obtain ⟨a1, a2, a3, a4, a5⟩ := ih rest exMap normalized used out_n out_u h
          refine ⟨?_, ?_, ?_, ?_, ?_⟩
          · intro k hk
            rcases a1 k hk with hk' | ⟨p, hp, hfold⟩
            · exact Or.inl hk'
            · exact Or.inr ⟨p, by rw [hkeys]; exact List.mem_cons_of_mem _ hp, hfold⟩
          · intro j hj
            rcases a2 j hj with hj' | hj'
            · exact Or.inl hj'
            · exact Or.inr (by rw [hkeys]; exact List.mem_cons_of_mem _ hj')
          · intro p hp hpn hnomatch
            rw [hkeys] at hp
            rcases List.mem_cons.mp hp with rfl | hp'
            · by_cases hrest : p ∈ akeys rest
              · exact a3 p hrest hpn hnomatch
              · intro hcon
                rcases a2 p hcon with hj' | hj'
                · exact hpn hj'
                · exact hrest hj'
            · exact a3 p hp' hpn hnomatch
          · intro j hj
            rw [hkeys] at hj
            exact a4 j (fun hmem => hj (List.mem_cons_of_mem _ hmem))
          · intro p ps hmem hnd hmiss k v hfd
            rcases List.mem_cons.mp hmem with heq | htail
            · obtain ⟨rfl, rfl⟩ := Prod.mk.injEq .. ▸ heq
              rw [hfind] at hfd
              exact absurd hfd (by simp)
            · exact a5 p ps htail (by rw [hkeys] at hnd; exact hnd.of_cons) hmiss k v hfd
        · rw [hfind] at h
          try dsimp only at h
          rw [Option.bind_eq_some] at h
          obtain ⟨nv0, hn, h⟩ := h
          obtain ⟨nv, rfl⟩ := normalizeExampleWithSchema_some fuel (some ps0) v0 nv0 hn
          try dsimp only at h
          obtain ⟨a1, a2, a3, a4, a5⟩ :=
            ih rest exMap (aupsert normalized p0 nv) (used ++ [k0]) out_n out_u h
          have hfoldk0 : strEqualFold k0 p0 = true := by
            have := List.find?_some hfind
            simpa using this
          have hk0mem : (k0, v0) ∈ exMap := List.mem_of_find?_eq_some hfind
          refine ⟨?_, ?_, ?_, ?_, ?_⟩
          · intro k hk
            rcases a1 k hk with hk' | ⟨p, hp, hfold⟩
            · rcases List.mem_append.mp hk' with hu | hs
              · exact Or.inl hu
              · obtain rfl := List.mem_singleton.mp hs
                exact Or.inr ⟨p0, by rw [hkeys]; exact List.mem_cons_self _ _, hfoldk0⟩
            · exact Or.inr ⟨p, by rw [hkeys]; exact List.mem_cons_of_mem _ hp, hfold⟩
          · intro j hj
            rcases a2 j hj with hj' | hj'
            · rcases (mem_akeys_aupsert_iff _ _ _ _).mp hj' with hjn | rfl
              · exact Or.inl hjn
              · exact Or.inr (by rw [hkeys]; exact List.mem_cons_self _ _)
            · exact Or.inr (by rw [hkeys]; exact List.mem_cons_of_mem _ hj')
          · intro p hp hpn hnomatch
            by_cases hpp : p = p0
            · subst hpp
              exact absurd (hnomatch (k0, v0) hk0mem) (by simp [hfoldk0])
            · rw [hkeys] at hp
              rcases List.mem_cons.mp hp with heq | hp'
              · exact absurd heq hpp
              · refine a3 p hp' ?_ hnomatch
                intro hcon
                rcases (mem_akeys_aupsert_iff _ _ _ _).mp hcon with hjn | heq
                · exact hpn hjn
                · exact hpp heq
          · intro j hj
            rw [hkeys] at hj
            have hj0 : j ≠ p0 := fun heq => hj (heq ▸ List.mem_cons_self _ _)
            rw [a4 j (fun hmem => hj (List.mem_cons_of_mem _ hmem))]
            exact alookup_aupsert_ne _ _ _ _ hj0
          · intro p ps hmem hnd hmiss k v hfd
            rcases List.mem_cons.mp hmem with heq | htail
            · obtain ⟨rfl, rfl⟩ := Prod.mk.injEq .. ▸ heq
              rw [hfind] at hfd
              obtain ⟨rfl, rfl⟩ := Prod.mk.injEq .. ▸ Option.some.inj hfd
              have hprest : p ∉ akeys rest := by
                rw [hkeys] at hnd
                exact (List.nodup_cons.mp hnd).1
              refine ⟨fuel, nv, hn, ?_⟩
              rw [a4 p hprest]
              exact alookup_aupsert_self _ _ _
            · refine a5 p ps htail (by rw [hkeys] at hnd; exact hnd.of_cons) hmiss k v hfd
      · rw [hexact] at h
        try dsimp only at h
        rw [Option.bind_eq_some] at h
        obtain ⟨nv0, hn, h⟩ := h
        obtain ⟨nv, rfl⟩ := normalizeExampleWithSchema_some fuel (some ps0) v0 nv0 hn
        try dsimp only at h
        obtain ⟨a1, a2, a3, a4, a5⟩ :=
          ih rest exMap (aupsert normalized p0 nv) (used ++ [p0]) out_n out_u h
        have hv0mem : (p0, v0) ∈ exMap := alookup_mem exMap p0 v0 hexact
        refine ⟨?_, ?_, ?_, ?_, ?_⟩
        · intro k hk
          rcases a1 k hk with hk' | ⟨p, hp, hfold⟩
          · rcases List.mem_append.mp hk' with hu | hs
            · exact Or.inl hu
            · obtain rfl := List.mem_singleton.mp hs
              exact Or.inr ⟨k, by rw [hkeys]; exact List.mem_cons_self _ _, strEqualFold_refl k⟩
          · exact Or.inr ⟨p, by rw [hkeys]; exact List.mem_cons_of_mem _ hp, hfold⟩
        · intro j hj
          rcases a2 j hj with hj' | hj'
          · rcases (mem_akeys_aupsert_iff _ _ _ _).mp hj' with hjn | rfl
            · exact Or.inl hjn
            · exact Or.inr (by rw [hkeys]; exact List.mem_cons_self _ _)
          · exact Or.inr (by rw [hkeys]; exact List.mem_cons_of_mem _ hj')
        · intro p hp hpn hnomatch
          by_cases hpp : p = p0
          · subst hpp
            exact absurd (hnomatch (p, v0) hv0mem) (by simp [strEqualFold_refl])
          · rw [hkeys] at hp
            rcases List.mem_cons.mp hp with heq | hp'
            · exact absurd heq hpp
            · refine a3 p hp' ?_ hnomatch
              intro hcon
              rcases (mem_akeys_aupsert_iff _ _ _ _).mp hcon with hjn | heq
              · exact hpn hjn
              · exact hpp heq
        · intro j hj
          rw [hkeys] at hj
          have hj0 : j ≠ p0 := fun heq => hj (heq ▸ List.mem_cons_self _ _)
          rw [a4 j (fun hmem => hj (List.mem_cons_of_mem _ hmem))]
          exact alookup_aupsert_ne _ _ _ _ hj0
        · intro p ps hmem hnd hmiss k v hfd
          rcases List.mem_cons.mp hmem with heq | htail
          · obtain ⟨rfl, rfl⟩ := Prod.mk.injEq .. ▸ heq
            rw [hmiss] at hexact
            exact absurd hexact (by simp)
          · refine a5 p ps htail (by rw [hkeys] at hnd; exact hnd.of_cons) hmiss k v hfd

/-- The leftover pass of `normalizeExampleWithSchema`'s object case, as a
named function for reasoning: copy every example entry whose key was not
used by the property loop. -/
def leftoverFold (exMap : List (Str × JValue)) (used : List Str)
    (acc : List (Str × JValue)) : List (Str × JValue) :=
  exMap.foldl (fun acc e => if used.contains e.1 then acc else aupsert acc e.1 e.2) acc

/-- Keys produced by the leftover pass come from the accumulator or the
example map. -/
theorem leftoverFold_keys (used : List Str) :
    ∀ exMap acc j, j ∈ akeys (leftoverFold exMap used acc) →
      j ∈ akeys acc ∨ j ∈ akeys exMap := by
  intro exMap
  induction exMap with
  | nil => intro acc j hj; exact Or.inl hj
  | cons e rest ih =>
    intro acc j hj
    rw [show leftoverFold (e :: rest) used acc =
        leftoverFold rest used (if used.contains e.1 then acc else aupsert acc e.1 e.2)
      from rfl] at hj
    have hcons : akeys (e :: rest) = e.1 :: akeys rest := rfl
    rcases ih _ j hj with hj' | hj'
    · split_ifs at hj' with hc
      · exact Or.inl hj'
      · rcases (mem_akeys_aupsert_iff _ _ _ _).mp hj' with hj'' | rfl
        · exact Or.inl hj''
        · refine Or.inr ?_
          rw [hcons]
          exact List.mem_cons_self _ _
    · refine Or.inr ?_
      rw [hcons]
      exact List.mem_cons_of_mem _ hj'

/-- Keys outside the example map are untouched by the leftover pass. -/
theorem leftoverFold_preserve (used : List Str) :
    ∀ exMap acc j, j ∉ akeys exMap →
      alookup (leftoverFold exMap used acc) j = alookup acc j := by
  intro exMap
  induction exMap with
  | nil => intro acc j _; rfl
  | cons e rest ih =>
    intro acc j hj
    have hcons : akeys (e :: rest) = e.1 :: akeys rest := rfl
    rw [hcons] at hj
    have hj1 : j ∉ akeys rest := fun hmem => hj (List.mem_cons_of_mem _ hmem)
    have hj0 : j ≠ e.1 := fun heq => hj (heq ▸ List.mem_cons_self _ _)
    rw [show leftoverFold (e :: rest) used acc =
        leftoverFold rest used (if used.contains e.1 then acc else aupsert acc e.1 e.2)
      from rfl]
    rw [ih _ j hj1]
    split_ifs with hc
    · rfl
    · exact alookup_aupsert_ne _ _ _ _ hj0

/-- An unused example entry with a fresh key is retained verbatim by the
leftover pass. -/
theorem leftoverFold_get (used : List Str) :
    ∀ exMap acc k v, (akeys exMap).Nodup → (k, v) ∈ exMap → k ∉ used →
      k ∉ akeys acc → alookup (leftoverFold exMap used acc) k = some v := by
  intro exMap
  induction exMap with
  | nil =>
    intro acc k v _ hmem
    exact absurd hmem (List.not_mem_nil _)
  | cons e rest ih =>
    intro acc k v hnd hmem hku hka
    have hnd' : (e.1 :: akeys rest).Nodup := hnd
    have hndrest : (akeys rest).Nodup := (List.nodup_cons.mp hnd').2
    rw [show leftoverFold (e :: rest) used acc =
        leftoverFold rest used (if used.contains e.1 then acc else aupsert acc e.1 e.2)
      from rfl]
    rcases List.mem_cons.mp hmem with heq | htail
    · obtain rfl : e = (k, v) := heq.symm
      have hkrest : k ∉ akeys rest := (List.nodup_cons.mp hnd').1
      have hcontains : used.contains k = false := by
        simpa using hku
      have hstep : (if used.contains ((k, v) : Str × JValue).1 then acc
          else aupsert acc ((k, v) : Str × JValue).1 ((k, v) : Str × JValue).2) =
          aupsert acc k v := by
        dsimp only
        rw [hcontains]
        rfl
      rw [hstep, leftoverFold_preserve used rest _ k hkrest]
      exact alookup_aupsert_self _ _ _
    · have hke : k ≠ e.1 := by
        rintro rfl
        exact (List.nodup_cons.mp hnd').1 (mem_akeys_of_mem htail)
      refine ih _ k v hndrest htail hku ?_
      split_ifs with hc
      · exact hka
      · intro hcon
        rcases (mem_akeys_aupsert_iff _ _ _ _).mp hcon with hj | heq2
        · exact hka hj
        · exact hke heq2

/-- C10: example normalization against an object schema with declared
properties is lossless for unmatched keys — an example entry matching no
property name even case-insensitively is retained unchanged; a property
with no (even case-insensitive) matching entry gets no entry (nothing is
synthesized); and an entry matching a property without an exact match is
re-keyed to the property's exact name with the recursively normalized
value. -/
theorem c10_normalize_lossless (fuel : Nat) (sm : JValue)
    (props exMap : List (Str × JValue)) (res : JValue)
    (htype : jlookup sm (S "type") = some (.str (S "object")))
    (hpr : jlookup sm (S "properties") = some (.obj props))
    (hne : props ≠ [])
    (hnd : (akeys props).Nodup)
    (hend : (akeys exMap).Nodup)
    (hex : normalizeExampleWithSchema (fuel + 1) (some sm) (some (.obj exMap)) =
      some (some res)) :
    ∃ entries, res = .obj entries ∧
      (∀ k v, (k, v) ∈ exMap →
        (∀ p, p ∈ akeys props → strEqualFold k p = false) →
        alookup entries k = some v) ∧
      (∀ p, p ∈ akeys props →
        (∀ kv, kv ∈ exMap → strEqualFold (Prod.fst kv) p = false) →
        alookup entries p = none) ∧
      (∀ p ps, (p, ps) ∈ props → alookup exMap p = none →
        ∀ k v, exMap.find? (fun kv => strEqualFold (Prod.fst kv) p) = some (k, v) →
        ∃ m nv, normalizeExampleWithSchema m (some ps) (some v) = some (some nv) ∧
          alookup entries p = some nv) := by
  cases sm with
  | obj m =>
    simp only [normalizeExampleWithSchema] at hex
    rw [htype] at hex
    dsimp only at hex
    rw [if_neg (by decide : ¬ (S "object") = S "array")] at hex
    rw [if_pos (rfl : (S "object") = S "object")] at hex
    rw [hpr] at hex
    cases props with
    | nil => exact absurd rfl hne
    | cons pp rest =>
      dsimp only at hex
      rw [Option.map_eq_some'] at hex
      obtain ⟨⟨out_n, out_u⟩, hnp, heq⟩ := hex
      have hres : res = .obj (leftoverFold exMap out_u out_n) := (Option.some.inj heq).symm
      obtain ⟨a1, a2, a3, a4, a5⟩ :=
        normalizeProps_spec fuel (pp :: rest) exMap [] [] out_n out_u hnp
      refine ⟨leftoverFold exMap out_u out_n, hres, ?_, ?_, ?_⟩
      · intro k v hkv hnomatch
        have hknp : k ∉ akeys (pp :: rest) := by
          intro hcon
          have hf := hnomatch k hcon
          rw [strEqualFold_refl k] at hf
          exact absurd hf (by simp)
        have hkused : k ∉ out_u := by
          intro hcon
          rcases a1 k hcon with hk' | ⟨p, hp, hfold⟩
          · exact List.not_mem_nil k hk'
          · rw [hnomatch p hp] at hfold
            exact absurd hfold (by simp)
        have hkout : k ∉ akeys out_n := by
          intro hcon
          rcases a2 k hcon with hk' | hk'
          · exact absurd hk' (by simp [akeys])
          · exact hknp hk'
        exact leftoverFold_get out_u exMap out_n k v hend hkv hkused hkout
      · intro p hp hnomatch
        have hpex : p ∉ akeys exMap := by
          intro hcon
          obtain ⟨⟨k0, v0⟩, hk0, hk0eq⟩ := List.mem_map.mp hcon
          have hk0p : k0 = p := hk0eq
          subst hk0p
          have hf : strEqualFold k0 k0 = false := hnomatch (k0, v0) hk0
          rw [strEqualFold_refl k0] at hf
          exact absurd hf (by simp)
        rw [leftoverFold_preserve out_u exMap out_n p hpex]
        rw [alookup_eq_none_iff]
        refine a3 p hp (by simp [akeys]) hnomatch
      · intro p ps hmem hmiss k v hfd
        obtain ⟨m, nv, hnv, hlook⟩ := a5 p ps hmem hnd hmiss k v hfd
        refine ⟨m, nv, hnv, ?_⟩
        have hpex : p ∉ akeys exMap := (alookup_eq_none_iff exMap p).mp hmiss
        rw [leftoverFold_preserve out_u exMap out_n p hpex]
        exact hlook
  | str s => exact absurd htype (by simp [jlookup])
  | int n => exact absurd htype (by simp [jlookup])
  | num q => exact absurd htype (by simp [jlookup])
  | bool b => exact absurd htype (by simp [jlookup])
  | arr xs => exact absurd htype (by simp [jlookup])

/-- C10, witness: a schema with property `id`, an example with a
case-mismatched `ID` entry and a foreign `extra` entry. -/
theorem c10_normalize_lossless_witness :
    ∃ entries, JValue.obj [(S "id", .int 5), (S "extra", .str (S "y"))] = .obj entries ∧
      (∀ k v, (k, v) ∈ [(S "ID", JValue.int 5), (S "extra", JValue.str (S "y"))] →
        (∀ p, p ∈ akeys [(S "id", typeSchema "integer")] → strEqualFold k p = false) →
        alookup entries k = some v) ∧
      (∀ p, p ∈ akeys [(S "id", typeSchema "integer")] →
        (∀ kv, kv ∈ [(S "ID", JValue.int 5), (S "extra", JValue.str (S "y"))] →
          strEqualFold (Prod.fst kv) p = false) →
        alookup entries p = none) ∧
      (∀ p ps, (p, ps) ∈ [(S "id", typeSchema "integer")] →
        alookup [(S "ID", JValue.int 5), (S "extra", JValue.str (S "y"))] p = none →
        ∀ k v, List.find? (fun kv => strEqualFold (Prod.fst kv) p)
            [(S "ID", JValue.int 5), (S "extra", JValue.str (S "y"))] = some (k, v) →
        ∃ m nv, normalizeExampleWithSchema m (some ps) (some v) = some (some nv) ∧
          alookup entries p = some nv) :=
  c10_normalize_lossless 9
    (.obj [(S "type", .str (S "object")),
           (S "properties", .obj [(S "id", typeSchema "integer")])])
    [(S "id", typeSchema "integer")]
    [(S "ID", JValue.int 5), (S "extra", JValue.str (S "y"))]
    (.obj [(S "id", .int 5), (S "extra", .str (S "y"))])
    rfl rfl (by simp) (by simp [akeys]) (by simp [akeys, S]) rfl

/-- C7, counterexample: a `:name` segment whose name itself contains a
colon is not rewritten to `\x7bname\x7d`: the gorilla-mux pass also
fires on the rewritten segment and keeps only the part before the inner
colon. -/
theorem c7_counterexample :
    convertPathToOpenAPI (S "api/:a:b") = S "/api/\x7ba\x7d" ∧
    ¬ convertPathToOpenAPI (S "api/:a:b") = S "/api/\x7ba:b\x7d" := by
  refine ⟨rfl, ?_⟩
  intro h
  rw [show convertPathToOpenAPI (S "api/:a:b") = S "/api/\x7ba\x7d" from rfl] at h
  exact absurd h (by decide)

/-- Characters that may appear in a placeholder name or a plain segment:
no separator, colon, brace or angle bracket. -/
def goodChar (c : Char) : Bool :=
  !(c = '/' || c = ':' || c = '\x7b' || c = '\x7d' || c = '<' || c = '>')

/-- Characters that may appear in a gorilla-mux pattern: a colon is
allowed, but no separator, brace or angle bracket. -/
def patChar (c : Char) : Bool :=
  !(c = '/' || c = '\x7b' || c = '\x7d' || c = '<' || c = '>')

/-- One path segment, as the spec's rewrite rules classify them. -/
inductive Seg where
  | plain (s : Str)
  | colon (name : Str)
  | angle (name : Str)
  | mux (name pat : Str)

/-- The segment as it appears in the input path. -/
def segRender : Seg → Str
  | .plain s => s
  | .colon name => ':' :: name
  | .angle name => '<' :: name ++ ['>']
  | .mux name pat => '\x7b' :: name ++ ':' :: pat ++ ['\x7d']

/-- The segment as the spec's rules say it must come out. -/
def segTarget : Seg → Str
  | .plain s => s
  | .colon name => '\x7b' :: name ++ ['\x7d']
  | .angle name => '\x7b' :: name ++ ['\x7d']
  | .mux name _ => '\x7b' :: name ++ ['\x7d']

/-- The segment after the colon rewrite and the `<`/`>` replacements,
right before the mux-regex scan. -/
def segMid : Seg → Str
  | .plain s => s
  | .colon name => '\x7b' :: name ++ ['\x7d']
  | .angle name => '\x7b' :: name ++ ['\x7d']
  | .mux name pat => '\x7b' :: name ++ ':' :: pat ++ ['\x7d']

/-- Well-formedness of a segment: a nonempty name of good characters and,
for a mux segment, a nonempty pattern without separators, braces or angle
brackets. -/
def segWF : Seg → Bool
  | .plain s => !s.isEmpty && s.all goodChar
  | .colon name => !name.isEmpty && name.all goodChar
  | .angle name => !name.isEmpty && name.all goodChar
  | .mux name pat => (!name.isEmpty && name.all goodChar) &&
      (!pat.isEmpty && pat.all patChar)

/-- The combined effect of the two single-character replacements
`<` to `\x7b` and `>` to `\x7d`. -/
def gRepl (x : Char) : Char :=
  if x = '>' then '\x7d' else if x = '<' then '\x7b' else x

/-- A list whose `all` holds is pointwise true. -/
theorem all_true_mem {α : Type} (p : α → Bool) :
    ∀ l : List α, l.all p = true → ∀ c ∈ l, p c = true := by
  intro l
  induction l with
  | nil =>
    intro _ c hc
    exact absurd hc (List.not_mem_nil c)
  | cons a as ih =>
    intro h c hc
    rw [List.all_cons] at h
    obtain ⟨h1, h2⟩ := Bool.and_eq_true .. |>.mp h
    rcases List.mem_cons.mp hc with rfl | hin
    · exact h1
    · exact ih h2 c hin

/-- What a good character is not. -/
theorem goodChar_ne (x : Char) (h : goodChar x = true) :
    ¬x = '/' ∧ ¬x = ':' ∧ ¬x = '\x7b' ∧ ¬x = '\x7d' ∧ ¬x = '<' ∧ ¬x = '>' := by
  simp [goodChar] at h
  tauto

/-- What a pattern character is not. -/
theorem patChar_ne (x : Char) (h : patChar x = true) :
    ¬x = '/' ∧ ¬x = '\x7b' ∧ ¬x = '\x7d' ∧ ¬x = '<' ∧ ¬x = '>' := by
  simp [patChar] at h
  tauto

/-- A list with a false `isEmpty` flag is not nil. -/
theorem ne_nil_of_isEmpty {α : Type} (l : List α) (h : (!l.isEmpty) = true) :
    l ≠ [] := by
  cases l with
  | nil => simp at h
  | cons a as => exact List.cons_ne_nil a as

/-- Replacing a single character is a character map. -/
theorem replaceAll_single (c d : Char) :
    ∀ s : Str, replaceAll s [c] [d] = s.map fun x => if x = c then d else x := by
  intro s
  induction s with
  | nil => rfl
  | cons x xs ih =>
    by_cases hx : x = c
    · have hstart : strStarts (x :: xs) [c] = true := by simp [strStarts, hx]
      show replaceAllF (xs.length + 1) (x :: xs) [c] [d] = _
      rw [show replaceAllF (xs.length + 1) (x :: xs) [c] [d] =
          [d] ++ replaceAllF xs.length xs [c] [d] from by
        simp [replaceAllF, hstart]]
      rw [show replaceAllF xs.length xs [c] [d] = replaceAll xs [c] [d] from rfl]
      rw [ih]
      simp [hx]
    · rw [replaceAll_cons_head xs c [] [d] x fun h => hx h.symm]
      rw [ih]
      simp [hx]

/-- A character map fixing every member is the identity. -/
theorem map_fix (f : Char → Char) :
    ∀ s : Str, (∀ x ∈ s, f x = x) → s.map f = s := by
  intro s
  induction s with
  | nil => intro _; rfl
  | cons x xs ih =>
    intro h
    rw [List.map_cons, h x (List.mem_cons_self x xs),
        ih fun y hy => h y (List.mem_cons_of_mem x hy)]

/-- A character map fixing the separator distributes over a join. -/
theorem map_joinWithChar (f : Char → Char) (hsep : f '/' = '/') :
    ∀ parts : List Str,
      (joinWithChar '/' parts).map f = joinWithChar '/' (parts.map (List.map f)) := by
  intro parts
  induction parts with
  | nil => rfl
  | cons p rest ih =>
    cases rest with
    | nil => rfl
    | cons q rs =>
      rw [show joinWithChar '/' (p :: q :: rs) =
          p ++ '/' :: joinWithChar '/' (q :: rs) from rfl]
      rw [List.map_append, List.map_cons, hsep, ih]
      rfl

/-- The two angle replacements act as the single map `gRepl`. -/
theorem replaceAll_angles (s : Str) :
    replaceAll (replaceAll s (S "<") (S "\x7b")) (S ">") (S "\x7d") =
      s.map gRepl := by
  rw [show S "<" = ['<'] from rfl, show S "\x7b" = ['\x7b'] from rfl,
      show S ">" = ['>'] from rfl, show S "\x7d" = ['\x7d'] from rfl]
  rw [replaceAll_single, replaceAll_single, List.map_map]
  refine List.map_congr_left fun x _ => ?_
  by_cases h1 : x = '<'
  · subst h1
    rfl
  · by_cases h2 : x = '>'
    · subst h2
      rfl
    · simp [Function.comp, gRepl, h1, h2]

/-- `gRepl` fixes characters that are not angle brackets. -/
theorem gRepl_fix (x : Char) (h1 : ¬x = '<') (h2 : ¬x = '>') : gRepl x = x := by
  simp [gRepl, h1, h2]

/-- A well-formed segment runs through the split, the colon rewrite and
the angle replacements to its mid form. -/
theorem segPipe (sg : Seg) (hwf : segWF sg = true) :
    (colonSegment (segRender sg)).map gRepl = segMid sg := by
  cases sg with
  | plain s =>
    simp only [segWF] at hwf
    obtain ⟨h1, h2⟩ := Bool.and_eq_true .. |>.mp hwf
    have hgood := all_true_mem goodChar s h2
    have hcs : colonSegment s = s := by
      cases s with
      | nil => rfl
      | cons a as =>
        have ha : ¬(':' = a) := fun h =>
          (goodChar_ne a (hgood a (List.mem_cons_self a as))).2.1 h.symm
        simp only [colonSegment]
        rw [show S ":" = [':'] from rfl]
        have hstart : strStarts (a :: as) [':'] = false := by
          simp [strStarts, ha]
        rw [hstart]
        simp
    simp only [segRender, segMid]
    rw [hcs]
    exact map_fix gRepl s fun x hx =>
      gRepl_fix x (goodChar_ne x (hgood x hx)).2.2.2.2.1
        (goodChar_ne x (hgood x hx)).2.2.2.2.2
  | colon name =>
    simp only [segWF] at hwf
    obtain ⟨h1, h2⟩ := Bool.and_eq_true .. |>.mp hwf
    have hgood := all_true_mem goodChar name h2
    have hcs : colonSegment (':' :: name) = '\x7b' :: name ++ ['\x7d'] := by
      simp only [colonSegment]
      rw [show S ":" = [':'] from rfl]
      have hstart : strStarts (':' :: name) [':'] = true := by
        simp [strStarts]
      rw [hstart]
      simp
    simp only [segRender, segMid]
    rw [hcs]
    have hname : List.map gRepl name = name := map_fix gRepl name fun x hx =>
      gRepl_fix x (goodChar_ne x (hgood x hx)).2.2.2.2.1
        (goodChar_ne x (hgood x hx)).2.2.2.2.2
    simp [hname, gRepl]
  | angle name =>
    simp only [segWF] at hwf
    obtain ⟨h1, h2⟩ := Bool.and_eq_true .. |>.mp hwf
    have hgood := all_true_mem goodChar name h2
    have hcs : colonSegment ('<' :: name ++ ['>']) = '<' :: name ++ ['>'] := by
      simp only [colonSegment]
      rw [show S ":" = [':'] from rfl]
      have hstart : strStarts ('<' :: name ++ ['>']) [':'] = false := by
        simp [strStarts]
      rw [hstart]
      simp
    simp only [segRender, segMid]
    rw [hcs]
    have hname : List.map gRepl name = name := map_fix gRepl name fun x hx =>
      gRepl_fix x (goodChar_ne x (hgood x hx)).2.2.2.2.1
        (goodChar_ne x (hgood x hx)).2.2.2.2.2
    simp [hname, gRepl]
  | mux name pat =>
    simp only [segWF] at hwf
    obtain ⟨hn, hp⟩ := Bool.and_eq_true .. |>.mp hwf
    obtain ⟨hn1, hn2⟩ := Bool.and_eq_true .. |>.mp hn
    obtain ⟨hp1, hp2⟩ := Bool.and_eq_true .. |>.mp hp
    have hgood := all_true_mem goodChar name hn2
    have hpat := all_true_mem patChar pat hp2
    have hcs : colonSegment ('\x7b' :: name ++ ':' :: pat ++ ['\x7d']) =
        '\x7b' :: name ++ ':' :: pat ++ ['\x7d'] := by
      simp only [colonSegment]
      rw [show S ":" = [':'] from rfl]
      have hstart : strStarts ('\x7b' :: name ++ ':' :: pat ++ ['\x7d']) [':'] = false := by
        simp [strStarts]
      rw [hstart]
      simp
    simp only [segRender, segMid]
    rw [hcs]
    have hname : List.map gRepl name = name := map_fix gRepl name fun x hx =>
      gRepl_fix x (goodChar_ne x (hgood x hx)).2.2.2.2.1
        (goodChar_ne x (hgood x hx)).2.2.2.2.2
    have hpatm : List.map gRepl pat = pat := map_fix gRepl pat fun x hx =>
      gRepl_fix x (patChar_ne x (hpat x hx)).2.2.2.1
        (patChar_ne x (hpat x hx)).2.2.2.2
    simp [hname, hpatm, gRepl]

/-- The scanner passes a brace-free run through. -/
theorem muxScanOutside_clean : ∀ s t : Str, (∀ c ∈ s, ¬c = '\x7b') →
    muxScanOutside (s ++ t) = s ++ muxScanOutside t := by
  intro s
  induction s with
  | nil => intro t _; rfl
  | cons x xs ih =>
    intro t h
    rw [List.cons_append,
        muxScanOutside_cons x _ (h x (List.mem_cons_self x xs)),
        ih t fun c hc => h c (List.mem_cons_of_mem x hc)]
    simp

/-- The name scanner accumulates a clean run. -/
theorem muxScanName_clean : ∀ n acc t : Str,
    (∀ c ∈ n, ¬c = ':' ∧ ¬c = '\x7b' ∧ ¬c = '\x7d') →
    muxScanName (n ++ t) acc = muxScanName t (acc ++ n) := by
  intro n
  induction n with
  | nil =>
    intro acc t _
    simp
  | cons x xs ih =>
    intro acc t h
    obtain ⟨h1, h2, h3⟩ := h x (List.mem_cons_self x xs)
    rw [List.cons_append]
    rw [show muxScanName (x :: (xs ++ t)) acc =
        muxScanName (xs ++ t) (acc ++ [x]) from by
      simp [muxScanName, h1, h2, h3]]
    rw [ih (acc ++ [x]) t fun c hc => h c (List.mem_cons_of_mem x hc)]
    simp

/-- The pattern scanner accumulates a brace-free run. -/
theorem muxScanPattern_clean : ∀ p name acc t : Str,
    (∀ c ∈ p, ¬c = '\x7b' ∧ ¬c = '\x7d') →
    muxScanPattern (p ++ t) name acc = muxScanPattern t name (acc ++ p) := by
  intro p
  induction p with
  | nil =>
    intro name acc t _
    simp
  | cons x xs ih =>
    intro name acc t h
    obtain ⟨h1, h2⟩ := h x (List.mem_cons_self x xs)
    rw [List.cons_append]
    rw [show muxScanPattern (x :: (xs ++ t)) name acc =
        muxScanPattern (xs ++ t) name (acc ++ [x]) from by
      simp [muxScanPattern, h1, h2]]
    rw [ih name (acc ++ [x]) t fun c hc => h c (List.mem_cons_of_mem x hc)]
    simp

/-- A pattern-free brace group passes the scanner unchanged. -/
theorem muxScanOutside_brace (n t : Str)
    (hgood : ∀ c ∈ n, ¬c = ':' ∧ ¬c = '\x7b' ∧ ¬c = '\x7d') :
    muxScanOutside ('\x7b' :: (n ++ '\x7d' :: t)) =
      '\x7b' :: (n ++ '\x7d' :: muxScanOutside t) := by
  rw [show muxScanOutside ('\x7b' :: (n ++ '\x7d' :: t)) =
      muxScanName (n ++ '\x7d' :: t) [] from by simp [muxScanOutside]]
  rw [muxScanName_clean n [] ('\x7d' :: t) hgood]
  simp only [List.nil_append]
  simp [muxScanName]

/-- A mux group scans to its name group. -/
theorem muxScanOutside_mux (n p t : Str) (hn : n ≠ [])
    (hgood : ∀ c ∈ n, ¬c = ':' ∧ ¬c = '\x7b' ∧ ¬c = '\x7d')
    (hp : p ≠ []) (hpat : ∀ c ∈ p, ¬c = '\x7b' ∧ ¬c = '\x7d') :
    muxScanOutside ('\x7b' :: (n ++ ':' :: (p ++ '\x7d' :: t))) =
      '\x7b' :: (n ++ '\x7d' :: muxScanOutside t) := by
  rw [show muxScanOutside ('\x7b' :: (n ++ ':' :: (p ++ '\x7d' :: t))) =
      muxScanName (n ++ ':' :: (p ++ '\x7d' :: t)) [] from by simp [muxScanOutside]]
  rw [muxScanName_clean n [] (':' :: (p ++ '\x7d' :: t)) hgood]
  simp only [List.nil_append]
  cases n with
  | nil => exact absurd rfl hn
  | cons m ms =>
    rw [show muxScanName (':' :: (p ++ '\x7d' :: t)) (m :: ms) =
        muxScanPattern (p ++ '\x7d' :: t) (m :: ms) [] from by
      simp [muxScanName]]
    rw [muxScanPattern_clean p (m :: ms) [] ('\x7d' :: t) hpat]
    simp only [List.nil_append]
    cases p with
    | nil => exact absurd rfl hp
    | cons a as =>
      simp [muxScanPattern]

/-- A well-formed mid segment scans to its target. -/
theorem muxScanOutside_seg (sg : Seg) (t : Str) (hwf : segWF sg = true) :
    muxScanOutside (segMid sg ++ t) = segTarget sg ++ muxScanOutside t := by
  cases sg with
  | plain s =>
    simp only [segWF] at hwf
    obtain ⟨h1, h2⟩ := Bool.and_eq_true .. |>.mp hwf
    exact muxScanOutside_clean s t fun c hc =>
      (goodChar_ne c (all_true_mem goodChar s h2 c hc)).2.2.1
  | colon name =>
    simp only [segWF] at hwf
    obtain ⟨h1, h2⟩ := Bool.and_eq_true .. |>.mp hwf
    simp only [segMid, segTarget, List.cons_append, List.append_assoc,
      List.singleton_append, List.nil_append]
    exact muxScanOutside_brace name t fun c hc =>
      ⟨(goodChar_ne c (all_true_mem goodChar name h2 c hc)).2.1,
       (goodChar_ne c (all_true_mem goodChar name h2 c hc)).2.2.1,
       (goodChar_ne c (all_true_mem goodChar name h2 c hc)).2.2.2.1⟩
  | angle name =>
    simp only [segWF] at hwf
    obtain ⟨h1, h2⟩ := Bool.and_eq_true .. |>.mp hwf
    simp only [segMid, segTarget, List.cons_append, List.append_assoc,
      List.singleton_append, List.nil_append]
    exact muxScanOutside_brace name t fun c hc =>
      ⟨(goodChar_ne c (all_true_mem goodChar name h2 c hc)).2.1,
       (goodChar_ne c (all_true_mem goodChar name h2 c hc)).2.2.1,
       (goodChar_ne c (all_true_mem goodChar name h2 c hc)).2.2.2.1⟩
  | mux name pat =>
    simp only [segWF] at hwf
    obtain ⟨hn, hp⟩ := Bool.and_eq_true .. |>.mp hwf
    obtain ⟨hn1, hn2⟩ := Bool.and_eq_true .. |>.mp hn
    obtain ⟨hp1, hp2⟩ := Bool.and_eq_true .. |>.mp hp
    simp only [segMid, segTarget, List.cons_append, List.append_assoc,
      List.singleton_append, List.nil_append]
    exact muxScanOutside_mux name pat t (ne_nil_of_isEmpty name hn1)
      (fun c hc =>
        ⟨(goodChar_ne c (all_true_mem goodChar name hn2 c hc)).2.1,
         (goodChar_ne c (all_true_mem goodChar name hn2 c hc)).2.2.1,
         (goodChar_ne c (all_true_mem goodChar name hn2 c hc)).2.2.2.1⟩)
      (ne_nil_of_isEmpty pat hp1)
      (fun c hc =>
        ⟨(patChar_ne c (all_true_mem patChar pat hp2 c hc)).2.1,
         (patChar_ne c (all_true_mem patChar pat hp2 c hc)).2.2.1⟩)

/-- The scanner rewrites a joined list of well-formed mid segments to the
joined targets. -/
theorem muxScan_join : ∀ specs : List Seg, (∀ sg ∈ specs, segWF sg = true) →
    muxScanOutside (joinWithChar '/' (specs.map segMid)) =
      joinWithChar '/' (specs.map segTarget) := by
  intro specs
  induction specs with
  | nil => intro _; rfl
  | cons sg rest ih =>
    intro hwf
    have h1 : segWF sg = true := hwf sg (List.mem_cons_self sg rest)
    have h2 : ∀ x ∈ rest, segWF x = true := fun x hx =>
      hwf x (List.mem_cons_of_mem sg hx)
    cases rest with
    | nil =>
      have hseg := muxScanOutside_seg sg [] h1
      simpa [joinWithChar, muxScanOutside] using hseg
    | cons s2 rs =>
      rw [show joinWithChar '/' ((sg :: s2 :: rs).map segMid) =
          segMid sg ++ '/' :: joinWithChar '/' ((s2 :: rs).map segMid) from rfl]
      rw [muxScanOutside_seg sg _ h1]
      rw [muxScanOutside_cons '/' _ (by decide)]
      rw [ih h2]
      rfl

/-- A prefix of a matching pattern matches. -/
theorem strStarts_pat_head : ∀ p q s : Str,
    strStarts s (p ++ q) = true → strStarts s p = true := by
  intro p
  induction p with
  | nil =>
    intro q s _
    cases s with
    | nil => rfl
    | cons x xs => rfl
  | cons a as ih =>
    intro q s h
    cases s with
    | nil => simp [strStarts] at h
    | cons x xs =>
      rw [List.cons_append] at h
      rw [show strStarts (x :: xs) (a :: (as ++ q)) =
          (decide (a = x) && strStarts xs (as ++ q)) from rfl] at h
      obtain ⟨ha, hrest⟩ := Bool.and_eq_true .. |>.mp h
      rw [show strStarts (x :: xs) (a :: as) =
          (decide (a = x) && strStarts xs as) from rfl]
      rw [ha, ih q xs hrest]
      rfl

/-- Containment of an extended pattern implies containment of the
pattern. -/
theorem strContains_mono : ∀ s p q : Str,
    strContains s (p ++ q) = true → strContains s p = true := by
  intro s
  induction s with
  | nil =>
    intro p q h
    cases p with
    | nil => rfl
    | cons a as =>
      rw [show strContains [] ((a :: as) ++ q) =
          strStarts [] ((a :: as) ++ q) from rfl] at h
      rw [List.cons_append] at h
      simp [strStarts] at h
  | cons x xs ih =>
    intro p q h
    rw [show strContains (x :: xs) (p ++ q) =
        (strStarts (x :: xs) (p ++ q) || strContains xs (p ++ q)) from rfl] at h
    rw [show strContains (x :: xs) p =
        (strStarts (x :: xs) p || strContains xs p) from rfl]
    rcases Bool.or_eq_true .. |>.mp h with hs | hc
    · rw [strStarts_pat_head p q _ hs]
      rfl
    · rw [ih p q hc]
      simp

/-- Extending an absent pattern keeps it absent. -/
theorem strContains_extend_false (s p q : Str)
    (h : strContains s p = false) : strContains s (p ++ q) = false := by
  cases hc : strContains s (p ++ q) with
  | false => rfl
  | true =>
    exact absurd (strContains_mono s p q hc) (by rw [h]; exact Bool.false_ne_true)

/-- Replacing an absent pattern changes nothing. -/
theorem replaceAll_not_contains : ∀ s pat repl : Str,
    strContains s pat = false → replaceAll s pat repl = s := by
  intro s
  induction s with
  | nil => intro pat repl _; rfl
  | cons x xs ih =>
    intro pat repl h
    have h2 : strStarts (x :: xs) pat = false ∧ strContains xs pat = false := by
      rw [show strContains (x :: xs) pat =
          (strStarts (x :: xs) pat || strContains xs pat) from rfl] at h
      simpa [Bool.or_eq_false_iff] using h
    cases pat with
    | nil => rfl
    | cons pq pqs =>
      show replaceAllF (xs.length + 1) (x :: xs) (pq :: pqs) repl = x :: xs
      rw [show replaceAllF (xs.length + 1) (x :: xs) (pq :: pqs) repl =
          x :: replaceAllF xs.length xs (pq :: pqs) repl from by
        simp [replaceAllF, h2.1]]
      rw [show replaceAllF xs.length xs (pq :: pqs) repl =
          replaceAll xs (pq :: pqs) repl from rfl]
      rw [ih (pq :: pqs) repl h2.2]

/-- A brace-free run contributes no brace pair. -/
theorem strContains_append_clean : ∀ s t : Str, (∀ c ∈ s, ¬c = '\x7b') →
    strContains (s ++ t) ['\x7b', '\x7d'] = strContains t ['\x7b', '\x7d'] := by
  intro s
  induction s with
  | nil => intro t _; rfl
  | cons x xs ih =>
    intro t h
    have hx : ¬('\x7b' = x) := fun hh => h x (List.mem_cons_self x xs) hh.symm
    rw [List.cons_append]
    rw [show strContains (x :: (xs ++ t)) ['\x7b', '\x7d'] =
        (strStarts (x :: (xs ++ t)) ['\x7b', '\x7d'] ||
          strContains (xs ++ t) ['\x7b', '\x7d']) from rfl]
    have hs : strStarts (x :: (xs ++ t)) ['\x7b', '\x7d'] = false := by
      simp [strStarts, hx]
    rw [hs, ih t fun c hc => h c (List.mem_cons_of_mem x hc)]
    simp

/-- A nonempty brace group with a good-character name contributes no
brace pair. -/
theorem strContains_braceblock (n t : Str) (hne : n ≠ [])
    (hgood : ∀ c ∈ n, goodChar c = true) :
    strContains (('\x7b' :: n ++ ['\x7d']) ++ t) ['\x7b', '\x7d'] =
      strContains t ['\x7b', '\x7d'] := by
  cases n with
  | nil => exact absurd rfl hne
  | cons m ms =>
    have hm := goodChar_ne m (hgood m (List.mem_cons_self m ms))
    rw [show (('\x7b' :: (m :: ms) ++ ['\x7d']) ++ t) =
        '\x7b' :: ((m :: ms) ++ '\x7d' :: t) from by simp]
    rw [show strContains ('\x7b' :: ((m :: ms) ++ '\x7d' :: t)) ['\x7b', '\x7d'] =
        (strStarts ('\x7b' :: ((m :: ms) ++ '\x7d' :: t)) ['\x7b', '\x7d'] ||
          strContains ((m :: ms) ++ '\x7d' :: t) ['\x7b', '\x7d']) from rfl]
    have hmm : ¬('\x7d' = m) := fun hh => hm.2.2.2.1 hh.symm
    have hstart : strStarts ('\x7b' :: ((m :: ms) ++ '\x7d' :: t)) ['\x7b', '\x7d'] = false := by
      simp only [List.cons_append]
      simp [strStarts, hmm]
    rw [hstart]
    rw [strContains_append_clean (m :: ms) ('\x7d' :: t) fun c hc =>
      (goodChar_ne c (hgood c hc)).2.2.1]
    rw [show strContains ('\x7d' :: t) ['\x7b', '\x7d'] =
        (strStarts ('\x7d' :: t) ['\x7b', '\x7d'] ||
          strContains t ['\x7b', '\x7d']) from rfl]
    have hstart2 : strStarts ('\x7d' :: t) ['\x7b', '\x7d'] = false := by
      simp [strStarts]
    rw [hstart2]
    simp

/-- A well-formed target segment contributes no brace pair. -/
theorem strContains_seg (sg : Seg) (t : Str) (hwf : segWF sg = true) :
    strContains (segTarget sg ++ t) ['\x7b', '\x7d'] =
      strContains t ['\x7b', '\x7d'] := by
  cases sg with
  | plain s =>
    simp only [segWF] at hwf
    obtain ⟨h1, h2⟩ := Bool.and_eq_true .. |>.mp hwf
    exact strContains_append_clean s t fun c hc =>
      (goodChar_ne c (all_true_mem goodChar s h2 c hc)).2.2.1
  | colon name =>
    simp only [segWF] at hwf
    obtain ⟨h1, h2⟩ := Bool.and_eq_true .. |>.mp hwf
    exact strContains_braceblock name t (ne_nil_of_isEmpty name h1)
      (all_true_mem goodChar name h2)
  | angle name =>
    simp only [segWF] at hwf
    obtain ⟨h1, h2⟩ := Bool.and_eq_true .. |>.mp hwf
    exact strContains_braceblock name t (ne_nil_of_isEmpty name h1)
      (all_true_mem goodChar name h2)
  | mux name pat =>
    simp only [segWF] at hwf
    obtain ⟨hn, hp⟩ := Bool.and_eq_true .. |>.mp hwf
    obtain ⟨hn1, hn2⟩ := Bool.and_eq_true .. |>.mp hn
    exact strContains_braceblock name t (ne_nil_of_isEmpty name hn1)
      (all_true_mem goodChar name hn2)

/-- Joined well-formed targets contain no brace pair. -/
theorem strContains_join_targets : ∀ specs : List Seg,
    (∀ sg ∈ specs, segWF sg = true) →
    strContains (joinWithChar '/' (specs.map segTarget)) ['\x7b', '\x7d'] = false := by
  intro specs
  induction specs with
  | nil => intro _; rfl
  | cons sg rest ih =>
    intro hwf
    have h1 : segWF sg = true := hwf sg (List.mem_cons_self sg rest)
    have h2 : ∀ x ∈ rest, segWF x = true := fun x hx =>
      hwf x (List.mem_cons_of_mem sg hx)
    cases rest with
    | nil =>
      have hseg := strContains_seg sg [] h1
      simpa [joinWithChar] using hseg.trans rfl
    | cons s2 rs =>
      rw [show joinWithChar '/' ((sg :: s2 :: rs).map segTarget) =
          segTarget sg ++ '/' :: joinWithChar '/' ((s2 :: rs).map segTarget) from rfl]
      rw [strContains_seg sg _ h1]
      rw [show strContains ('/' :: joinWithChar '/' ((s2 :: rs).map segTarget))
            ['\x7b', '\x7d'] =
          (strStarts ('/' :: joinWithChar '/' ((s2 :: rs).map segTarget))
             ['\x7b', '\x7d'] ||
           strContains (joinWithChar '/' ((s2 :: rs).map segTarget))
             ['\x7b', '\x7d']) from rfl]
      have hs : strStarts ('/' :: joinWithChar '/' ((s2 :: rs).map segTarget))
          ['\x7b', '\x7d'] = false := by
        simp [strStarts]
      rw [hs, ih h2]
      rfl

/-- The post-join pipeline on a slash-headed join of well-formed colon
rewrites yields the slash-headed join of the targets. -/
theorem pathAfterJoin_segs (specs : List Seg)
    (hwf : ∀ sg ∈ specs, segWF sg = true) :
    pathAfterJoin ('/' :: joinWithChar '/'
        (specs.map (colonSegment ∘ segRender))) =
      '/' :: joinWithChar '/' (specs.map segTarget) := by
  have hmid : (('/' :: joinWithChar '/'
      (specs.map (colonSegment ∘ segRender))).map gRepl) =
      '/' :: joinWithChar '/' (specs.map segMid) := by
    rw [List.map_cons]
    rw [show gRepl '/' = '/' from rfl]
    rw [map_joinWithChar gRepl rfl]
    rw [List.map_map]
    exact congrArg _ (congrArg _ (List.map_congr_left fun sg hsg =>
      segPipe sg (hwf sg hsg)))
  simp only [pathAfterJoin]
  rw [replaceAll_angles, hmid]
  rw [muxScanOutside_cons '/' _ (by decide)]
  rw [muxScan_join specs hwf]
  have hnb : strContains ('/' :: joinWithChar '/' (specs.map segTarget))
      ['\x7b', '\x7d'] = false := by
    rw [show strContains ('/' :: joinWithChar '/' (specs.map segTarget))
          ['\x7b', '\x7d'] =
        (strStarts ('/' :: joinWithChar '/' (specs.map segTarget))
           ['\x7b', '\x7d'] ||
         strContains (joinWithChar '/' (specs.map segTarget))
           ['\x7b', '\x7d']) from rfl]
    rw [strContains_join_targets specs hwf]
    simp [strStarts]
  have hnb3 : strContains ('/' :: joinWithChar '/' (specs.map segTarget))
      ['\x7b', '\x7d', '/'] = false :=
    strContains_extend_false _ ['\x7b', '\x7d'] ['/'] hnb
  rw [show S "\x7b\x7d/" = ['\x7b', '\x7d', '/'] from rfl]
  rw [replaceAll_not_contains _ _ _ hnb3]
  rw [show strStarts ('/' :: joinWithChar '/' (specs.map segTarget))
      (S "\x7b\x7d") = false from by
    rw [show S "\x7b\x7d" = ['\x7b', '\x7d'] from rfl]
    simp [strStarts]]
  simp

/-- The head of a join of a headed first part. -/
theorem joinWithChar_head (c : Char) (cs : Str) (ps : List Str) :
    ∃ t, joinWithChar '/' ((c :: cs) :: ps) = c :: t := by
  cases ps with
  | nil => exact ⟨cs, rfl⟩
  | cons q rs => exact ⟨cs ++ '/' :: joinWithChar '/' (q :: rs), rfl⟩

/-- Splitting after prepending a separator-free run extends the first
segment. -/
theorem splitOnChar_clean_prepend : ∀ s rest : Str, ∀ seg : Str,
    ∀ segs : List Str, (∀ c ∈ s, ¬c = '/') →
    splitOnChar '/' rest = seg :: segs →
    splitOnChar '/' (s ++ rest) = (s ++ seg) :: segs := by
  intro s
  induction s with
  | nil =>
    intro rest seg segs _ hr
    simpa using hr
  | cons x xs ih =>
    intro rest seg segs h hr
    have hx : ¬x = '/' := h x (List.mem_cons_self x xs)
    rw [List.cons_append]
    simp [splitOnChar,
      ih rest seg segs (fun c hc => h c (List.mem_cons_of_mem x hc)) hr, hx]

/-- A separator-free string splits into itself. -/
theorem splitOnChar_clean (s : Str) (h : ∀ c ∈ s, ¬c = '/') :
    splitOnChar '/' s = [s] := by
  have := splitOnChar_clean_prepend s [] [] [] h rfl
  simpa using this

/-- Splitting inverts joining for nonempty separator-free parts. -/
theorem splitOnChar_join_segs : ∀ parts : List Str, parts ≠ [] →
    (∀ p ∈ parts, ∀ c ∈ p, ¬c = '/') →
    splitOnChar '/' (joinWithChar '/' parts) = parts := by
  intro parts
  induction parts with
  | nil => intro h; exact absurd rfl h
  | cons p rest ih =>
    intro _ h
    cases rest with
    | nil => exact splitOnChar_clean p (h p (List.mem_cons_self p []))
    | cons q rs =>
      rw [show joinWithChar '/' (p :: q :: rs) =
          p ++ '/' :: joinWithChar '/' (q :: rs) from rfl]
      have hrest := ih (by simp)
        (fun x hx c hc => h x (List.mem_cons_of_mem p hx) c hc)
      have hsl : splitOnChar '/' ('/' :: joinWithChar '/' (q :: rs)) =
          [] :: q :: rs := by
        simp [splitOnChar, hrest]
      have := splitOnChar_clean_prepend p ('/' :: joinWithChar '/' (q :: rs))
        [] (q :: rs) (fun c hc => h p (List.mem_cons_self p (q :: rs)) c hc) hsl
      simpa using this

/-- Splitting after a leading separator prepends an empty segment. -/
theorem splitOnChar_slash_cons (q seg : Str) (segs : List Str)
    (h : splitOnChar '/' q = seg :: segs) :
    splitOnChar '/' ('/' :: q) = [] :: seg :: segs := by
  simp [splitOnChar, h]

/-- No character of a well-formed segment's rendering is a separator. -/
theorem segRender_no_slash (sg : Seg) (hwf : segWF sg = true) :
    ∀ c ∈ segRender sg, ¬c = '/' := by
  cases sg with
  | plain s =>
    simp only [segWF] at hwf
    obtain ⟨h1, h2⟩ := Bool.and_eq_true .. |>.mp hwf
    intro c hc
    exact (goodChar_ne c (all_true_mem goodChar s h2 c hc)).1
  | colon name =>
    simp only [segWF] at hwf
    obtain ⟨h1, h2⟩ := Bool.and_eq_true .. |>.mp hwf
    intro c hc
    rcases List.mem_cons.mp hc with rfl | hin
    · decide
    · exact (goodChar_ne c (all_true_mem goodChar name h2 c hin)).1
  | angle name =>
    simp only [segWF] at hwf
    obtain ⟨h1, h2⟩ := Bool.and_eq_true .. |>.mp hwf
    intro c hc
    rcases List.mem_cons.mp hc with rfl | hin
    · decide
    · rcases List.mem_append.mp hin with hm | hm
      · exact (goodChar_ne c (all_true_mem goodChar name h2 c hm)).1
      · rcases List.mem_singleton.mp hm with rfl
        decide
  | mux name pat =>
    simp only [segWF] at hwf
    obtain ⟨hn, hp⟩ := Bool.and_eq_true .. |>.mp hwf
    obtain ⟨hn1, hn2⟩ := Bool.and_eq_true .. |>.mp hn
    obtain ⟨hp1, hp2⟩ := Bool.and_eq_true .. |>.mp hp
    intro c hc
    rcases List.mem_cons.mp hc with rfl | hin
    · decide
    · rcases List.mem_append.mp hin with hm | hm
      · rcases List.mem_append.mp hm with hm1 | hm1
        · exact (goodChar_ne c (all_true_mem goodChar name hn2 c hm1)).1
        · rcases List.mem_cons.mp hm1 with rfl | hm2
          · decide
          · exact (patChar_ne c (all_true_mem patChar pat hp2 c hm2)).1
      · rcases List.mem_singleton.mp hm with rfl
        decide

/-- A well-formed segment renders nonempty. -/
theorem segRender_ne_nil (sg : Seg) (hwf : segWF sg = true) :
    segRender sg ≠ [] := by
  cases sg with
  | plain s =>
    cases s with
    | nil => simp [segWF] at hwf
    | cons a as => exact List.cons_ne_nil a as
  | colon name => exact List.cons_ne_nil _ _
  | angle name => exact List.cons_ne_nil _ _
  | mux name pat => exact List.cons_ne_nil _ _

/-- The core of the segment normalization: once the leading slash is in
place, the whole pipeline maps well-formed rendered segments to their
targets. -/
theorem c7core (sg0 : Seg) (rest : List Seg)
    (hwf : ∀ x ∈ sg0 :: rest, segWF x = true) :
    pathAfterJoin (joinWithChar '/' ((splitOnChar '/'
        ('/' :: joinWithChar '/' ((sg0 :: rest).map segRender))).map colonSegment)) =
      '/' :: joinWithChar '/' ((sg0 :: rest).map segTarget) := by
  have hsplit : splitOnChar '/' (joinWithChar '/' ((sg0 :: rest).map segRender)) =
      (sg0 :: rest).map segRender :=
    splitOnChar_join_segs _ (by simp) fun p hp c hc => by
      obtain ⟨x, hx, rfl⟩ := List.mem_map.mp hp
      exact segRender_no_slash x (hwf x hx) c hc
  have hsplit2 := splitOnChar_slash_cons _ _ _ hsplit
  rw [hsplit2]
  rw [List.map_cons]
  rw [show colonSegment [] = ([] : Str) from rfl]
  rw [List.map_cons]
  rw [List.map_map]
  rw [show joinWithChar '/'
      (([] : Str) :: colonSegment (segRender sg0) ::
        rest.map (colonSegment ∘ segRender)) =
      '/' :: joinWithChar '/' (colonSegment (segRender sg0) ::
        rest.map (colonSegment ∘ segRender)) from rfl]
  exact pathAfterJoin_segs (sg0 :: rest) hwf

/-- **C7.**  Path normalization, corrected: every normalized path starts
with a slash; for every path assembled from well-formed segments — plain
runs of characters outside the separator/colon/brace/angle set, `:name`,
`<name>` or `\x7bname:pattern\x7d` placeholders with nonempty names of
such characters and nonempty brace- and angle-free patterns — each
placeholder segment normalizes to `\x7bname\x7d` and plain segments pass
through unchanged, whether or not the input carries a leading slash; and
the repository's two test vectors are instances. -/
theorem c7_segment_normalization :
    (∀ p : Str, strStarts (convertPathToOpenAPI p) (S "/") = true) ∧
    (∀ specs : List Seg, specs.all segWF = true →
      convertPathToOpenAPI (joinWithChar '/' (specs.map segRender)) =
        '/' :: joinWithChar '/' (specs.map segTarget) ∧
      convertPathToOpenAPI ('/' :: joinWithChar '/' (specs.map segRender)) =
        '/' :: joinWithChar '/' (specs.map segTarget)) ∧
    convertPathToOpenAPI (S "api/<tenant>/:resource/\x7bslug:[a-z-]+\x7d") =
      S "/api/\x7btenant\x7d/\x7bresource\x7d/\x7bslug\x7d" ∧
    convertPathToOpenAPI (S "/api/v1/users/\x7bid:[0-9]+\x7d") =
      S "/api/v1/users/\x7bid\x7d" := by
  refine ⟨?_, ?_, rfl, rfl⟩
  · intro p
    obtain ⟨t, ht⟩ := convertPathToOpenAPI_head p
    rw [ht, show S "/" = ['/'] from rfl]
    simp [strStarts]
  · intro specs hwfb
    have hwf : ∀ x ∈ specs, segWF x = true := all_true_mem segWF specs hwfb
    cases specs with
    | nil => exact ⟨rfl, rfl⟩
    | cons sg0 rest =>
      have hcore := c7core sg0 rest hwf
      have hne := segRender_ne_nil sg0 (hwf sg0 (List.mem_cons_self sg0 rest))
      have hns := segRender_no_slash sg0 (hwf sg0 (List.mem_cons_self sg0 rest))
      constructor
      · rcases hr : segRender sg0 with _ | ⟨c, cs⟩
        · exact absurd hr hne
        · obtain ⟨t0, ht0⟩ : ∃ t0,
              joinWithChar '/' ((sg0 :: rest).map segRender) = c :: t0 := by
            rw [show (sg0 :: rest).map segRender =
                segRender sg0 :: rest.map segRender from rfl, hr]
            exact joinWithChar_head c cs _
          have hc : ¬('/' = c) := fun hh =>
            hns c (by rw [hr]; exact List.mem_cons_self c cs) hh.symm
          have hstart : strStarts (joinWithChar '/'
              ((sg0 :: rest).map segRender)) (S "/") = false := by
            rw [ht0, show S "/" = ['/'] from rfl]
            simp [strStarts, hc]
          simp only [convertPathToOpenAPI]
          rw [show (if strStarts (joinWithChar '/'
                ((sg0 :: rest).map segRender)) (S "/") = true
              then joinWithChar '/' ((sg0 :: rest).map segRender)
              else '/' :: joinWithChar '/' ((sg0 :: rest).map segRender)) =
              '/' :: joinWithChar '/' ((sg0 :: rest).map segRender) from by
            rw [hstart]
            simp]
          exact hcore
      · have hstart2 : strStarts ('/' :: joinWithChar '/'
            ((sg0 :: rest).map segRender)) (S "/") = true := by
          rw [show S "/" = ['/'] from rfl]
          simp [strStarts]
        simp only [convertPathToOpenAPI]
        rw [show (if strStarts ('/' :: joinWithChar '/'
              ((sg0 :: rest).map segRender)) (S "/") = true
            then '/' :: joinWithChar '/' ((sg0 :: rest).map segRender)
            else '/' :: ('/' :: joinWithChar '/' ((sg0 :: rest).map segRender))) =
            '/' :: joinWithChar '/' ((sg0 :: rest).map segRender) from by
          rw [hstart2]
          simp]
        exact hcore

/-- The segment list of the repository's mixed-format test vector. -/
def c7specs : List Seg :=
  [.plain (S "api"), .angle (S "tenant"), .colon (S "resource"),
   .mux (S "slug") (S "[a-z-]+")]

theorem c7_segment_normalization_witness :
    c7specs.all segWF = true ∧
    (convertPathToOpenAPI (joinWithChar '/' (c7specs.map segRender)) =
        '/' :: joinWithChar '/' (c7specs.map segTarget) ∧
      convertPathToOpenAPI ('/' :: joinWithChar '/' (c7specs.map segRender)) =
        '/' :: joinWithChar '/' (c7specs.map segTarget)) ∧
    joinWithChar '/' (c7specs.map segRender) =
      S "api/<tenant>/:resource/\x7bslug:[a-z-]+\x7d" ∧
    '/' :: joinWithChar '/' (c7specs.map segTarget) =
      S "/api/\x7btenant\x7d/\x7bresource\x7d/\x7bslug\x7d" :=
  ⟨rfl, c7_segment_normalization.2.1 c7specs rfl, rfl, rfl⟩

/-- C8: a failed directory analysis yields the unavailable result (with
no partial analysis even possible, since `analyzeDirectory` produces
nothing on a parse failure), the failure is cached under the directory
key, and a repeated load returns the cached unavailable result with the
entire state — including the execution counter — unchanged. -/
theorem c8_failure_cached {α β γ : Type} (analyzeDir : Str → Option β) (dir : Str)
    (st : CacheState β) (parseDir : Str → Option α) (collect : α → γ)
    (hcold : alookup st.cache dir = none)
    (hfail : analyzeDir dir = none)
    (hparse : parseDir dir = none) :
    analyzeDirectory parseDir collect dir = none ∧
    (loadPackageAnalysis analyzeDir dir st).1 = none ∧
    alookup (loadPackageAnalysis analyzeDir dir st).2.cache dir = some none ∧
    (loadPackageAnalysis analyzeDir dir st).2.runs = st.runs + 1 ∧
    loadPackageAnalysis analyzeDir dir (loadPackageAnalysis analyzeDir dir st).2 =
      (none, (loadPackageAnalysis analyzeDir dir st).2) := by
  have hfirst : loadPackageAnalysis analyzeDir dir st =
      (none, { cache := aupsert st.cache dir none, runs := st.runs + 1 }) := by
    simp [loadPackageAnalysis, hcold, hfail]
  refine ⟨by simp [analyzeDirectory, hparse], ?_, ?_, ?_, ?_⟩
  · rw [hfirst]
  · rw [hfirst]
    exact alookup_aupsert_self _ _ _
  · rw [hfirst]
  · rw [hfirst]
    simp only [loadPackageAnalysis, alookup_aupsert_self]

/-- C8, witness: a concrete cold cache and an analysis that always
fails. -/
theorem c8_failure_cached_witness :
    analyzeDirectory (fun _ : Str => (none : Option Nat)) (fun n : Nat => n)
      (S "dir") = none ∧
    (loadPackageAnalysis (fun _ : Str => (none : Option Nat)) (S "dir")
      ⟨[], 0⟩).1 = none ∧
    alookup (loadPackageAnalysis (fun _ : Str => (none : Option Nat)) (S "dir")
      ⟨[], 0⟩).2.cache (S "dir") = some none ∧
    (loadPackageAnalysis (fun _ : Str => (none : Option Nat)) (S "dir")
      ⟨[], 0⟩).2.runs = (0 : Nat) + 1 ∧
    loadPackageAnalysis (fun _ : Str => (none : Option Nat)) (S "dir")
      (loadPackageAnalysis (fun _ : Str => (none : Option Nat)) (S "dir") ⟨[], 0⟩).2 =
      (none, (loadPackageAnalysis (fun _ : Str => (none : Option Nat)) (S "dir")
        ⟨[], 0⟩).2) :=
  c8_failure_cached (fun _ => none) (S "dir") ⟨[], 0⟩
    (fun _ : Str => (none : Option Nat)) (fun n : Nat => n) rfl rfl rfl

/-- Read a key of a possibly-nil object value. -/
def govLookup (v : GoVal) (k : Str) : Option JValue :=
  match v with
  | some j => jlookup j k
  | none => none

/-- A package with one struct `User \x7b ID int `json:"id"` \x7d`. -/
def userStructsPlain : List (Str × List GoField) :=
  [(S "User", [GoField.mk [S "ID"] (.ident (S "int"))
    (some (S "\x60json:\"id\"\x60")) [] []])]

/-- The same package with an explicit tag example override `999` on the
field. -/
def userStructsOverride : List (Str × List GoField) :=
  [(S "User", [GoField.mk [S "ID"] (.ident (S "int"))
    (some (S "\x60json:\"id\" example:\"999\"\x60")) [] []])]

/-- Traversal nodes of a handler body containing
`c.JSON(201, User\x7bID: 123\x7d)`. -/
def bodyLit201 : List ANode :=
  [.callNode (.selector (.ident (S "c")) (S "JSON"))
    [.basicLit .int (S "201"),
     .composite (some (.ident (S "User")))
       [.keyValue (.ident (S "ID")) (.basicLit .int (S "123"))]]]

/-- The same handler body with the literal's `ID` field left unset. -/
def bodyEmptyLit201 : List ANode :=
  [.callNode (.selector (.ident (S "c")) (S "JSON"))
    [.basicLit .int (S "201"), .composite (some (.ident (S "User"))) []]]

/-- The recorded example value of the `id` field under status 201. -/
def recordedId201 (structs : List (Str × List GoField)) (body : List ANode) :
    Option (Option (Option JValue)) :=
  (analyzeHandlerDetails 40 structs [] body).map
    fun a => (alookup a.responses (S "201")).map
      fun r => govLookup r.exampleVal (S "id")

set_option maxRecDepth 20000 in
/-- C1, counterexample: with both a tag example override (`999`) and an
explicit literal field value (`123`), the recorded example carries the
literal value `123`, not the coerced override `999` the claim demands —
the literal overlay is applied after the tag override, so the override
does not take precedence. -/
theorem c1_counterexample :
    recordedId201 userStructsOverride bodyLit201 = some (some (some (.int 123))) ∧
    ¬ recordedId201 userStructsOverride bodyLit201 = some (some (some (.int 999))) ∧
    convertExampleValue (S "999") (some (typeSchema "integer")) (some (.int 0)) =
      some (.int 999) := by
  refine ⟨rfl, ?_, rfl⟩
  intro h
  rw [show recordedId201 userStructsOverride bodyLit201 =
      some (some (some (.int 123))) from rfl] at h
  injection h with h1
  injection h1 with h2
  injection h2 with h3
  injection h3 with h4
  exact absurd h4 (by decide)

set_option maxRecDepth 20000 in
/-- C1, amended: a handler containing `respond(201, User\x7bID: 123\x7d)`
records `responses["201"].schema.properties.id.type == "integer"` and
`example.id == 123`; when the field's tag additionally carries an example
override, the literal field value still takes precedence in the recorded
example, and the override, coerced to the field's declared kind, is used
only when the literal leaves the field unset. -/
theorem c1_amended_literal_example :
    ((analyzeHandlerDetails 40 userStructsPlain [] bodyLit201).map
      fun a => (alookup a.responses (S "201")).map
        fun r => (govLookup r.schema (S "properties")).bind
          fun p => (jlookup p (S "id")).bind
            fun s => jlookup s (S "type")) =
      some (some (some (.str (S "integer")))) ∧
    recordedId201 userStructsPlain bodyLit201 = some (some (some (.int 123))) ∧
    recordedId201 userStructsOverride bodyLit201 = some (some (some (.int 123))) ∧
    recordedId201 userStructsOverride bodyEmptyLit201 = some (some (some (.int 999))) :=
  ⟨rfl, rfl, rfl, rfl⟩

/-- A package with a directly self-referential struct
`Node \x7b Next *Node \x7d`. -/
def nodeCtx : AnalysisContext :=
  { structs := [(S "Node", [GoField.mk [S "Next"] (.star (.ident (S "Node"))) none [] []])]
    functions := [], vars := [], vals := [] }

/-- A package with a two-struct reference cycle `A → B → A` through
pointer fields. -/
def cycleCtx : AnalysisContext :=
  { structs :=
      [(S "A", [GoField.mk [S "B"] (.star (.ident (S "B"))) none [] []]),
       (S "B", [GoField.mk [S "A"] (.star (.ident (S "A"))) none [] []])]
    functions := [], vars := [], vals := [] }

/-- A package where one struct uses another twice in unrelated fields. -/
def siblingCtx : AnalysisContext :=
  { structs :=
      [(S "P", [GoField.mk [S "X"] (.ident (S "T")) none [] [],
                GoField.mk [S "Y"] (.ident (S "T")) none [] []]),
       (S "T", [GoField.mk [S "V"] (.ident (S "int")) none [] []])]
    functions := [], vars := [], vals := [] }

set_option maxRecDepth 20000 in
/-- C5: schema construction on self-referential aggregates terminates
with a finite schema — for every fuel margin the result of the directly
self-referential `Node` and of the `A → B → A` chain is the same fixed
finite schema, with the revisited name degenerating to
`\x7b"type": "object"\x7d`; the degenerate-revisit rule holds for every
context and visited set containing the name; and unmarking on return
lets the same type appear fully expanded in two unrelated subtrees. -/
theorem c5_cycle_guard :
    (∀ n : Nat, buildSchemaFromExpr (n + 6) nodeCtx [] (.ident (S "Node")) =
      some (some (.obj [(S "type", .str (S "object")),
                        (S "properties", .obj [(S "next", typeSchema "object")])]),
            some (.obj [(S "next", .obj [])]))) ∧
    (∀ n : Nat, buildSchemaFromExpr (n + 12) cycleCtx [] (.ident (S "A")) =
      some (some (.obj [(S "type", .str (S "object")),
                        (S "properties", .obj [(S "b",
                          .obj [(S "type", .str (S "object")),
                                (S "properties", .obj [(S "a", typeSchema "object")])])])]),
            some (.obj [(S "b", .obj [(S "a", .obj [])])]))) ∧
    (∀ fuel (ctx : AnalysisContext) (visited : List Str) (name : Str),
      alookup ctx.vals name = none →
      alookup ctx.vars name = none →
      primitiveSchemaForIdent name = (none, none) →
      (∃ st, alookup ctx.structs name = some st) →
      visited.contains name = true →
      buildSchemaFromExpr (fuel + 1) ctx visited (.ident name) =
        some (some (typeSchema "object"), some (.obj []))) ∧
    (∀ n : Nat, buildSchemaFromExpr (n + 10) siblingCtx [] (.ident (S "P")) =
      some (some (.obj [(S "type", .str (S "object")),
                        (S "properties", .obj
                          [(S "x", .obj [(S "type", .str (S "object")),
                                         (S "properties", .obj [(S "v", typeSchema "integer")])]),
                           (S "y", .obj [(S "type", .str (S "object")),
                                         (S "properties", .obj [(S "v", typeSchema "integer")])])])]),
            some (.obj [(S "x", .obj [(S "v", .int 0)]),
                        (S "y", .obj [(S "v", .int 0)])]))) := by
  refine ⟨fun n => rfl, fun n => rfl, ?_, fun n => rfl⟩
  intro fuel ctx visited name hvals hvars hprim hstruct hvisited
  obtain ⟨st, hst⟩ := hstruct
  simp only [buildSchemaFromExpr, hvals, hvars, hprim, hst, hvisited]
  simp

/-- C5, witness: the degenerate-revisit rule at a concrete revisited
name. -/
theorem c5_cycle_guard_witness :
    buildSchemaFromExpr 5 nodeCtx [S "Node"] (.ident (S "Node")) =
      some (some (typeSchema "object"), some (.obj [])) :=
  c5_cycle_guard.2.2.1 4 nodeCtx [S "Node"] (S "Node") rfl rfl rfl
    ⟨[GoField.mk [S "Next"] (.star (.ident (S "Node"))) none [] []], rfl⟩ rfl

/-! ### Claim C2: status resolution -/

/-- The response-map key a resolved status string is recorded under:
`analyzeCallNode` defaults the empty resolution to `"200"`. -/
def statusKey (sc : Str) : Str := if sc = [] then S "200" else sc

/-- The description `analyzeCallNode` stores for a response recorded
under `key`: the canonical reason phrase, or `"Response"` when the key
has none. -/
def descFor (key : Str) : Str :=
  let d := statusTextFromCode key
  if d = [] then S "Response" else d

/-- A present key stays present across a map update. -/
theorem alookup_isSome_aupsert {α : Type} (m : List (Str × α)) (k j : Str) (v : α)
    (h : (alookup m j).isSome) : (alookup (aupsert m k v) j).isSome := by
  by_cases hj : j = k
  · subst hj
    rw [alookup_aupsert_self]
    rfl
  · rw [alookup_aupsert_ne m k j v hj]
    exact h

/-- Shape of one call-node analysis step: the response map is unchanged
or gains one upserted status key, and the request body changes only via
a successful binding resolution while none was recorded yet. -/
theorem analyzeCallNode_shape (fuel : Nat) (ctx : AnalysisContext)
    (analysis : HandlerAnalysis) (fn : Expr) (args : List Expr)
    (a' : HandlerAnalysis)
    (h : analyzeCallNode fuel ctx analysis fn args = some a') :
    (a'.responses = analysis.responses ∨
      ∃ k r, a'.responses = aupsert analysis.responses k r) ∧
    (a'.requestBody = analysis.requestBody ∨
      (analysis.requestBody = none ∧ isBindingCall fn = true ∧
        ∃ arg rest rb, args = arg :: rest ∧
          resolveRequestBody fuel ctx fn arg = some (some rb) ∧
          a'.requestBody = some rb)) := by
  simp only [analyzeCallNode] at h
  rw [Option.bind_eq_some] at h
  obtain ⟨a1, hb, h⟩ := h
  have ha1 : a1.responses = analysis.responses ∧
      (a1.requestBody = analysis.requestBody ∨
        (analysis.requestBody = none ∧ isBindingCall fn = true ∧
          ∃ arg rest rb, args = arg :: rest ∧
            resolveRequestBody fuel ctx fn arg = some (some rb) ∧
            a1.requestBody = some rb)) := by
    split_ifs at hb with hcond
    · cases args with
      | nil =>
        obtain rfl := Option.some.inj hb
        exact ⟨rfl, Or.inl rfl⟩
      | cons a rest =>
        dsimp only at hb
        rw [Option.map_eq_some'] at hb
        obtain ⟨r, hr, heq⟩ := hb
        cases r with
        | none =>
          dsimp only at heq
          subst heq
          exact ⟨rfl, Or.inl rfl⟩
        | some rb =>
          dsimp only at heq
          subst heq
          obtain ⟨hnone, hbind⟩ := Bool.and_eq_true .. |>.mp hcond
          exact ⟨rfl, Or.inr ⟨Option.isNone_iff_eq_none.mp hnone, hbind,
            a, rest, rb, rfl, hr, rfl⟩⟩
    · obtain rfl := Option.some.inj hb
      exact ⟨rfl, Or.inl rfl⟩
  rw [Option.bind_eq_some] at h
  obtain ⟨info, hi, h⟩ := h
  cases info with
  | none =>
    try dsimp only at h
    obtain rfl := Option.some.inj h
    exact ⟨Or.inl ha1.1, ha1.2⟩
  | some trip =>
    obtain ⟨ct, se, de⟩ := trip
    try dsimp only at h
    rw [Option.bind_eq_some] at h
    obtain ⟨sc, hsc, h⟩ := h
    try dsimp only at h
    rw [Option.bind_eq_some] at h
    obtain ⟨payload, hp, h⟩ := h
    try dsimp only at h
    rw [Option.bind_eq_some] at h
    obtain ⟨pr, hbs, h⟩ := h
    obtain ⟨schema, ex⟩ := pr
    try dsimp only at h
    rw [Option.bind_eq_some] at h
    obtain ⟨ex1, hn, h⟩ := h
    try dsimp only at h
    rw [Option.map_eq_some'] at h
    obtain ⟨ex2, hw, heq⟩ := h
    subst heq
    constructor
    · dsimp only
      rw [ha1.1]
      exact Or.inr ⟨_, _, rfl⟩
    · exact ha1.2

/-- One traversal node preserves every already-present response key. -/
theorem analyzeNode_resp_isSome (fuel : Nat)
    (st : AnalysisContext × HandlerAnalysis) (node : ANode)
    (st' : AnalysisContext × HandlerAnalysis)
    (h : analyzeNode fuel st node = some st') (k : Str)
    (hk : (alookup st.2.responses k).isSome) :
    (alookup st'.2.responses k).isSome := by
  cases node with
  | declNode specs =>
    simp only [analyzeNode] at h
    rw [Option.map_eq_some'] at h
    obtain ⟨ctx1, _, heq⟩ := h
    subst heq
    exact hk
  | assignNode define lhs rhs =>
    simp only [analyzeNode] at h
    rw [Option.map_eq_some'] at h
    obtain ⟨ctx1, _, heq⟩ := h
    subst heq
    exact hk
  | rangeNode define value x =>
    simp only [analyzeNode] at h
    rw [Option.map_eq_some'] at h
    obtain ⟨ctx1, _, heq⟩ := h
    subst heq
    exact hk
  | callNode fn args =>
    simp only [analyzeNode] at h
    rw [Option.map_eq_some'] at h
    obtain ⟨a2, ha2, heq⟩ := h
    subst heq
    rcases (analyzeCallNode_shape fuel st.1 st.2 fn args a2 ha2).1 with he | ⟨kk, rr, he⟩
    · dsimp only
      rw [he]
      exact hk
    · dsimp only
      rw [he]
      exact alookup_isSome_aupsert _ _ _ _ hk

/-- The traversal fold preserves every already-present response key. -/
theorem analyzeNodes_resp_isSome (fuel : Nat) (nodes : List ANode) :
    ∀ st st', analyzeNodes fuel nodes st = some st' →
      ∀ k, (alookup st.2.responses k).isSome →
        (alookup st'.2.responses k).isSome := by
  induction nodes with
  | nil =>
    intro st st' h k hk
    simp only [analyzeNodes] at h
    obtain rfl := Option.some.inj h
    exact hk
  | cons node rest ih =>
    intro st st' h k hk
    simp only [analyzeNodes] at h
    rw [Option.bind_eq_some] at h
    obtain ⟨st1, h1, h2⟩ := h
    exact ih st1 st' h2 k (analyzeNode_resp_isSome fuel st node st1 h1 k hk)

/-- **C2.**  Status resolution: a status argument that is a named
`net/http` status constant resolves through `httpStatusNameMap` to its
numeric code (in particular `StatusCreated` to `"201"`, whose reason
phrase is `"Created"`); every recognized response call whose status
resolves to `sc` is recorded under `statusKey sc` with description
`descFor (statusKey sc)`, the canonical reason phrase when one exists; an
unknown status selector or an unbound status identifier resolves to the
empty string, which `statusKey` sends to the `"200"` default (reason
phrase `"OK"`); and a recorded key survives the rest of the traversal. -/
theorem c2_status_resolution :
    (∀ fuel : Nat, ∀ ctx : AnalysisContext, ∀ x : Expr, ∀ selName : Str,
      ∀ code : Nat,
        alookup httpStatusNameMap selName = some code →
        extractStatusCode (fuel + 1) ctx (.selector x selName) =
          some (intToStr (code : Int))) ∧
    (alookup httpStatusNameMap (S "StatusCreated") = some 201 ∧
      intToStr (201 : Int) = S "201" ∧ descFor (S "201") = S "Created" ∧
      descFor (S "200") = S "OK") ∧
    (∀ fuel : Nat, ∀ ctx : AnalysisContext, ∀ analysis : HandlerAnalysis,
      ∀ fn : Expr, ∀ args : List Expr, ∀ ct : Str, ∀ se de : Expr, ∀ sc : Str,
      ∀ a' : HandlerAnalysis,
        analyzeCallNode fuel ctx analysis fn args = some a' →
        responseCallInfo fuel ctx fn args = some (some (ct, se, de)) →
        extractStatusCode fuel ctx se = some sc →
        ∃ resp, alookup a'.responses (statusKey sc) = some resp ∧
          resp.description = descFor (statusKey sc)) ∧
    (∀ fuel : Nat, ∀ ctx : AnalysisContext, ∀ x : Expr, ∀ sel : Str,
        alookup httpStatusNameMap sel = none →
        extractStatusCode (fuel + 1) ctx (.selector x sel) = some [] ∧
        statusKey [] = S "200") ∧
    (∀ fuel : Nat, ∀ ctx : AnalysisContext, ∀ n : Str,
        alookup ctx.vars n = none →
        extractStatusCode (fuel + 1) ctx (.ident n) = some []) ∧
    (∀ fuel : Nat, ∀ nodes : List ANode,
      ∀ st st' : AnalysisContext × HandlerAnalysis,
        analyzeNodes fuel nodes st = some st' →
        ∀ k : Str, (alookup st.2.responses k).isSome →
          (alookup st'.2.responses k).isSome) := by
  refine ⟨?_, ⟨rfl, rfl, rfl, rfl⟩, ?_, ?_, ?_, ?_⟩
  · intro fuel ctx x selName code h
    simp only [extractStatusCode, h]
  · intro fuel ctx analysis fn args ct se de sc a' h hinfo hsc
    simp only [analyzeCallNode] at h
    rw [Option.bind_eq_some] at h
    obtain ⟨a1, hb, h⟩ := h
    rw [Option.bind_eq_some] at h
    obtain ⟨info, hi, h⟩ := h
    rw [hinfo] at hi
    obtain rfl := Option.some.inj hi
    try dsimp only at h
    rw [Option.bind_eq_some] at h
    obtain ⟨sc2, hsc2, h⟩ := h
    rw [hsc] at hsc2
    obtain rfl := Option.some.inj hsc2
    try dsimp only at h
    rw [Option.bind_eq_some] at h
    obtain ⟨payload, hp, h⟩ := h
    try dsimp only at h
    rw [Option.bind_eq_some] at h
    obtain ⟨pr, hbs, h⟩ := h
    obtain ⟨schema, ex⟩ := pr
    try dsimp only at h
    rw [Option.bind_eq_some] at h
    obtain ⟨ex1, hn, h⟩ := h
    try dsimp only at h
    rw [Option.map_eq_some'] at h
    obtain ⟨ex2, hw, heq⟩ := h
    subst heq
    exact ⟨_, alookup_aupsert_self _ _ _, rfl⟩
  · intro fuel ctx x sel h
    exact ⟨by simp only [extractStatusCode, h], rfl⟩
  · intro fuel ctx n h
    simp only [extractStatusCode, h]
  · intro fuel nodes st st' h k hk
    exact analyzeNodes_resp_isSome fuel nodes st st' h k hk

/-- The status expression of the C2 witness: `http.StatusCreated`. -/
def c2se : Expr := .selector (.ident (S "http")) (S "StatusCreated")

/-- The payload expression of the C2 witness: the literal `"ok"`. -/
def c2de : Expr := .basicLit .strLit (S "\"ok\"")

/-- The call of the C2 witness: `c.JSON(http.StatusCreated, "ok")`. -/
def c2fn : Expr := .selector (.ident (S "c")) (S "JSON")

/-- The witness call's arguments. -/
def c2args : List Expr := [c2se, c2de]

/-- The analysis produced by the witness call. -/
def c2result : HandlerAnalysis :=
  (analyzeCallNode 20 emptyCtx ⟨none, []⟩ c2fn c2args).getD ⟨none, []⟩

theorem c2_status_resolution_witness :
    analyzeCallNode 20 emptyCtx ⟨none, []⟩ c2fn c2args = some c2result ∧
    responseCallInfo 20 emptyCtx c2fn c2args =
      some (some (S "application/json", c2se, c2de)) ∧
    extractStatusCode 20 emptyCtx c2se = some (S "201") ∧
    (∃ resp, alookup c2result.responses (statusKey (S "201")) = some resp ∧
      resp.description = descFor (statusKey (S "201"))) :=
  ⟨rfl, rfl, rfl,
    c2_status_resolution.2.2.1 20 emptyCtx ⟨none, []⟩ c2fn c2args
      (S "application/json") c2se c2de (S "201") c2result rfl rfl rfl⟩

/-! ### Claim C6: at most one request body, first resolvable binding wins -/

/-- First non-`none` element of a list of options. -/
def firstSome {α : Type} : List (Option α) → Option α
  | [] => none
  | some a :: _ => some a
  | none :: rest => firstSome rest

/-- The request-body outcome a single call node offers: the resolution
result for a binding call with at least one argument, nothing otherwise
(the outer `Option` is fuel exhaustion). -/
def bindingEntry (fuel : Nat) (ctx : AnalysisContext) (fn : Expr)
    (args : List Expr) : Option (Option RequestBody) :=
  if isBindingCall fn then
    match args with
    | a :: _ => resolveRequestBody fuel ctx fn a
    | [] => some none
  else some none

/-- The request-body outcomes of all call nodes of a handler body, in
traversal order, under the same scope evolution as `analyzeNodes`. -/
def bindingTrace (fuel : Nat) (nodes : List ANode) (ctx : AnalysisContext) :
    Option (List (Option RequestBody)) :=
  match nodes with
  | [] => some []
  | .declNode specs :: rest =>
    (registerDeclarationTypes fuel ctx specs).bind fun ctx1 =>
      bindingTrace fuel rest ctx1
  | .assignNode define lhs rhs :: rest =>
    (registerAssignmentTypes fuel ctx define lhs rhs).bind fun ctx1 =>
      bindingTrace fuel rest ctx1
  | .rangeNode define value x :: rest =>
    (registerRangeTypes fuel ctx define value x).bind fun ctx1 =>
      bindingTrace fuel rest ctx1
  | .callNode fn args :: rest =>
    (bindingEntry fuel ctx fn args).bind fun e =>
      (bindingTrace fuel rest ctx).map fun tr => e :: tr

/-- A resolved request body is always marked required. -/
theorem resolveRequestBody_required (fuel : Nat) (ctx : AnalysisContext)
    (fn arg : Expr) (rb : RequestBody)
    (h : resolveRequestBody fuel ctx fn arg = some (some rb)) :
    rb.required = true := by
  simp only [resolveRequestBody] at h
  rw [Option.bind_eq_some] at h
  obtain ⟨typeExpr, ht, h⟩ := h
  cases typeExpr with
  | none => exact Option.noConfusion (Option.some.inj h)
  | some te =>
    try dsimp only at h
    rw [Option.map_eq_some'] at h
    obtain ⟨body, hb, heq⟩ := h
    cases body with
    | none =>
      try dsimp only at heq
      exact Option.noConfusion heq
    | some b =>
      try dsimp only at heq
      obtain rfl := Option.some.inj heq
      rfl

/-- With no request body recorded yet, a successful call-node step puts
exactly its binding entry into the request-body slot. -/
theorem analyzeCallNode_entry (fuel : Nat) (ctx : AnalysisContext)
    (analysis : HandlerAnalysis) (fn : Expr) (args : List Expr)
    (a' : HandlerAnalysis)
    (hrb : analysis.requestBody = none)
    (h : analyzeCallNode fuel ctx analysis fn args = some a') :
    bindingEntry fuel ctx fn args = some a'.requestBody := by
  simp only [analyzeCallNode] at h
  rw [Option.bind_eq_some] at h
  obtain ⟨a1, hb, h⟩ := h
  have hcond : (analysis.requestBody.isNone && isBindingCall fn) = isBindingCall fn := by
    rw [hrb]
    rfl
  rw [hcond] at hb
  have hentry : bindingEntry fuel ctx fn args = some a1.requestBody := by
    by_cases hbind : isBindingCall fn = true
    · rw [if_pos hbind] at hb
      cases args with
      | nil =>
        obtain rfl := Option.some.inj hb
        simp only [bindingEntry]
        rw [if_pos hbind, hrb]
      | cons a rest2 =>
        try dsimp only at hb
        rw [Option.map_eq_some'] at hb
        obtain ⟨r, hr, heq⟩ := hb
        cases r with
        | some rb =>
          try dsimp only at heq
          subst heq
          simp only [bindingEntry]
          rw [if_pos hbind]
          exact hr
        | none =>
          try dsimp only at heq
          subst heq
          simp only [bindingEntry]
          rw [if_pos hbind, hrb]
          exact hr
    · rw [if_neg hbind] at hb
      obtain rfl := Option.some.inj hb
      simp only [bindingEntry]
      rw [if_neg hbind, hrb]
  have hpost : a'.requestBody = a1.requestBody := by
    rw [Option.bind_eq_some] at h
    obtain ⟨info, hi, h⟩ := h
    cases info with
    | none =>
      try dsimp only at h
      obtain rfl := Option.some.inj h
      rfl
    | some trip =>
      obtain ⟨ct, se, de⟩ := trip
      try dsimp only at h
      rw [Option.bind_eq_some] at h
      obtain ⟨sc, hsc, h⟩ := h
      try dsimp only at h
      rw [Option.bind_eq_some] at h
      obtain ⟨payload, hp, h⟩ := h
      try dsimp only at h
      rw [Option.bind_eq_some] at h
      obtain ⟨pr, hbs, h⟩ := h
      obtain ⟨schema, ex⟩ := pr
      try dsimp only at h
      rw [Option.bind_eq_some] at h
      obtain ⟨ex1, hn, h⟩ := h
      try dsimp only at h
      rw [Option.map_eq_some'] at h
      obtain ⟨ex2, hw, heq⟩ := h
      subst heq
      rfl
  rw [hpost]
  exact hentry

/-- A recorded request body survives one traversal node. -/
theorem analyzeNode_rb_some (fuel : Nat) (st : AnalysisContext × HandlerAnalysis)
    (node : ANode) (st' : AnalysisContext × HandlerAnalysis) (rb : RequestBody)
    (h : analyzeNode fuel st node = some st')
    (hrb : st.2.requestBody = some rb) :
    st'.2.requestBody = some rb := by
  cases node with
  | declNode specs =>
    simp only [analyzeNode] at h
    rw [Option.map_eq_some'] at h
    obtain ⟨ctx1, _, heq⟩ := h
    subst heq
    exact hrb
  | assignNode define lhs rhs =>
    simp only [analyzeNode] at h
    rw [Option.map_eq_some'] at h
    obtain ⟨ctx1, _, heq⟩ := h
    subst heq
    exact hrb
  | rangeNode define value x =>
    simp only [analyzeNode] at h
    rw [Option.map_eq_some'] at h
    obtain ⟨ctx1, _, heq⟩ := h
    subst heq
    exact hrb
  | callNode fn args =>
    simp only [analyzeNode] at h
    rw [Option.map_eq_some'] at h
    obtain ⟨a2, ha2, heq⟩ := h
    subst heq
    rcases (analyzeCallNode_shape fuel st.1 st.2 fn args a2 ha2).2 with he | ⟨hn, _⟩
    · dsimp only
      rw [he]
      exact hrb
    · rw [hrb] at hn
      exact Option.noConfusion hn

/-- A recorded request body survives the rest of the traversal. -/
theorem analyzeNodes_rb_some (fuel : Nat) (nodes : List ANode) :
    ∀ st st' : AnalysisContext × HandlerAnalysis, ∀ rb : RequestBody,
      analyzeNodes fuel nodes st = some st' →
      st.2.requestBody = some rb →
      st'.2.requestBody = some rb := by
  induction nodes with
  | nil =>
    intro st st' rb h hrb
    simp only [analyzeNodes] at h
    obtain rfl := Option.some.inj h
    exact hrb
  | cons node rest ih =>
    intro st st' rb h hrb
    simp only [analyzeNodes] at h
    rw [Option.bind_eq_some] at h
    obtain ⟨st1, h1, h2⟩ := h
    exact ih st1 st' rb h2 (analyzeNode_rb_some fuel st node st1 rb h1 hrb)

/-- The final request body of a traversal started with none recorded is
the first non-`none` entry of the body's binding trace. -/
theorem bindingTrace_correct (fuel : Nat) (nodes : List ANode) :
    ∀ ctx : AnalysisContext, ∀ analysis : HandlerAnalysis,
    ∀ st' : AnalysisContext × HandlerAnalysis, ∀ tr : List (Option RequestBody),
      analyzeNodes fuel nodes (ctx, analysis) = some st' →
      bindingTrace fuel nodes ctx = some tr →
      analysis.requestBody = none →
      st'.2.requestBody = firstSome tr := by
  induction nodes with
  | nil =>
    intro ctx analysis st' tr h htr hrb
    simp only [analyzeNodes] at h
    obtain rfl := Option.some.inj h
    simp only [bindingTrace] at htr
    obtain rfl := Option.some.inj htr
    exact hrb
  | cons node rest ih =>
    intro ctx analysis st' tr h htr hrb
    simp only [analyzeNodes] at h
    rw [Option.bind_eq_some] at h
    obtain ⟨st1, h1, h2⟩ := h
    cases node with
    | declNode specs =>
      simp only [analyzeNode] at h1
      rw [Option.map_eq_some'] at h1
      obtain ⟨ctx1, hreg, heq⟩ := h1
      subst heq
      simp only [bindingTrace] at htr
      rw [Option.bind_eq_some] at htr
      obtain ⟨ctx2, hreg2, htr⟩ := htr
      rw [hreg] at hreg2
      obtain rfl := Option.some.inj hreg2
      exact ih ctx1 analysis st' tr h2 htr hrb
    | assignNode define lhs rhs =>
      simp only [analyzeNode] at h1
      rw [Option.map_eq_some'] at h1
      obtain ⟨ctx1, hreg, heq⟩ := h1
      subst heq
      simp only [bindingTrace] at htr
      rw [Option.bind_eq_some] at htr
      obtain ⟨ctx2, hreg2, htr⟩ := htr
      rw [hreg] at hreg2
      obtain rfl := Option.some.inj hreg2
      exact ih ctx1 analysis st' tr h2 htr hrb
    | rangeNode define value x =>
      simp only [analyzeNode] at h1
      rw [Option.map_eq_some'] at h1
      obtain ⟨ctx1, hreg, heq⟩ := h1
      subst heq
      simp only [bindingTrace] at htr
      rw [Option.bind_eq_some] at htr
      obtain ⟨ctx2, hreg2, htr⟩ := htr
      rw [hreg] at hreg2
      obtain rfl := Option.some.inj hreg2
      exact ih ctx1 analysis st' tr h2 htr hrb
    | callNode fn args =>
      simp only [analyzeNode] at h1
      rw [Option.map_eq_some'] at h1
      obtain ⟨a2, ha2, heq⟩ := h1
      subst heq
      simp only [bindingTrace] at htr
      rw [Option.bind_eq_some] at htr
      obtain ⟨e, hentry, htr⟩ := htr
      try dsimp only at htr
      rw [Option.map_eq_some'] at htr
      obtain ⟨tr', htr', heqtr⟩ := htr
      subst heqtr
      have hee := analyzeCallNode_entry fuel ctx analysis fn args a2 hrb ha2
      rw [hentry] at hee
      obtain he2 := Option.some.inj hee
      cases e with
      | some rb =>
        exact analyzeNodes_rb_some fuel rest (ctx, a2) st' rb h2 he2.symm
      | none =>
        exact ih ctx a2 st' tr' h2 htr' he2.symm

/-- The first non-`none` element of a list is a member. -/
theorem firstSome_mem {α : Type} (l : List (Option α)) (a : α)
    (h : firstSome l = some a) : some a ∈ l := by
  induction l with
  | nil => exact Option.noConfusion h
  | cons x rest ih =>
    cases x with
    | some b =>
      rw [show firstSome (some b :: rest) = some b from rfl] at h
      obtain rfl := Option.some.inj h
      exact List.mem_cons_self _ _
    | none => exact List.mem_cons_of_mem _ (ih h)

/-- Every resolved body appearing in a binding trace is required. -/
theorem bindingTrace_mem_required (fuel : Nat) (nodes : List ANode) :
    ∀ ctx : AnalysisContext, ∀ tr : List (Option RequestBody),
      bindingTrace fuel nodes ctx = some tr →
      ∀ rb : RequestBody, some rb ∈ tr → rb.required = true := by
  induction nodes with
  | nil =>
    intro ctx tr htr rb hmem
    simp only [bindingTrace] at htr
    obtain rfl := Option.some.inj htr
    exact absurd hmem (List.not_mem_nil _)
  | cons node rest ih =>
    intro ctx tr htr rb hmem
    cases node with
    | declNode specs =>
      simp only [bindingTrace] at htr
      rw [Option.bind_eq_some] at htr
      obtain ⟨ctx1, _, htr⟩ := htr
      exact ih ctx1 tr htr rb hmem
    | assignNode define lhs rhs =>
      simp only [bindingTrace] at htr
      rw [Option.bind_eq_some] at htr
      obtain ⟨ctx1, _, htr⟩ := htr
      exact ih ctx1 tr htr rb hmem
    | rangeNode define value x =>
      simp only [bindingTrace] at htr
      rw [Option.bind_eq_some] at htr
      obtain ⟨ctx1, _, htr⟩ := htr
      exact ih ctx1 tr htr rb hmem
    | callNode fn args =>
      simp only [bindingTrace] at htr
      rw [Option.bind_eq_some] at htr
      obtain ⟨e, hentry, htr⟩ := htr
      try dsimp only at htr
      rw [Option.map_eq_some'] at htr
      obtain ⟨tr', htr', heqtr⟩ := htr
      subst heqtr
      rcases List.mem_cons.mp hmem with heq | htail
      · obtain rfl := heq
        simp only [bindingEntry] at hentry
        split_ifs at hentry with hbind
        · cases args with
          | nil => exact Option.noConfusion (Option.some.inj hentry)
          | cons a rest2 =>
            try dsimp only at hentry
            exact resolveRequestBody_required fuel ctx fn a rb hentry
        · exact Option.noConfusion (Option.some.inj hentry)
      · exact ih ctx tr' htr' rb htail

/-- **C6.**  At most one request body per handler: a resolved request
body is always `required`; once a body is recorded the rest of the
traversal never changes it (later binding calls are ignored); and the
recorded body of a handler is exactly the first resolvable binding call
of the traversal-ordered binding trace — in particular it is none when no
binding call's type resolves. -/
theorem c6_request_body :
    (∀ fuel : Nat, ∀ ctx : AnalysisContext, ∀ fn arg : Expr, ∀ rb : RequestBody,
        resolveRequestBody fuel ctx fn arg = some (some rb) →
        rb.required = true) ∧
    (∀ fuel : Nat, ∀ nodes : List ANode,
      ∀ st st' : AnalysisContext × HandlerAnalysis, ∀ rb : RequestBody,
        analyzeNodes fuel nodes st = some st' →
        st.2.requestBody = some rb →
        st'.2.requestBody = some rb) ∧
    (∀ fuel : Nat, ∀ structs : List (Str × List GoField),
      ∀ functions : List (Str × List FuncSignature), ∀ body : List ANode,
      ∀ analysis : HandlerAnalysis, ∀ tr : List (Option RequestBody),
        analyzeHandlerDetails fuel structs functions body = some analysis →
        bindingTrace fuel body
          { structs := structs, functions := functions, vars := [], vals := [] }
            = some tr →
        analysis.requestBody = firstSome tr ∧
        (∀ rb : RequestBody, analysis.requestBody = some rb →
          rb.required = true)) := by
  refine ⟨?_, ?_, ?_⟩
  · exact fun fuel ctx fn arg rb h => resolveRequestBody_required fuel ctx fn arg rb h
  · exact fun fuel nodes st st' rb h hrb =>
      analyzeNodes_rb_some fuel nodes st st' rb h hrb
  · intro fuel structs functions body analysis tr h htr
    simp only [analyzeHandlerDetails] at h
    rw [Option.map_eq_some'] at h
    obtain ⟨st', hn, heq⟩ := h
    subst heq
    have hfs := bindingTrace_correct fuel body _ _ st' tr hn htr rfl
    refine ⟨hfs, ?_⟩
    intro rb hrb
    rw [hfs] at hrb
    exact bindingTrace_mem_required fuel body _ tr htr rb (firstSome_mem tr rb hrb)

/-- The struct table of the C6 witness: one plain `User` struct. -/
def c6structs : List (Str × List GoField) :=
  [(S "User", [GoField.mk [S "Name"] (.ident (S "string")) none [] []])]

/-- The handler body of the C6 witness: declare `var req User`, then two
binding calls `c.ShouldBindJSON(&req)` and `c.BindJSON(&req)`. -/
def c6body : List ANode :=
  [.declNode [⟨[S "req"], some (.ident (S "User")), []⟩],
   .callNode (.selector (.ident (S "c")) (S "ShouldBindJSON"))
     [.unary .addrOf (.ident (S "req"))],
   .callNode (.selector (.ident (S "c")) (S "BindJSON"))
     [.unary .addrOf (.ident (S "req"))]]

/-- The initial scope of the C6 witness. -/
def c6ctx : AnalysisContext :=
  { structs := c6structs, functions := [], vars := [], vals := [] }

/-- The analysis the C6 witness handler produces. -/
def c6analysis : HandlerAnalysis :=
  (analyzeHandlerDetails 30 c6structs [] c6body).getD ⟨none, []⟩

/-- The binding trace of the C6 witness handler. -/
def c6trace : List (Option RequestBody) :=
  (bindingTrace 30 c6body c6ctx).getD []

theorem c6_request_body_witness :
    analyzeHandlerDetails 30 c6structs [] c6body = some c6analysis ∧
    bindingTrace 30 c6body c6ctx = some c6trace ∧
    (c6analysis.requestBody = firstSome c6trace ∧
      ∀ rb : RequestBody, c6analysis.requestBody = some rb →
        rb.required = true) :=
  ⟨rfl, rfl,
    c6_request_body.2.2 30 c6structs [] c6body c6analysis c6trace rfl rfl⟩

/-! ### Claim C9: double-checked locking runs one analysis -/

/-- Per-caller invariant of the double-checked locking protocol, relative
to the shared run counter and cache cell. -/
def threadInv (v : Option Nat) (runs : Nat) (cache : Option (Option Nat))
    (t : ThreadState) : Prop :=
  (t.pc = .runlockHit → t.localVal = some v ∧ cache = some v) ∧
  (t.pc = .analyze → runs = 0 ∧ cache = none) ∧
  (t.pc = .store → t.localVal = some v ∧ cache = none ∧ runs = 1) ∧
  (t.pc = .unlockW → t.localVal = some v ∧ cache = some v ∧ runs = 1) ∧
  (t.pc = .unlockRet → t.localVal = some v ∧ cache = some v ∧ runs = 1) ∧
  (t.pc = .done → t.ret = some v ∧ runs = 1)

/-- The machine invariant: the cache only ever holds the analysis
outcome, at most one analysis has run, a non-empty cache means it has
run, a run that has happened is visible (cache filled or a store
pending), the read/write locks exclude each other, and both callers
satisfy their per-thread invariant. -/
def Inv (v : Option Nat) (s : MachineState) : Prop :=
  (s.cache = none ∨ s.cache = some v) ∧
  (s.runs = 0 ∨ s.runs = 1) ∧
  (s.cache = none ∨ s.runs = 1) ∧
  (s.runs = 0 ∨ s.cache = some v ∨ s.t1.pc = .store ∨ s.t2.pc = .store) ∧
  ¬(holdsWrite s.t1.pc ∧ holdsWrite s.t2.pc) ∧
  ¬(holdsRead s.t1.pc ∧ holdsWrite s.t2.pc) ∧
  ¬(holdsWrite s.t1.pc ∧ holdsRead s.t2.pc) ∧
  threadInv v s.runs s.cache s.t1 ∧
  threadInv v s.runs s.cache s.t2

/-- The initial machine satisfies the invariant. -/
theorem initMachine_inv (v : Option Nat) : Inv v initMachine := by
  simp [Inv, threadInv, initMachine, holdsRead, holdsWrite]

set_option maxHeartbeats 6400000 in
/-- One scheduler step preserves the invariant. -/
theorem step_preserves (v : Option Nat) (s : MachineState) (c : Bool)
    (h : Inv v s) : Inv v (step v s c) := by
  obtain ⟨⟨pc1, lv1, ret1⟩, ⟨pc2, lv2, ret2⟩, cache, runs⟩ := s
  simp only [Inv, threadInv, holdsRead, holdsWrite] at h
  obtain ⟨h1, h2, h3, h4, h5, h6, h7,
    ⟨a1, a2, a3, a4, a5, a6⟩, ⟨b1, b2, b3, b4, b5, b6⟩⟩ := h
  cases c with
  | true =>
    cases pc1 <;>
      (try cases cache) <;>
      (try cases lv1) <;>
      simp only [step, stepThread] <;>
      (try split_ifs) <;>
      (try simp_all [Inv, threadInv, holdsRead, holdsWrite])
  | false =>
    cases pc2 <;>
      (try cases cache) <;>
      (try cases lv2) <;>
      simp only [step, stepThread] <;>
      (try split_ifs) <;>
      (try simp_all [Inv, threadInv, holdsRead, holdsWrite])

/-- The invariant holds after any finite schedule. -/
theorem runSched_preserves (v : Option Nat) (sched : List Bool) :
    ∀ s : MachineState, Inv v s → Inv v (runSched v sched s) := by
  induction sched with
  | nil => intro s h; exact h
  | cons c rest ih =>
    intro s h
    exact ih (step v s c) (step_preserves v s c h)

/-- **C9.**  Under every interleaving of two callers racing on the same
cold directory, if both callers finish then the underlying analysis ran
exactly once and both callers return the same cached outcome `v` —
read-after-write consistency of the double-checked locking in
`loadPackageAnalysis`. -/
theorem c9_single_analysis (v : Option Nat) (sched : List Bool)
    (h1 : (runSched v sched initMachine).t1.pc = .done)
    (h2 : (runSched v sched initMachine).t2.pc = .done) :
    (runSched v sched initMachine).runs = 1 ∧
    (runSched v sched initMachine).t1.ret = some v ∧
    (runSched v sched initMachine).t2.ret = some v := by
  have hinv := runSched_preserves v sched initMachine (initMachine_inv v)
  obtain ⟨-, -, -, -, -, -, -, ht1, ht2⟩ := hinv
  have d1 := ht1.2.2.2.2.2 h1
  have d2 := ht2.2.2.2.2.2 h2
  exact ⟨d1.2, d1.1, d2.1⟩

/-- A schedule letting caller 1 run the whole miss path, then caller 2
hit the filled cache. -/
def c9sched : List Bool :=
  [true, true, true, true, true, true, true, true, false, false, false]

theorem c9_single_analysis_witness :
    (runSched (some 7) c9sched initMachine).t1.pc = .done ∧
    (runSched (some 7) c9sched initMachine).t2.pc = .done ∧
    ((runSched (some 7) c9sched initMachine).runs = 1 ∧
      (runSched (some 7) c9sched initMachine).t1.ret = some (some 7) ∧
      (runSched (some 7) c9sched initMachine).t2.ret = some (some 7)) :=
  ⟨rfl, rfl, c9_single_analysis (some 7) c9sched rfl rfl⟩

end ByteDocs
